import Mathlib

/-!
# Numeric utilities of `02-numbers-tasks.js`

A shallow embedding of the functions of `src/02-numbers-tasks.js` and the proofs of what the
specification says about them.

A finite Number value is modelled by the rational it holds (`ℚ`); `roundToDouble` is the rounding
of IEEE 754 doubles (to nearest, ties to even), and the operations that round in the source
(`/`, `*`, `+`, `Math.sqrt`, `parseInt`, unary `+` on a string) apply it to their exact result.
The sign of a zero is not modelled. The built-ins the source calls (`Math.round`, `Math.floor`,
`%`, `parseInt`, template literal conversion, `Number.prototype.toFixed`, unary `+` on a string,
`Math.sqrt`, `Math.acos`, `/`) are embedded from their ECMAScript definitions.

Where the specification states a property over exact rationals or exact reals, the function is
also given without rounding (`getAverage`, `roundToPowerOfTen` over `ℚ`,
`getDistanceBetweenPoints` and `getAngleBetweenVectors` over `ℝ`); the definitions that round
carry the suffix `Double`.
-/

namespace NumbersTasks

/-! ## Values -/

/-- The JavaScript values that reach the dynamically typed functions of the module
(`toNumber` takes and returns `any`, `getLastDigit` and `getLinearEquationRoot` return strings).
Objects and symbols are not modelled. -/
inductive JSValue where
  | undefined
  | null
  | bool (b : Bool)
  | num (x : ℚ)
  | nan
  | infinity (negative : Bool)
  | str (s : String)
deriving DecidableEq

/-- The `typeof` operator. -/
def typeofJS : JSValue → String
  | .undefined => "undefined"
  | .null => "object"
  | .bool _ => "boolean"
  | .num _ => "number"
  | .nan => "number"
  | .infinity _ => "number"
  | .str _ => "string"

/-- `Number.isNaN`. -/
def numberIsNaN : JSValue → Bool
  | .nan => true
  | _ => false

/-! ## Arithmetic built-ins -/

/-- `Math.floor`. -/
def mathFloor (x : ℚ) : ℤ := ⌊x⌋

/-- `Math.round`: the integer nearest to `x`, a tie going to the larger one (`floor(x + 0.5)`). -/
def mathRound (x : ℚ) : ℤ := ⌊x + 1 / 2⌋

/-- Truncation towards zero, the quotient the `%` operator uses. -/
def mathTrunc (x : ℚ) : ℤ := if 0 ≤ x then ⌊x⌋ else ⌈x⌉

/-- The `%` operator on numbers: the remainder takes the sign of the dividend
(`x - y * trunc(x / y)`); the source only divides by the non-zero constant 2. -/
def jsRemainder (x y : ℚ) : ℚ := x - y * mathTrunc (x / y)

/-! ## Doubles -/

/-- The integer nearest to `x`, a tie going to the even one (IEEE 754 round to nearest, ties to
even). -/
def roundHalfEven (x : ℚ) : ℤ :=
  if x - ⌊x⌋ < 1 / 2 then ⌊x⌋
  else if 1 / 2 < x - ⌊x⌋ then ⌊x⌋ + 1
  else if ⌊x⌋ % 2 = 0 then ⌊x⌋ else ⌊x⌋ + 1

/-- The exponent of the unit in the last place of the doubles around `x`: 52 below the binary
exponent of `x`, and `-1074` for the subnormal numbers, those below `2 ^ (-1022)`. -/
def ulpExponent (x : ℚ) : ℤ := max (Int.log 2 |x|) (-1022) - 52

/-- The double nearest to `x`, a tie going to the one with the even significand. The exponent is
not bounded above: a result of magnitude `2 ^ 1024` or more stands for an overflow. -/
def roundToDouble (x : ℚ) : ℚ :=
  if x = 0 then 0 else roundHalfEven (x / 2 ^ ulpExponent x) * 2 ^ ulpExponent x

/-- A finite double: `m * 2 ^ j` for integers `m` and `j` with `|m| < 2 ^ 53` and
`-1074 ≤ j ≤ 971`. -/
def IsDouble (x : ℚ) : Prop :=
  ∃ m j : ℤ, |m| < 2 ^ 53 ∧ -1074 ≤ j ∧ j ≤ 971 ∧ x = m * 2 ^ j

/-- The Number value of a mathematical value (`𝔽(x)`): the nearest double, or an infinity when
that is beyond the largest double. -/
def toNumberValue (x : ℚ) : JSValue :=
  if 2 ^ 1024 ≤ |roundToDouble x| then .infinity (decide (x < 0)) else .num (roundToDouble x)

/-- The `/` operator on two finite doubles: the quotient is rounded; `0 / 0` is `NaN` and any
other division by zero an infinity with the sign of the dividend. -/
def jsDivideDouble (x y : ℚ) : JSValue :=
  if y = 0 then (if x = 0 then .nan else .infinity (decide (x < 0))) else toNumberValue (x / y)

/-- `Math.sqrt` on a finite double: the double nearest to the square root (`0` for an argument
that is not positive; the source takes roots of sums of squares). With `4 ^ e ≤ x < 4 ^ (e + 1)`
the root lies in `[2 ^ e, 2 ^ (e + 1))`, where doubles are `2 ^ (e - 52)` apart, and `m` is the
root in these units, rounded down. -/
def mathSqrtDouble (x : ℚ) : ℚ :=
  if x ≤ 0 then 0
  else
    let u : ℚ := 2 ^ (Int.log 4 x - 52)
    let y := x / (u * u)
    let m : ℕ := Nat.sqrt ⌊y⌋₊
    let half : ℚ := (m : ℚ) + 1 / 2
    if y < half * half then m * u
    else if half * half < y then (m + 1) * u
    else if m % 2 = 0 then m * u else (m + 1) * u

/-! ## Strings of digits -/

/-- The characters `parseInt` and unary `+` skip around a numeral (`StrWhiteSpaceChar`:
white space and line terminators). -/
def isStrWhiteSpaceChar (c : Char) : Bool :=
  c.toNat ∈ [0x09, 0x0A, 0x0B, 0x0C, 0x0D, 0x20, 0xA0, 0x1680, 0x2000, 0x2001, 0x2002, 0x2003,
    0x2004, 0x2005, 0x2006, 0x2007, 0x2008, 0x2009, 0x200A, 0x2028, 0x2029, 0x202F, 0x205F,
    0x3000, 0xFEFF]

/-- The number a string of decimal digits denotes. -/
def digitsValue (ds : List Char) : ℕ :=
  ds.foldl (fun acc c => 10 * acc + (c.toNat - 48)) 0

/-- Drops the zeros at the end of a digit string. -/
def stripTrailingZeros (ds : List Char) : List Char :=
  (ds.reverse.dropWhile (· == '0')).reverse

/-- The least `j` (searched from `j` upwards, `fuel` steps) for which `x * 10 ^ j` is an integer. -/
def leastDecimalScale : ℕ → ℚ → ℕ → ℕ
  | 0, _, j => j
  | fuel + 1, x, j => if x.den = 1 then j else leastDecimalScale fuel (x * 10) (j + 1)

/-- The last steps of `Number::toString` in radix 10: `s` holds the `k` significant digits and
the number is `0.s × 10 ^ n`. Plain decimal notation is used for `-5 ≤ n ≤ 21`, exponent
notation otherwise. -/
def formatDecimal (s : List Char) (n : ℤ) : List Char :=
  let k : ℤ := s.length
  if -5 ≤ n ∧ n ≤ 21 then
    if k ≤ n then s ++ List.replicate (n - k).toNat '0'
    else if 0 < n then s.take n.toNat ++ '.' :: s.drop n.toNat
    else '0' :: '.' :: List.replicate (-n).toNat '0' ++ s
  else
    let e := n - 1
    let exponent := (if e < 0 then '-' else '+') :: Nat.toDigits 10 e.natAbs
    if k = 1 then s ++ 'e' :: exponent
    else s.take 1 ++ '.' :: s.drop 1 ++ 'e' :: exponent

/-- `Number::toString(x)` in radix 10, with the digits of the finite decimal expansion of `x`.
These are the digits `Number::toString` prints (the fewest that read back as `x`) for every
integer up to `2 ^ 53` in magnitude, for the powers of ten, and for every double whose expansion
has at most 15 significant digits; the shorter digit strings `Number::toString` finds for other
doubles are not modelled, and for a rational without a finite expansion the result carries no
meaning. -/
def numberToString (x : ℚ) : List Char :=
  if x = 0 then ['0']
  else
    let y := |x|
    let j := leastDecimalScale y.den y 0
    let ds := Nat.toDigits 10 (y * 10 ^ j).num.natAbs
    (if x < 0 then ['-'] else []) ++ formatDecimal (stripTrailingZeros ds) ((ds.length : ℤ) - j)

/-- The abstract operation `ToString`. -/
def toStringJS : JSValue → List Char
  | .undefined => "undefined".toList
  | .null => "null".toList
  | .bool true => "true".toList
  | .bool false => "false".toList
  | .num x => numberToString x
  | .nan => "NaN".toList
  | .infinity false => "Infinity".toList
  | .infinity true => "-Infinity".toList
  | .str s => s.toList

/-- `String.prototype.trimStart` for the white space of numerals. -/
def trimStart (s : List Char) : List Char := s.dropWhile isStrWhiteSpaceChar

/-- `String.prototype.trimEnd` for the white space of numerals. -/
def trimEnd (s : List Char) : List Char := (s.reverse.dropWhile isStrWhiteSpaceChar).reverse

/-- The sign a leading `-` gives a numeral (`+` or no sign: 1). -/
def leadingSign : List Char → ℤ
  | '-' :: _ => -1
  | _ => 1

/-- Removes one leading `+` or `-`. -/
def dropSign : List Char → List Char
  | '+' :: rest => rest
  | '-' :: rest => rest
  | s => s

/-- `parseInt(value, 10)`: the argument is converted to a string, leading white space and one
sign are skipped, and the longest run of decimal digits is read; no digit gives `NaN`, and the
integer read is returned as a Number value, the nearest double. (From the 21st significant digit
on ECMAScript lets an implementation read a digit as 0; the digits are read as they are here.) -/
def parseInt10 (value : JSValue) : JSValue :=
  let inputString := toStringJS value
  let s := trimStart inputString
  let sign := leadingSign s
  let s := dropSign s
  let z := s.takeWhile Char.isDigit
  if z = [] then .nan else toNumberValue ((sign * (digitsValue z : ℤ) : ℤ) : ℚ)

/-- `Number.prototype.toFixed(0)`: a sign, then the integer nearest to the magnitude (the larger
one on a tie) in decimal digits; from `10 ^ 21` on, `Number::toString` of the magnitude. -/
def toFixed0 (x : ℚ) : List Char :=
  let s := if x < 0 then ['-'] else []
  let x := if x < 0 then -x else x
  if 10 ^ 21 ≤ x then s ++ numberToString x
  else
    let n : ℤ := ⌊x + 1 / 2⌋
    s ++ (if n = 0 then ['0'] else Nat.toDigits 10 n.toNat)

/-- `toFixed(0)` on the result of an arithmetic operation: `NaN` and the infinities are rendered
by `Number::toString`. -/
def toFixed0Value : JSValue → List Char
  | .num x => toFixed0 x
  | v => toStringJS v

/-- The optional exponent part of a decimal literal (`e` or `E`, a sign, digits), or nothing. -/
def parseExponentPart : List Char → Option ℤ
  | [] => some 0
  | c :: rest =>
    if c = 'e' ∨ c = 'E' then
      let ds := dropSign rest
      if ds ≠ [] ∧ ds.all Char.isDigit then some (leadingSign rest * (digitsValue ds : ℤ))
      else none
    else none

/-- The digits of the fraction of a decimal literal: those after a `.`, if there is one. -/
def fractionDigits : List Char → List Char
  | '.' :: r => r.takeWhile Char.isDigit
  | _ => []

/-- What follows the fraction of a decimal literal. -/
def afterFraction : List Char → List Char
  | '.' :: r => r.dropWhile Char.isDigit
  | rest => rest

/-- The value of a `StrUnsignedDecimalLiteral`: `Infinity`, or digits with an optional fraction and
an optional exponent (one digit at least before the exponent), whose mathematical value is returned
as a Number value, the nearest double; anything else is `NaN`. (From the 21st significant digit on
ECMAScript lets an implementation read a digit as 0; the digits are read as they are here.) -/
def parseUnsignedDecimal (t : List Char) : JSValue :=
  if t = "Infinity".toList then .infinity false
  else
    let intPart := t.takeWhile Char.isDigit
    let rest := t.dropWhile Char.isDigit
    let fracPart := fractionDigits rest
    let rest := afterFraction rest
    if intPart = [] ∧ fracPart = [] then .nan
    else match parseExponentPart rest with
      | none => .nan
      | some e =>
        toNumberValue
          (((digitsValue intPart : ℚ) + (digitsValue fracPart : ℚ) / 10 ^ fracPart.length)
            * 10 ^ e)

/-- Unary minus on the numbers a literal can denote. -/
def negateNumber : JSValue → JSValue
  | .num x => .num (-x)
  | .infinity b => .infinity (!b)
  | v => v

/-- The value of a digit in radix 2, 8 or 16 (36 for a character that is no digit). -/
def radixDigitValue (c : Char) : ℕ :=
  if c.isDigit then c.toNat - 48
  else if 'a'.toNat ≤ c.toNat ∧ c.toNat ≤ 'f'.toNat then c.toNat - 87
  else if 'A'.toNat ≤ c.toNat ∧ c.toNat ≤ 'F'.toNat then c.toNat - 55
  else 36

/-- The value of the digits of a `NonDecimalIntegerLiteral`, as a Number value. -/
def parseRadixDigits (radix : ℕ) (ds : List Char) : JSValue :=
  if ds ≠ [] ∧ ds.all (fun c => radixDigitValue c < radix) then
    toNumberValue ((ds.foldl (fun acc c => radix * acc + radixDigitValue c) 0 : ℕ) : ℚ)
  else .nan

/-- `StringToNumber`, the conversion behind unary `+` and `Number(...)` on a string: white space
around the literal is dropped, the empty string is 0, and a string that is no numeric literal
is `NaN`. -/
def stringToNumber (str : List Char) : JSValue :=
  let t := trimEnd (trimStart str)
  match t with
  | [] => .num 0
  | '0' :: 'x' :: ds => parseRadixDigits 16 ds
  | '0' :: 'X' :: ds => parseRadixDigits 16 ds
  | '0' :: 'o' :: ds => parseRadixDigits 8 ds
  | '0' :: 'O' :: ds => parseRadixDigits 8 ds
  | '0' :: 'b' :: ds => parseRadixDigits 2 ds
  | '0' :: 'B' :: ds => parseRadixDigits 2 ds
  | '+' :: rest => parseUnsignedDecimal rest
  | '-' :: rest => negateNumber (parseUnsignedDecimal rest)
  | _ => parseUnsignedDecimal t

/-! ## The functions of the module -/

/-- The source's `getAverage`, over exact rationals:
`avrg1 = value1 % 2; avrg2 = value2 % 2; sum2 = (avrg1 + avrg2) / 2;`
`a` is `Math.round(value1 / 2)` when `value1 / 2 < 0` and `Math.floor(value1 / 2)` otherwise,
`b` likewise; the result is `a + b + sum2`. -/
def getAverage (value1 value2 : ℚ) : ℚ :=
  let avrg1 := jsRemainder value1 2
  let avrg2 := jsRemainder value2 2
  let sum2 := (avrg1 + avrg2) / 2
  let a : ℤ := if value1 / 2 < 0 then mathRound (value1 / 2) else mathFloor (value1 / 2)
  let b : ℤ := if value2 / 2 < 0 then mathRound (value2 / 2) else mathFloor (value2 / 2)
  a + b + sum2

/-- The source's `getAverage` on doubles, statement by statement: `%`, `Math.round` and
`Math.floor` are exact on doubles, every sum and every division by 2 is rounded. No operation
overflows, a half and a sum of two halves being within the range of doubles. -/
def getAverageDouble (value1 value2 : ℚ) : ℚ :=
  let avrg1 := jsRemainder value1 2
  let avrg2 := jsRemainder value2 2
  let sum2 := roundToDouble (roundToDouble (avrg1 + avrg2) / 2)
  let half1 := roundToDouble (value1 / 2)
  let half2 := roundToDouble (value2 / 2)
  let a : ℤ := if half1 < 0 then mathRound half1 else mathFloor half1
  let b : ℤ := if half2 < 0 then mathRound half2 else mathFloor half2
  roundToDouble (roundToDouble ((a : ℚ) + b) + sum2)

/-- The source's `getLinearEquationRoot`: `(-b / a).toFixed(0)`, a string; the negation is exact
and the quotient is rounded to a double. -/
def getLinearEquationRoot (a b : ℚ) : JSValue :=
  .str (String.mk (toFixed0Value (jsDivideDouble (-b) a)))

/-- The source's `getLastDigit`: the value is rendered by a template literal, the string is split
into its characters and the one at index `length - 1` is returned (`undefined` when there is
none). -/
def getLastDigit (value : JSValue) : JSValue :=
  let str := toStringJS value
  let chars := str.map String.singleton
  match chars.get? (chars.length - 1) with
  | some c => .str c
  | none => .undefined

/-- The source's `parseNumberFromString`: unary `+` on the string. -/
def parseNumberFromString (value : String) : JSValue := stringToNumber value.toList

/-- The source's `roundToPowerOfTen`, over exact rationals:
`Math.round(n / 10 ** pow) * 10 ** pow`, for the non-negative integer powers the specification
gives it. -/
def roundToPowerOfTen (n : ℚ) (pow : ℕ) : ℚ :=
  mathRound (n / 10 ^ pow) * 10 ^ pow

/-- The source's `roundToPowerOfTen` on doubles: `10 ** pow` is the double nearest to `10 ^ pow`
(the power itself up to `10 ^ 22`), the quotient and the product are rounded, and `Math.round` is
exact. From `pow = 309` on `10 ** pow` is `Infinity`, the quotient is 0 and `0 * Infinity` is
`NaN`. -/
def roundToPowerOfTenDouble (n : ℚ) (pow : ℕ) : JSValue :=
  let p := roundToDouble (10 ^ pow)
  if 2 ^ 1024 ≤ p then .nan
  else toNumberValue ((mathRound (roundToDouble (n / p)) : ℚ) * p)

/-- The loop of `isPrime`: `for (let i = 5; i * i <= n; i += 6)` with the body
`if (n % i === 0 || n % (i + 2) === 0) return false;`, and `return true` after it. -/
def isPrimeLoop (n : ℤ) (i : ℕ) : Bool :=
  if (i : ℤ) * i ≤ n then
    if n.tmod i = 0 ∨ n.tmod (i + 2) = 0 then false
    else isPrimeLoop n (i + 6)
  else true
termination_by (n.toNat + 1 - i)
decreasing_by
  have h1 : (i : ℤ) ≤ i * i := by nlinarith [Int.natCast_nonneg i, sq_nonneg ((i : ℤ) - 1)]
  omega

/-- The source's `isPrime`, on integers; `%` is the truncating remainder. -/
def isPrime (n : ℤ) : Bool :=
  if n = 2 ∨ n = 3 then true
  else if n ≤ 1 ∨ n.tmod 2 = 0 ∨ n.tmod 3 = 0 then false
  else isPrimeLoop n 5

/-- The source's `toNumber`: `parseInt(value, 10)` when that is a number other than `NaN`,
the default otherwise. -/
def toNumber (value def_ : JSValue) : JSValue :=
  let convNumb := parseInt10 value
  if typeofJS convNumb = "number" ∧ ¬ numberIsNaN convNumb then convNumb else def_

/-! ## Reference definitions from the specification -/

/-- Brute-force trial division, as the specification's test describes it: `n` is at least 2 and
no `d` with `2 ≤ d < n` divides it. -/
def bruteForceIsPrime (n : ℤ) : Bool :=
  decide (2 ≤ n) && (List.range' 2 (n.toNat - 2)).all (fun d => n.tmod d != 0)

/-- The base-10 string of an integer: an optional leading `-`, then its digits. -/
def decimalString (n : ℤ) : String :=
  String.mk ((if n < 0 then ['-'] else []) ++ Nat.toDigits 10 n.natAbs)

/-- A string has an integer numeral at its start when, after white space, an optional sign is
followed by a decimal digit. -/
def StartsWithInteger (s : List Char) : Prop :=
  ∃ (ws sign rest : List Char) (d : Char), s = ws ++ sign ++ d :: rest ∧
    (∀ c ∈ ws, isStrWhiteSpaceChar c = true) ∧ (sign = [] ∨ sign = ['+'] ∨ sign = ['-']) ∧
    d.isDigit = true

/-! ## Real-valued built-ins and functions -/

/-- The results of the source's real arithmetic: a real number, `NaN`, or an infinity. -/
inductive JSReal where
  | finite (x : ℝ)
  | nan
  | infinity (negative : Bool)

/-- `Math.sqrt`, on the non-negative arguments the source gives it (sums of squares). -/
noncomputable def mathSqrt (x : ℝ) : ℝ := Real.sqrt x

/-- The `/` operator on real numbers with a non-negative divisor: `0 / 0` is `NaN`, any other
division by zero is an infinity with the sign of the dividend. -/
noncomputable def jsDivide (x y : ℝ) : JSReal :=
  if y = 0 then (if x = 0 then .nan else .infinity (decide (x < 0))) else .finite (x / y)

/-- `Math.acos`: the arc cosine of a number in `[-1, 1]`, `NaN` for anything else. -/
noncomputable def mathAcos : JSReal → JSReal
  | .finite x => if -1 ≤ x ∧ x ≤ 1 then .finite (Real.arccos x) else .nan
  | _ => .nan

/-- The source's `getDistanceBetweenPoints`: `Math.sqrt((x2 - x1) ** 2 + (y2 - y1) ** 2)`. -/
noncomputable def getDistanceBetweenPoints (x1 y1 x2 y2 : ℝ) : ℝ :=
  mathSqrt ((x2 - x1) ^ 2 + (y2 - y1) ^ 2)

/-- The source's `getAngleBetweenVectors`: `dotProduct = x1 * x2 + y1 * y2`,
`magn1 = Math.sqrt(x1 ** 2 + y1 ** 2)`, `magn2 = Math.sqrt(x2 ** 2 + y2 ** 2)`, and the result
`Math.acos(dotProduct / (magn1 * magn2))`. -/
noncomputable def getAngleBetweenVectors (x1 y1 x2 y2 : ℝ) : JSReal :=
  let dotProduct := x1 * x2 + y1 * y2
  let magn1 := mathSqrt (x1 ^ 2 + y1 ^ 2)
  let magn2 := mathSqrt (x2 ^ 2 + y2 ^ 2)
  mathAcos (jsDivide dotProduct (magn1 * magn2))

/-- The argument the source's `getAngleBetweenVectors` hands to `Math.acos`, on doubles whose
products and squares stay within the range of doubles: every product, square and sum is rounded,
`Math.sqrt` returns the nearest double, and the quotient is rounded. -/
def angleCosineDouble (x1 y1 x2 y2 : ℚ) : JSValue :=
  let dotProduct := roundToDouble (roundToDouble (x1 * x2) + roundToDouble (y1 * y2))
  let magn1 := mathSqrtDouble (roundToDouble (roundToDouble (x1 ^ 2) + roundToDouble (y1 ^ 2)))
  let magn2 := mathSqrtDouble (roundToDouble (roundToDouble (x2 ^ 2) + roundToDouble (y2 ^ 2)))
  jsDivideDouble dotProduct (roundToDouble (magn1 * magn2))

/-- Whether `Math.acos` returns `NaN`: it does for `NaN` and for every argument outside
`[-1, 1]`, the infinities included. -/
def mathAcosIsNaN : JSValue → Bool
  | .num x => decide (x < -1 ∨ 1 < x)
  | _ => true

/-- Whether the source's `getAngleBetweenVectors` returns `NaN` on doubles. -/
def getAngleBetweenVectorsIsNaN (x1 y1 x2 y2 : ℚ) : Bool :=
  mathAcosIsNaN (angleCosineDouble x1 y1 x2 y2)

/-! ## An instrumented run of `isPrime` -/

/-- What can stop a run of `isPrime` short of a result: the step budget is used up, or a
remainder is taken by zero. -/
inductive RunError where
  | outOfFuel
  | remainderByZero
deriving DecidableEq

/-- The `%` operator on integers, refusing a zero divisor. -/
def checkedRemainder (n d : ℤ) : Except RunError ℤ :=
  if d = 0 then .error .remainderByZero else .ok (n.tmod d)

/-- The loop of `isPrime` run for at most `fuel` iterations, each remainder checked; `||`
evaluates its right operand only when the left one is false. -/
def isPrimeLoopRun : ℕ → ℤ → ℕ → Except RunError Bool
  | 0, _, _ => .error .outOfFuel
  | fuel + 1, n, i =>
    if (i : ℤ) * i ≤ n then
      match checkedRemainder n i with
      | .error e => .error e
      | .ok r1 =>
        if r1 = 0 then .ok false
        else match checkedRemainder n (i + 2) with
          | .error e => .error e
          | .ok r2 => if r2 = 0 then .ok false else isPrimeLoopRun fuel n (i + 6)
    else .ok true

/-- The source's `isPrime` run with a budget of `fuel` loop iterations, each remainder checked. -/
def isPrimeRun (fuel : ℕ) (n : ℤ) : Except RunError Bool :=
  if n = 2 ∨ n = 3 then .ok true
  else if n ≤ 1 then .ok false
  else match checkedRemainder n 2 with
    | .error e => .error e
    | .ok r2 =>
      if r2 = 0 then .ok false
      else match checkedRemainder n 3 with
        | .error e => .error e
        | .ok r3 => if r3 = 0 then .ok false else isPrimeLoopRun fuel n 5

/-! ## Decimal literals, as the specification describes them -/

/-- The text of an optional fraction: nothing, or a `.` followed by the digits. -/
def fractionText : Option (List Char) → List Char
  | none => []
  | some fracDigits => '.' :: fracDigits

/-- A signed integer or decimal literal: an optional `-`, the digits of the integer part and,
optionally, a `.` followed by the digits of the fraction. -/
def decimalLiteral (negative : Bool) (intDigits : List Char) (fraction : Option (List Char)) :
    String :=
  String.mk ((if negative then ['-'] else []) ++ intDigits ++ fractionText fraction)

/-- The number a decimal literal denotes: its digits, integer part and fraction together, read
in base 10 and divided by `10` to the number of fraction digits, with the sign. -/
def decimalLiteralValue (negative : Bool) (intDigits : List Char) (fraction : Option (List Char)) :
    ℚ :=
  let fracDigits := fraction.getD []
  (if negative then -1 else 1) *
    ((Nat.ofDigits 10 ((intDigits ++ fracDigits).reverse.map (fun c => c.toNat - 48)) : ℕ) : ℚ)
    / 10 ^ fracDigits.length

/-! ## Numeric literals of strings, as a grammar

The strings unary `+` accepts, written as the grammar `StringNumericLiteral` of ECMAScript states
them, independently of the reading algorithm above. -/

/-- `DecimalDigits`: one or more decimal digits. -/
def IsDecimalDigits (ds : List Char) : Prop :=
  ds ≠ [] ∧ ∀ c ∈ ds, c.isDigit = true

/-- `ExponentPart`, or nothing: `e` or `E`, an optional sign, and decimal digits. -/
def IsOptionalExponent (ex : List Char) : Prop :=
  ex = [] ∨ ∃ (ind : Char) (sign ds : List Char), ex = ind :: (sign ++ ds) ∧
    (ind = 'e' ∨ ind = 'E') ∧ (sign = [] ∨ sign = ['+'] ∨ sign = ['-']) ∧ IsDecimalDigits ds

/-- `StrUnsignedDecimalLiteral`: `Infinity`, digits with a `.` and optional fraction digits,
a `.` with fraction digits, or digits alone; each of the last three with an optional exponent. -/
def IsStrUnsignedDecimalLiteral (u : List Char) : Prop :=
  u = "Infinity".toList ∨
  (∃ ip fp ex, IsDecimalDigits ip ∧ (∀ c ∈ fp, c.isDigit = true) ∧ IsOptionalExponent ex ∧
    u = ip ++ '.' :: (fp ++ ex)) ∨
  (∃ fp ex, IsDecimalDigits fp ∧ IsOptionalExponent ex ∧ u = '.' :: (fp ++ ex)) ∨
  (∃ ip ex, IsDecimalDigits ip ∧ IsOptionalExponent ex ∧ u = ip ++ ex)

/-- `StrDecimalLiteral`: an unsigned decimal literal with an optional `+` or `-`. -/
def IsStrDecimalLiteral (t : List Char) : Prop :=
  ∃ sign u, (sign = [] ∨ sign = ['+'] ∨ sign = ['-']) ∧ IsStrUnsignedDecimalLiteral u ∧
    t = sign ++ u

/-- A hexadecimal digit. -/
def IsHexDigit (c : Char) : Prop :=
  (48 ≤ c.toNat ∧ c.toNat ≤ 57) ∨ (97 ≤ c.toNat ∧ c.toNat ≤ 102) ∨ (65 ≤ c.toNat ∧ c.toNat ≤ 70)

/-- An octal digit. -/
def IsOctalDigit (c : Char) : Prop := 48 ≤ c.toNat ∧ c.toNat ≤ 55

/-- A binary digit. -/
def IsBinaryDigit (c : Char) : Prop := c = '0' ∨ c = '1'

/-- `NonDecimalIntegerLiteral`: `0x`, `0o` or `0b` (either case) and one or more digits of that
radix. -/
def IsNonDecimalIntegerLiteral (t : List Char) : Prop :=
  ∃ (p : Char) (ds : List Char), t = '0' :: p :: ds ∧ ds ≠ [] ∧
    (((p = 'x' ∨ p = 'X') ∧ ∀ c ∈ ds, IsHexDigit c) ∨
     ((p = 'o' ∨ p = 'O') ∧ ∀ c ∈ ds, IsOctalDigit c) ∨
     ((p = 'b' ∨ p = 'B') ∧ ∀ c ∈ ds, IsBinaryDigit c))

/-- `StringNumericLiteral`: white space, then nothing or a decimal or non-decimal literal, then
white space. -/
def IsStringNumericLiteral (s : List Char) : Prop :=
  ∃ ws1 t ws2, s = ws1 ++ t ++ ws2 ∧ (∀ c ∈ ws1, isStrWhiteSpaceChar c = true) ∧
    (∀ c ∈ ws2, isStrWhiteSpaceChar c = true) ∧
    (t = [] ∨ IsStrDecimalLiteral t ∨ IsNonDecimalIntegerLiteral t)

/-! ## Proofs -/

/-! ### Doubles -/

theorem roundHalfEven_intCast (k : ℤ) : roundHalfEven (k : ℚ) = k := by
  unfold roundHalfEven
  simp

theorem abs_roundHalfEven_sub_le (x : ℚ) : |(roundHalfEven x : ℚ) - x| ≤ 1 / 2 := by
  have h1 := Int.floor_le x
  have h2 := Int.lt_floor_add_one x
  unfold roundHalfEven
  split
  · rw [abs_le]; constructor <;> linarith
  · split
    · rw [abs_le]; push_cast; constructor <;> linarith
    · split
      · rw [abs_le]; constructor <;> linarith
      · rw [abs_le]; push_cast; constructor <;> linarith

theorem roundHalfEven_of_abs_sub_lt (x : ℚ) (k : ℤ) (h : |x - k| < 1 / 2) :
    roundHalfEven x = k := by
  have h1 := abs_roundHalfEven_sub_le x
  by_contra hne
  have h2 : (1 : ℚ) ≤ |(roundHalfEven x : ℚ) - k| := by
    have : (1 : ℤ) ≤ |roundHalfEven x - k| := Int.one_le_abs (sub_ne_zero.mpr hne)
    exact_mod_cast this
  have h3 : |(roundHalfEven x : ℚ) - k| ≤ |(roundHalfEven x : ℚ) - x| + |x - k| :=
    abs_sub_le _ _ _
  linarith

theorem roundHalfEven_tie (k : ℤ) :
    roundHalfEven ((k : ℚ) + 1 / 2) = if k % 2 = 0 then k else k + 1 := by
  have hf : ⌊(k : ℚ) + 1 / 2⌋ = k := by
    rw [Int.floor_eq_iff]
    constructor <;> linarith
  unfold roundHalfEven
  rw [hf]
  have h1 : ¬ ((k : ℚ) + 1 / 2 - k < 1 / 2) := by linarith
  have h2 : ¬ ((1 : ℚ) / 2 < (k : ℚ) + 1 / 2 - k) := by linarith
  rw [if_neg h1, if_neg h2]

theorem roundHalfEven_neg (x : ℚ) : roundHalfEven (-x) = -roundHalfEven x := by
  by_cases hint : (⌊x⌋ : ℚ) = x
  · rw [← hint, ← Int.cast_neg, roundHalfEven_intCast, roundHalfEven_intCast]
  · have h1 := Int.floor_le x
    have h2 := Int.lt_floor_add_one x
    have hlt : (⌊x⌋ : ℚ) < x := lt_of_le_of_ne h1 hint
    have hf : ⌊-x⌋ = -⌊x⌋ - 1 := by
      rw [Int.floor_eq_iff]
      push_cast
      constructor <;> linarith
    unfold roundHalfEven
    rw [hf]
    push_cast
    by_cases c1 : x - ⌊x⌋ < 1 / 2
    · rw [if_pos c1, if_neg (by linarith), if_pos (by linarith)]
      ring
    · by_cases c2 : 1 / 2 < x - ⌊x⌋
      · rw [if_neg c1, if_pos c2, if_pos (by linarith)]
        ring
      · rw [if_neg c1, if_neg c2, if_neg (by linarith), if_neg (by linarith)]
        by_cases c3 : ⌊x⌋ % 2 = 0
        · rw [if_pos c3, if_neg (by omega)]
          ring
        · rw [if_neg c3, if_pos (by omega)]
          ring

theorem ulpExponent_neg (x : ℚ) : ulpExponent (-x) = ulpExponent x := by
  unfold ulpExponent
  rw [abs_neg]

theorem roundToDouble_neg (x : ℚ) : roundToDouble (-x) = -roundToDouble x := by
  unfold roundToDouble
  by_cases h : x = 0
  · simp [h]
  · rw [if_neg h, if_neg (by simpa using h), ulpExponent_neg, neg_div, roundHalfEven_neg]
    push_cast
    ring

theorem two_zpow_pos (e : ℤ) : (0 : ℚ) < 2 ^ e := zpow_pos (by norm_num) e

/-- The binary exponent of a number between two consecutive powers of two. -/
theorem log_two_eq (x : ℚ) (e : ℤ) (h1 : 2 ^ e ≤ |x|) (h2 : |x| < 2 ^ (e + 1)) :
    Int.log 2 |x| = e := by
  have hpos : 0 < |x| := lt_of_lt_of_le (two_zpow_pos e) h1
  have ha : e ≤ Int.log 2 |x| := by
    rw [← Int.zpow_le_iff_le_log (by norm_num) hpos]
    exact_mod_cast h1
  have hb : Int.log 2 |x| < e + 1 := by
    rw [← Int.lt_zpow_iff_log_lt (by norm_num) hpos]
    exact_mod_cast h2
  omega

theorem ulpExponent_eq (x : ℚ) (e : ℤ) (h1 : 2 ^ e ≤ |x|) (h2 : |x| < 2 ^ (e + 1))
    (he : -1022 ≤ e) : ulpExponent x = e - 52 := by
  unfold ulpExponent
  rw [log_two_eq x e h1 h2, max_eq_left he]

/-- How a number between two consecutive powers of two is rounded. -/
theorem roundToDouble_eq (x : ℚ) (e k : ℤ) (h1 : 2 ^ e ≤ |x|) (h2 : |x| < 2 ^ (e + 1))
    (he : -1022 ≤ e) (hk : roundHalfEven (x / 2 ^ (e - 52)) = k) :
    roundToDouble x = k * 2 ^ (e - 52) := by
  have hx : x ≠ 0 := by
    intro h
    rw [h, abs_zero] at h1
    exact absurd h1 (not_le.mpr (two_zpow_pos e))
  unfold roundToDouble
  rw [if_neg hx, ulpExponent_eq x e h1 h2 he, hk]

theorem ulpExponent_ge (x : ℚ) : -1074 ≤ ulpExponent x := by
  unfold ulpExponent
  have := le_max_right (Int.log 2 |x|) (-1022)
  omega

/-- The rounding error is at most half a unit in the last place. -/
theorem abs_roundToDouble_sub_le (x : ℚ) :
    |roundToDouble x - x| ≤ 2 ^ ulpExponent x / 2 := by
  have hu := two_zpow_pos (ulpExponent x)
  unfold roundToDouble
  split
  · rename_i h
    rw [h]
    simp only [sub_zero, abs_zero]
    positivity
  · have h := abs_roundHalfEven_sub_le (x / 2 ^ ulpExponent x)
    have he : (roundHalfEven (x / 2 ^ ulpExponent x) : ℚ) * 2 ^ ulpExponent x - x
        = ((roundHalfEven (x / 2 ^ ulpExponent x) : ℚ) - x / 2 ^ ulpExponent x)
          * 2 ^ ulpExponent x := by
      field_simp
    rw [he, abs_mul, abs_of_pos hu]
    calc |(roundHalfEven (x / 2 ^ ulpExponent x) : ℚ) - x / 2 ^ ulpExponent x| * 2 ^ ulpExponent x
        ≤ 1 / 2 * 2 ^ ulpExponent x := mul_le_mul_of_nonneg_right h hu.le
      _ = 2 ^ ulpExponent x / 2 := by ring

/-- The unit in the last place of a normal number is at most `2 ^ (-52)` times the number. -/
theorem ulp_le (x : ℚ) (h : 2 ^ (-1022 : ℤ) ≤ |x|) :
    (2 : ℚ) ^ ulpExponent x ≤ |x| * 2 ^ (-52 : ℤ) := by
  have hpos : 0 < |x| := lt_of_lt_of_le (two_zpow_pos _) h
  have hle : (-1022 : ℤ) ≤ Int.log 2 |x| := by
    rw [← Int.zpow_le_iff_le_log (by norm_num) hpos]
    exact_mod_cast h
  have hlog := Int.zpow_log_le_self (b := 2) (by norm_num) hpos
  unfold ulpExponent
  rw [max_eq_left hle, zpow_sub₀ (by norm_num), zpow_neg, div_eq_mul_inv]
  apply mul_le_mul_of_nonneg_right _ (by positivity)
  exact_mod_cast hlog

/-- The relative rounding error of a normal number is at most `2 ^ (-53)`. -/
theorem abs_roundToDouble_sub_le_mul (x : ℚ) (h : 2 ^ (-1022 : ℤ) ≤ |x|) :
    |roundToDouble x - x| ≤ |x| * 2 ^ (-53 : ℤ) := by
  have h1 := abs_roundToDouble_sub_le x
  have h2 := ulp_le x h
  have h3 : |x| * (2 : ℚ) ^ (-53 : ℤ) = |x| * 2 ^ (-52 : ℤ) / 2 := by
    have : (2 : ℚ) ^ (-53 : ℤ) = 2 ^ (-52 : ℤ) / 2 := by norm_num
    rw [this]
    ring
  rw [h3]
  exact le_trans h1 (div_le_div_of_nonneg_right h2 (by norm_num))

/-- A number `m * 2 ^ j` with `|m| < 2 ^ 53` and `j ≥ -1074` is a double: rounding leaves it as
it is. -/
theorem roundToDouble_of_lt (m j : ℤ) (hm : |m| < 2 ^ 53) (hj : -1074 ≤ j) :
    roundToDouble ((m : ℚ) * 2 ^ j) = (m : ℚ) * 2 ^ j := by
  by_cases h0 : m = 0
  · subst h0
    simp [roundToDouble]
  have hx : (m : ℚ) * 2 ^ j ≠ 0 := by
    have := two_zpow_pos j
    have hm0 : (m : ℚ) ≠ 0 := by exact_mod_cast h0
    positivity
  have hle : ulpExponent ((m : ℚ) * 2 ^ j) ≤ j := by
    unfold ulpExponent
    have hlog : Int.log 2 |(m : ℚ) * 2 ^ j| < 53 + j := by
      rw [← Int.lt_zpow_iff_log_lt (by norm_num) (abs_pos.mpr hx)]
      rw [abs_mul, abs_of_pos (two_zpow_pos j), zpow_add₀ (by norm_num)]
      apply mul_lt_mul_of_pos_right _ (two_zpow_pos j)
      have : ((|m| : ℤ) : ℚ) < ((2 ^ 53 : ℤ) : ℚ) := by exact_mod_cast hm
      rw [Int.cast_abs] at this
      push_cast at this ⊢
      exact_mod_cast this
    have := max_le (by omega : Int.log 2 |(m : ℚ) * 2 ^ j| ≤ j + 52) (by omega : (-1022 : ℤ) ≤ j + 52)
    omega
  unfold roundToDouble
  rw [if_neg hx]
  generalize ulpExponent ((m : ℚ) * 2 ^ j) = u at hle ⊢
  obtain ⟨d, hd⟩ : ∃ d : ℕ, j = u + d := ⟨(j - u).toNat, by omega⟩
  have hq : (m : ℚ) * 2 ^ j / 2 ^ u = ((m * 2 ^ d : ℤ) : ℚ) := by
    rw [hd, zpow_add₀ (by norm_num), zpow_natCast]
    have := (two_zpow_pos u).ne'
    push_cast
    field_simp
    ring
  rw [hq, roundHalfEven_intCast, hd, zpow_add₀ (by norm_num), zpow_natCast]
  push_cast
  ring

/-- The same with `|m| = 2 ^ 53` allowed. -/
theorem roundToDouble_of_le (m j : ℤ) (hm : |m| ≤ 2 ^ 53) (hj : -1074 ≤ j) :
    roundToDouble ((m : ℚ) * 2 ^ j) = (m : ℚ) * 2 ^ j := by
  by_cases hlt : |m| < 2 ^ 53
  · exact roundToDouble_of_lt m j hlt hj
  · have habs : |m| = 2 ^ 53 := le_antisymm hm (not_lt.mp hlt)
    have hm2 : ∃ m2 : ℤ, m = 2 * m2 ∧ |m2| < 2 ^ 53 := by
      rcases abs_eq (by norm_num : (0 : ℤ) ≤ 2 ^ 53) |>.mp habs with h | h
      · exact ⟨2 ^ 52, by rw [h]; norm_num, by norm_num⟩
      · exact ⟨-2 ^ 52, by rw [h]; norm_num, by norm_num⟩
    obtain ⟨m2, rfl, hm2⟩ := hm2
    have := roundToDouble_of_lt m2 (j + 1) hm2 (by omega)
    have he : ((2 * m2 : ℤ) : ℚ) * 2 ^ j = (m2 : ℚ) * 2 ^ (j + 1) := by
      rw [zpow_add₀ (by norm_num)]
      push_cast
      ring
    rw [he, this]

theorem roundToDouble_intCast (n : ℤ) (h : |n| ≤ 2 ^ 53) : roundToDouble (n : ℚ) = n := by
  have := roundToDouble_of_le n 0 h (by norm_num)
  simpa using this

theorem roundToDouble_of_near (x : ℚ) (e k : ℤ) (h1 : 2 ^ e ≤ |x|) (h2 : |x| < 2 ^ (e + 1))
    (he : -1022 ≤ e) (hk : |x / 2 ^ (e - 52) - k| < 1 / 2) :
    roundToDouble x = k * 2 ^ (e - 52) :=
  roundToDouble_eq x e k h1 h2 he (roundHalfEven_of_abs_sub_lt _ _ hk)

theorem roundToDouble_of_tie (x : ℚ) (e k : ℤ) (h1 : 2 ^ e ≤ |x|) (h2 : |x| < 2 ^ (e + 1))
    (he : -1022 ≤ e) (hk : x / 2 ^ (e - 52) = k + 1 / 2) :
    roundToDouble x = (if k % 2 = 0 then k else k + 1 : ℤ) * 2 ^ (e - 52) :=
  roundToDouble_eq x e _ h1 h2 he (by rw [hk, roundHalfEven_tie])

theorem toNumberValue_ne_nan (x : ℚ) : toNumberValue x ≠ .nan := by
  unfold toNumberValue
  split <;> simp

theorem toNumberValue_of_lt (x : ℚ) (h : |roundToDouble x| < 2 ^ 1024) :
    toNumberValue x = .num (roundToDouble x) := by
  unfold toNumberValue
  rw [if_neg (not_le.mpr h)]

/-- A double is its own Number value. -/
theorem toNumberValue_of_isDouble (x : ℚ) (h : IsDouble x) : toNumberValue x = .num x := by
  obtain ⟨m, j, hm, hj1, hj2, rfl⟩ := h
  have hfix := roundToDouble_of_lt m j hm hj1
  rw [toNumberValue_of_lt _ ?_, hfix]
  rw [hfix, abs_mul, abs_of_pos (two_zpow_pos j)]
  have h1 : |(m : ℚ)| < 2 ^ 53 := by
    have : ((|m| : ℤ) : ℚ) < ((2 ^ 53 : ℤ) : ℚ) := by exact_mod_cast hm
    rw [Int.cast_abs] at this
    push_cast at this
    exact this
  have h2 : (2 : ℚ) ^ j ≤ 2 ^ (971 : ℤ) := zpow_le_zpow_right₀ (by norm_num) hj2
  calc |(m : ℚ)| * 2 ^ j ≤ |(m : ℚ)| * 2 ^ (971 : ℤ) :=
        mul_le_mul_of_nonneg_left h2 (abs_nonneg _)
    _ < 2 ^ 53 * 2 ^ (971 : ℤ) := mul_lt_mul_of_pos_right h1 (two_zpow_pos _)
    _ = 2 ^ 1024 := by norm_num

theorem isDouble_intCast (n : ℤ) (h : |n| ≤ 2 ^ 53) : IsDouble (n : ℚ) := by
  by_cases hlt : |n| < 2 ^ 53
  · exact ⟨n, 0, hlt, by norm_num, by norm_num, by simp⟩
  · have habs : |n| = 2 ^ 53 := le_antisymm h (not_lt.mp hlt)
    rcases abs_eq (by norm_num : (0 : ℤ) ≤ 2 ^ 53) |>.mp habs with h | h
    · exact ⟨1, 53, by norm_num, by norm_num, by norm_num, by rw [h]; norm_num⟩
    · exact ⟨-1, 53, by norm_num, by norm_num, by norm_num, by rw [h]; norm_num⟩

/-- An integer of magnitude at most `2 ^ 53` is its own Number value. -/
theorem toNumberValue_intCast (n : ℤ) (h : |n| ≤ 2 ^ 53) : toNumberValue (n : ℚ) = .num n :=
  toNumberValue_of_isDouble _ (isDouble_intCast n h)

theorem toNumberValue_neg (x : ℚ) : toNumberValue (-x) = negateNumber (toNumberValue x) := by
  unfold toNumberValue
  rw [roundToDouble_neg, abs_neg]
  split
  · rename_i h
    have hx : x ≠ 0 := by
      intro h0
      rw [h0] at h
      simp [roundToDouble] at h
      exact absurd h (by norm_num)
    simp only [negateNumber]
    congr 1
    by_cases hneg : x < 0
    · have : ¬ (-x < 0) := by linarith
      simp [hneg, this]
    · have : -x < 0 := by
        have := lt_of_le_of_ne (not_lt.mp hneg) (Ne.symm hx)
        linarith
      simp [hneg, this]
  · simp only [negateNumber]

/-! ### `isPrime` -/

theorem tmod_natCast_eq_zero_iff (m d : ℕ) : (m : ℤ).tmod (d : ℤ) = 0 ↔ d ∣ m := by
  rw [← Int.dvd_iff_tmod_eq_zero, Int.natCast_dvd_natCast]

theorem prime_of_no_small_divisor (m i : ℕ) (hm : 2 ≤ m) (hlt : m < i * i)
    (hinv : ∀ d, 2 ≤ d → d < i → ¬ d ∣ m) : Nat.Prime m := by
  rw [Nat.prime_def_le_sqrt]
  refine ⟨hm, fun d hd hds => hinv d hd ?_⟩
  have h1 := Nat.sqrt_le m
  by_contra hcon
  push_neg at hcon
  have h2 : i * i ≤ d * d := Nat.mul_le_mul hcon hcon
  have h3 : d * d ≤ Nat.sqrt m * Nat.sqrt m := Nat.mul_le_mul hds hds
  omega

theorem isPrimeLoop_iff_prime (m : ℕ) (hm : 2 ≤ m) (h2 : ¬ 2 ∣ m) (h3 : ¬ 3 ∣ m) :
    ∀ (k i : ℕ), m + 1 - i ≤ k → i % 6 = 5 → (∀ d, 2 ≤ d → d < i → ¬ d ∣ m) →
      (isPrimeLoop (m : ℤ) i = true ↔ Nat.Prime m) := by
  intro k
  induction k with
  | zero =>
    intro i hk hi hinv
    have hlt : m < i * i := by
      have : m < i := by omega
      nlinarith
    rw [isPrimeLoop]
    have : ¬ ((i : ℤ) * i ≤ (m : ℤ)) := by
      intro h
      have : i * i ≤ m := by exact_mod_cast h
      omega
    simp only [this, if_false, true_iff]
    exact prime_of_no_small_divisor m i hm hlt hinv
  | succ k ih =>
    intro i hk hi hinv
    rw [isPrimeLoop]
    by_cases hle : (i : ℤ) * i ≤ (m : ℤ)
    · have hle' : i * i ≤ m := by exact_mod_cast hle
      have hi5 : 5 ≤ i := by omega
      have hlt : i + 2 < m := by nlinarith
      simp only [hle, if_true]
      have e2 : ((i : ℤ) + 2) = ((i + 2 : ℕ) : ℤ) := by push_cast; ring
      simp only [e2, tmod_natCast_eq_zero_iff]
      by_cases hdiv : i ∣ m ∨ i + 2 ∣ m
      · simp only [hdiv, if_true, Bool.false_eq_true, false_iff]
        intro hp
        rcases hdiv with h | h
        · rcases (Nat.dvd_prime hp).1 h with h1 | h1 <;> omega
        · rcases (Nat.dvd_prime hp).1 h with h1 | h1 <;> omega
      · simp only [hdiv, if_false]
        push_neg at hdiv
        apply ih (i + 6) (by omega) (by omega)
        intro d hd hdi hdm
        by_cases hlt' : d < i
        · exact hinv d hd hlt' hdm
        · have hcases : d = i ∨ d = i + 1 ∨ d = i + 2 ∨ d = i + 3 ∨ d = i + 4 ∨ d = i + 5 := by
            omega
          rcases hcases with h | h | h | h | h | h
          · exact hdiv.1 (h ▸ hdm)
          · exact h2 (Nat.dvd_trans (by omega) hdm)
          · exact hdiv.2 (h ▸ hdm)
          · exact h2 (Nat.dvd_trans (by omega) hdm)
          · exact h3 (Nat.dvd_trans (by omega) hdm)
          · exact h2 (Nat.dvd_trans (by omega) hdm)
    · simp only [hle, if_false, true_iff]
      have hlt : m < i * i := by
        by_contra hcon
        push_neg at hcon
        exact hle (by exact_mod_cast hcon)
      exact prime_of_no_small_divisor m i hm hlt hinv

theorem isPrime_natCast_iff (m : ℕ) : isPrime (m : ℤ) = true ↔ Nat.Prime m := by
  unfold isPrime
  by_cases h23 : m = 2 ∨ m = 3
  · have : ((m : ℤ) = 2 ∨ (m : ℤ) = 3) := by rcases h23 with h | h <;> simp [h]
    simp only [this, if_true, true_iff]
    rcases h23 with h | h <;> subst h <;> norm_num
  · have h23' : ¬ ((m : ℤ) = 2 ∨ (m : ℤ) = 3) := by
      intro h; apply h23; rcases h with h | h
      · left; exact_mod_cast h
      · right; exact_mod_cast h
    simp only [h23', if_false]
    have e2 : (2 : ℤ) = ((2 : ℕ) : ℤ) := rfl
    have e3 : (3 : ℤ) = ((3 : ℕ) : ℤ) := rfl
    by_cases hsmall : (m : ℤ) ≤ 1 ∨ (m : ℤ).tmod 2 = 0 ∨ (m : ℤ).tmod 3 = 0
    · simp only [hsmall, if_true, Bool.false_eq_true, false_iff]
      intro hp
      rcases hsmall with h | h | h
      · have : m ≤ 1 := by exact_mod_cast h
        have := hp.two_le
        omega
      · rw [e2, tmod_natCast_eq_zero_iff] at h
        rcases (Nat.dvd_prime hp).1 h with h1 | h1 <;> omega
      · rw [e3, tmod_natCast_eq_zero_iff] at h
        rcases (Nat.dvd_prime hp).1 h with h1 | h1 <;> omega
    · simp only [hsmall, if_false]
      push_neg at hsmall
      obtain ⟨h1, h2, h3⟩ := hsmall
      rw [Ne, e2, tmod_natCast_eq_zero_iff] at h2
      rw [Ne, e3, tmod_natCast_eq_zero_iff] at h3
      have hm : 2 ≤ m := by
        have : (1 : ℤ) < m := h1
        have : 1 < m := by exact_mod_cast this
        omega
      have := isPrimeLoop_iff_prime m hm h2 h3 (m + 1) 5 (by omega) (by norm_num) (by
        intro d hd hd5 hdm
        have hcases : d = 2 ∨ d = 3 ∨ d = 4 := by omega
        rcases hcases with h | h | h
        · exact h2 (h ▸ hdm)
        · exact h3 (h ▸ hdm)
        · exact h2 (Nat.dvd_trans (by omega) hdm))
      simpa using this

theorem isPrime_false_of_lt_two (n : ℤ) (h : n < 2) : isPrime n = false := by
  unfold isPrime
  have h1 : ¬ (n = 2 ∨ n = 3) := by omega
  have h2 : n ≤ 1 ∨ n.tmod 2 = 0 ∨ n.tmod 3 = 0 := Or.inl (by omega)
  simp only [h1, h2, if_false, if_true]

theorem intPrime_iff_natPrime (m : ℕ) :
    (2 ≤ (m : ℤ) ∧ ∀ d : ℤ, 0 < d → d ∣ (m : ℤ) → d = 1 ∨ d = (m : ℤ)) ↔ Nat.Prime m := by
  rw [Nat.prime_def]
  constructor
  · rintro ⟨h2, hd⟩
    refine ⟨by exact_mod_cast h2, fun d hdm => ?_⟩
    have hpos : 0 < d := Nat.pos_of_dvd_of_pos hdm (by omega)
    rcases hd (d : ℤ) (by exact_mod_cast hpos) (by exact_mod_cast hdm) with h | h
    · left; exact_mod_cast h
    · right; exact_mod_cast h
  · rintro ⟨h2, hd⟩
    refine ⟨by exact_mod_cast h2, fun d hpos hdm => ?_⟩
    obtain ⟨e, rfl⟩ := Int.eq_ofNat_of_zero_le hpos.le
    rcases hd e (by exact_mod_cast hdm) with h | h
    · left; exact_mod_cast h
    · right; exact_mod_cast h

theorem bruteForceIsPrime_natCast_iff (m : ℕ) :
    bruteForceIsPrime (m : ℤ) = true ↔ Nat.Prime m := by
  unfold bruteForceIsPrime
  rw [Nat.prime_def_lt']
  simp only [Bool.and_eq_true, decide_eq_true_eq, List.all_eq_true, List.mem_range'_1,
    bne_iff_ne, ne_eq, Int.toNat_ofNat, tmod_natCast_eq_zero_iff]
  constructor
  · rintro ⟨h2, hd⟩
    have h2' : 2 ≤ m := by exact_mod_cast h2
    exact ⟨h2', fun d hd2 hdm => hd d ⟨hd2, by omega⟩⟩
  · rintro ⟨h2, hd⟩
    exact ⟨by exact_mod_cast h2, fun d hdr => hd d hdr.1 (by omega)⟩

/-- C1: for every integer `n`, `isPrime n` is true exactly when `n` is prime (`n ≥ 2` and every
positive divisor of `n` is 1 or `n`); it is false for every `n < 2`, negative `n` included, and it
agrees with brute-force trial division. -/
theorem isPrime_correct (n : ℤ) :
    (isPrime n = true ↔ 2 ≤ n ∧ ∀ d : ℤ, 0 < d → d ∣ n → d = 1 ∨ d = n) ∧
    (n < 2 → isPrime n = false) ∧
    isPrime n = bruteForceIsPrime n := by
  by_cases h : n < 2
  · have hf := isPrime_false_of_lt_two n h
    refine ⟨?_, fun _ => hf, ?_⟩
    · rw [hf]
      constructor
      · intro h'; exact absurd h' (by simp)
      · rintro ⟨h2, _⟩; omega
    · rw [hf]
      unfold bruteForceIsPrime
      have : ¬ (2 ≤ n) := by omega
      simp [this]
  · obtain ⟨m, rfl⟩ := Int.eq_ofNat_of_zero_le (by omega : 0 ≤ n)
    refine ⟨?_, fun h' => absurd h' h, ?_⟩
    · rw [isPrime_natCast_iff, intPrime_iff_natPrime]
    · rw [Bool.eq_iff_iff, isPrime_natCast_iff, bruteForceIsPrime_natCast_iff]

/-! ### `getAverage` and `roundToPowerOfTen` -/

/-- C2: `getAverage(-1.5, 0)` evaluates to `-1.75`, which is not the arithmetic mean `-0.75`:
for a negative `value1` the source takes `Math.round(value1 / 2)` while `value1 % 2` is the
remainder of the truncated quotient, and the two disagree here. -/
theorem getAverage_neg_three_halves_zero :
    getAverage (-3 / 2) 0 = -7 / 4 ∧ getAverage (-3 / 2) 0 ≠ (-3 / 2 + 0) / 2 := by
  have h : getAverage (-3 / 2) 0 = -7 / 4 := by
    have h1 : mathRound (-3 / 2 / 2) = -1 := by
      unfold mathRound
      rw [Int.floor_eq_iff]; norm_num
    have h2 : mathTrunc (-3 / 2 / 2) = 0 := by
      unfold mathTrunc
      rw [if_neg (by norm_num), Int.ceil_eq_iff]; norm_num
    have h3 : mathFloor (0 / 2) = 0 := by
      unfold mathFloor; simp
    have h4 : mathTrunc (0 / 2) = 0 := by
      unfold mathTrunc; simp
    unfold getAverage jsRemainder
    simp only [h1, h2, h3, h4]
    norm_num
  exact ⟨h, by rw [h]; norm_num⟩

theorem mathRound_intCast (k : ℤ) : mathRound (k : ℚ) = k := by
  unfold mathRound
  rw [Int.floor_eq_iff]
  constructor <;> linarith

theorem abs_mathRound_sub_le (x : ℚ) : |(mathRound x : ℚ) - x| ≤ 1 / 2 := by
  unfold mathRound
  have h1 := Int.floor_le (x + 1 / 2)
  have h2 := Int.lt_floor_add_one (x + 1 / 2)
  rw [abs_le]
  constructor <;> linarith

theorem mathRound_nearest (x : ℚ) (k : ℤ) : |(mathRound x : ℚ) - x| ≤ |(k : ℚ) - x| := by
  have h := abs_mathRound_sub_le x
  by_cases hk : k = mathRound x
  · rw [hk]
  · have h1 : (1 : ℚ) ≤ |(k : ℚ) - mathRound x| := by
      have : (1 : ℤ) ≤ |k - mathRound x| := Int.one_le_abs (sub_ne_zero.mpr hk)
      exact_mod_cast this
    have h2 : |(k : ℚ) - mathRound x| ≤ |(k : ℚ) - x| + |(mathRound x : ℚ) - x| := by
      have := abs_sub_le (k : ℚ) x (mathRound x)
      rwa [abs_sub_comm x] at this
    linarith

theorem pow_ten_pos (pow : ℕ) : (0 : ℚ) < 10 ^ pow := by positivity

/-- Over exact rationals: for every integer `n` and every power `pow`, `roundToPowerOfTen n pow`
is an integer multiple of `10 ^ pow`, differs from `n` by at most `10 ^ pow / 2`, is at least as
near to `n` as any other multiple of `10 ^ pow`, and is `n` itself for `pow = 0`. -/
theorem roundToPowerOfTen_exact_nearest_multiple (n : ℤ) (pow : ℕ) :
    (∃ k : ℤ, roundToPowerOfTen n pow = k * 10 ^ pow) ∧
    |roundToPowerOfTen n pow - n| ≤ 10 ^ pow / 2 ∧
    (∀ k : ℤ, |roundToPowerOfTen n pow - n| ≤ |(k : ℚ) * 10 ^ pow - n|) ∧
    roundToPowerOfTen n 0 = n := by
  have hP := pow_ten_pos pow
  have key : ∀ k : ℤ, |(k : ℚ) * 10 ^ pow - n| = |(k : ℚ) - n / 10 ^ pow| * 10 ^ pow := by
    intro k
    rw [← abs_of_pos hP, ← abs_mul, abs_of_pos hP]
    congr 1
    field_simp
  refine ⟨⟨mathRound (n / 10 ^ pow), rfl⟩, ?_, ?_, ?_⟩
  · unfold roundToPowerOfTen
    rw [key]
    have := abs_mathRound_sub_le ((n : ℚ) / 10 ^ pow)
    calc |(mathRound ((n : ℚ) / 10 ^ pow) : ℚ) - n / 10 ^ pow| * 10 ^ pow
        ≤ 1 / 2 * 10 ^ pow := mul_le_mul_of_nonneg_right this hP.le
      _ = 10 ^ pow / 2 := by ring
  · intro k
    unfold roundToPowerOfTen
    rw [key, key]
    exact mul_le_mul_of_nonneg_right (mathRound_nearest _ k) hP.le
  · unfold roundToPowerOfTen
    simp [mathRound_intCast]

theorem five_pow_lt (pow : ℕ) (h : pow ≤ 22) : (5 : ℤ) ^ pow < 2 ^ 53 :=
  lt_of_le_of_lt (pow_le_pow_right₀ (by norm_num) h) (by norm_num)

theorem ten_pow_eq (pow : ℕ) : (10 : ℚ) ^ pow = ((5 ^ pow : ℤ) : ℚ) * 2 ^ (pow : ℤ) := by
  rw [zpow_natCast]
  push_cast
  rw [← mul_pow]
  norm_num

/-- The powers of ten up to `10 ^ 22` are doubles. -/
theorem roundToDouble_ten_pow (pow : ℕ) (h : pow ≤ 22) :
    roundToDouble (10 ^ pow) = 10 ^ pow := by
  rw [ten_pow_eq]
  apply roundToDouble_of_lt
  · rw [abs_of_nonneg (by positivity)]
    exact five_pow_lt pow h
  · have : (0 : ℤ) ≤ pow := Int.natCast_nonneg pow
    omega

theorem ten_pow_le (pow : ℕ) (h : pow ≤ 22) : (10 : ℚ) ^ pow ≤ 10 ^ 22 :=
  pow_le_pow_right₀ (by norm_num) h

/-- Rounding the quotient of an integer below `2 ^ 53` by a power of ten up to `10 ^ 22` to a
double does not change what `Math.round` makes of it. -/
theorem mathRound_roundToDouble_div (n : ℤ) (pow : ℕ) (hn : |n| < 2 ^ 53) (hpow : pow ≤ 22) :
    mathRound (roundToDouble ((n : ℚ) / 10 ^ pow)) = mathRound ((n : ℚ) / 10 ^ pow) := by
  have hnq : |(n : ℚ)| < 2 ^ 53 := by
    have : ((|n| : ℤ) : ℚ) < ((2 ^ 53 : ℤ) : ℚ) := by exact_mod_cast hn
    rw [Int.cast_abs] at this
    push_cast at this
    exact this
  cases pow with
  | zero =>
    rw [pow_zero, div_one, roundToDouble_intCast n hn.le]
  | succ p =>
    have hP : (0 : ℚ) < 10 ^ (p + 1) := by positivity
    have hPle := ten_pow_le (p + 1) hpow
    have hP10 : (10 : ℚ) ≤ 10 ^ (p + 1) := by
      calc (10 : ℚ) = 10 ^ 1 := by norm_num
        _ ≤ 10 ^ (p + 1) := pow_le_pow_right₀ (by norm_num) (by omega)
    have hP2 : (10 : ℚ) ^ (p + 1) = 2 * ((5 * 10 ^ p : ℤ) : ℚ) := by
      push_cast
      rw [pow_succ]
      ring
    by_cases hn0 : n = 0
    · subst hn0
      simp [roundToDouble]
    set q : ℚ := (n : ℚ) / 10 ^ (p + 1) with hq
    have hqabs : |q| = |(n : ℚ)| / 10 ^ (p + 1) := by
      rw [hq, abs_div, abs_of_pos hP]
    have hn1 : (1 : ℚ) ≤ |(n : ℚ)| := by
      have : (1 : ℤ) ≤ |n| := Int.one_le_abs hn0
      have h2 : ((1 : ℤ) : ℚ) ≤ ((|n| : ℤ) : ℚ) := by exact_mod_cast this
      rw [Int.cast_abs] at h2
      simpa using h2
    -- the rounding error is below `1 / 10 ^ (p + 1)`
    have herr : |roundToDouble q - q| < 1 / 10 ^ (p + 1) := by
      have hlow : (2 : ℚ) ^ (-1022 : ℤ) ≤ |q| := by
        rw [hqabs]
        have h1 : (1 : ℚ) / 10 ^ 22 ≤ |(n : ℚ)| / 10 ^ (p + 1) := by
          exact div_le_div₀ (abs_nonneg _) hn1 hP hPle
        have h2 : (2 : ℚ) ^ (-1022 : ℤ) ≤ 1 / 10 ^ 22 := by
          rw [zpow_neg, ← one_div]
          apply one_div_le_one_div_of_le (by positivity)
          calc (10 : ℚ) ^ 22 ≤ 16 ^ 22 := pow_le_pow_left₀ (by norm_num) (by norm_num) 22
            _ = 2 ^ (88 : ℤ) := by norm_num
            _ ≤ 2 ^ (1022 : ℤ) := zpow_le_zpow_right₀ (by norm_num) (by norm_num)
        linarith
      have h1 := abs_roundToDouble_sub_le_mul q hlow
      have h2 : |q| * 2 ^ (-53 : ℤ) < 1 / 10 ^ (p + 1) := by
        rw [hqabs, div_mul_eq_mul_div]
        apply div_lt_div_of_pos_right _ hP
        have : (2 : ℚ) ^ (-53 : ℤ) = 1 / 2 ^ 53 := by norm_num
        rw [this, mul_one_div, div_lt_one (by positivity)]
        exact hnq
      exact lt_of_le_of_lt h1 h2
    have hfl := Int.floor_le (q + 1 / 2)
    have hlt := Int.lt_floor_add_one (q + 1 / 2)
    set k : ℤ := ⌊q + 1 / 2⌋ with hk
    have hres : mathRound q = k := rfl
    rw [hres]
    by_cases htie : (k : ℚ) = q + 1 / 2
    · -- a tie is a double
      have hqk : q = ((2 * k - 1 : ℤ) : ℚ) * 2 ^ (-1 : ℤ) := by
        have : q = (k : ℚ) - 1 / 2 := by linarith
        rw [this]
        push_cast
        norm_num
        ring
      have hsmall : |2 * k - 1| < 2 ^ 53 := by
        have h1 : |q| < 2 ^ 53 / 10 := by
          rw [hqabs]
          calc |(n : ℚ)| / 10 ^ (p + 1) ≤ |(n : ℚ)| / 10 :=
                div_le_div_of_nonneg_left (abs_nonneg _) (by norm_num) hP10
            _ < 2 ^ 53 / 10 := div_lt_div_of_pos_right hnq (by norm_num)
        have h2 : |((2 * k - 1 : ℤ) : ℚ)| < 2 ^ 53 := by
          have : ((2 * k - 1 : ℤ) : ℚ) = 2 * q := by
            push_cast
            linarith
          rw [this, abs_mul, abs_of_pos (by norm_num : (0 : ℚ) < 2)]
          linarith
        have h3 : ((|2 * k - 1| : ℤ) : ℚ) < ((2 ^ 53 : ℤ) : ℚ) := by
          rw [Int.cast_abs]
          push_cast at h2 ⊢
          exact h2
        exact_mod_cast h3
      rw [hqk, roundToDouble_of_lt _ _ hsmall (by norm_num), ← hqk]
      exact hres
    · -- otherwise the quotient is at least `1 / 10 ^ (p + 1)` away from both ties
      have hT : (0 : ℚ) < 5 * 10 ^ p := by positivity
      have hPT : (10 : ℚ) ^ (p + 1) = 2 * (5 * 10 ^ p) := by
        rw [pow_succ]
        ring
      have hnq2 : (n : ℚ) = q * (2 * (5 * 10 ^ p)) := by
        rw [← hPT, hq]
        field_simp
      have hlow : (k : ℚ) - 1 / 2 + 1 / 10 ^ (p + 1) ≤ q := by
        have h1 : (k : ℚ) < q + 1 / 2 := lt_of_le_of_ne hfl htie
        have h2 : (2 * k - 1) * (5 * 10 ^ p) < n := by
          have : ((2 * (k : ℚ) - 1) * (5 * 10 ^ p)) < (n : ℚ) := by
            have := mul_pos hT (by linarith : (0 : ℚ) < 2 * q - 2 * k + 1)
            rw [hnq2]
            linarith
          exact_mod_cast this
        have h3 : (2 * (k : ℚ) - 1) * (5 * 10 ^ p) + 1 ≤ (n : ℚ) := by
          have : (2 * k - 1) * (5 * 10 ^ p) + 1 ≤ n := h2
          exact_mod_cast this
        rw [← sub_nonneg]
        have e : q - ((k : ℚ) - 1 / 2 + 1 / 10 ^ (p + 1))
            = ((n : ℚ) - ((2 * (k : ℚ) - 1) * (5 * 10 ^ p) + 1)) / 10 ^ (p + 1) := by
          rw [hq, hPT]
          field_simp
          ring
        rw [e]
        exact div_nonneg (by linarith) hP.le
      have hhigh : q ≤ (k : ℚ) + 1 / 2 - 1 / 10 ^ (p + 1) := by
        have h2 : n < (2 * k + 1) * (5 * 10 ^ p) := by
          have : (n : ℚ) < ((2 * (k : ℚ) + 1) * (5 * 10 ^ p)) := by
            have := mul_pos hT (by linarith : (0 : ℚ) < 2 * k + 1 - 2 * q)
            rw [hnq2]
            linarith
          exact_mod_cast this
        have h3 : (n : ℚ) + 1 ≤ (2 * (k : ℚ) + 1) * (5 * 10 ^ p) := by
          have : n + 1 ≤ (2 * k + 1) * (5 * 10 ^ p) := h2
          exact_mod_cast this
        rw [← sub_nonneg]
        have e : (k : ℚ) + 1 / 2 - 1 / 10 ^ (p + 1) - q
            = ((2 * (k : ℚ) + 1) * (5 * 10 ^ p) - ((n : ℚ) + 1)) / 10 ^ (p + 1) := by
          rw [hq, hPT]
          field_simp
          ring
        rw [e]
        exact div_nonneg (by linarith) hP.le
      rw [abs_lt] at herr
      unfold mathRound
      rw [Int.floor_eq_iff]
      constructor <;> linarith [herr.1, herr.2]

/-- The product `Math.round(n / 10 ** pow) * 10 ** pow` is a double, for an integer `n` below
`2 ^ 53` in magnitude and `pow ≤ 22`. -/
theorem isDouble_roundToPowerOfTen (n : ℤ) (pow : ℕ) (hn : |n| < 2 ^ 53) (hpow : pow ≤ 22) :
    IsDouble (roundToPowerOfTen n pow) := by
  have hnq : |(n : ℚ)| < 2 ^ 53 := by
    have : ((|n| : ℤ) : ℚ) < ((2 ^ 53 : ℤ) : ℚ) := by exact_mod_cast hn
    rw [Int.cast_abs] at this
    push_cast at this
    exact this
  have hj : (pow : ℤ) ≤ 971 := by
    have : ((pow : ℕ) : ℤ) ≤ 22 := by exact_mod_cast hpow
    omega
  have hj0 : (0 : ℤ) ≤ pow := Int.natCast_nonneg pow
  refine ⟨mathRound ((n : ℚ) / 10 ^ pow) * 5 ^ pow, pow, ?_, by omega, hj, ?_⟩
  · cases pow with
    | zero =>
      rw [pow_zero, div_one, mathRound_intCast, pow_zero, mul_one]
      exact hn
    | succ p =>
      have hP : (0 : ℚ) < 10 ^ (p + 1) := by positivity
      have h5 : (0 : ℚ) < 5 ^ (p + 1) := by positivity
      have h5le : (5 : ℚ) ^ (p + 1) ≤ 5 ^ 22 := pow_le_pow_right₀ (by norm_num) hpow
      have h2le : (2 : ℚ) ≤ 2 ^ (p + 1) := by
        calc (2 : ℚ) = 2 ^ 1 := by norm_num
          _ ≤ 2 ^ (p + 1) := pow_le_pow_right₀ (by norm_num) (by omega)
      have hk := abs_mathRound_sub_le ((n : ℚ) / 10 ^ (p + 1))
      have hk2 : |(mathRound ((n : ℚ) / 10 ^ (p + 1)) : ℚ)| ≤ |(n : ℚ)| / 10 ^ (p + 1) + 1 / 2 := by
        have h1 := abs_sub_abs_le_abs_sub (mathRound ((n : ℚ) / 10 ^ (p + 1)) : ℚ)
          ((n : ℚ) / 10 ^ (p + 1))
        rw [abs_div, abs_of_pos hP] at h1
        linarith
      have hq : |(n : ℚ)| / 10 ^ (p + 1) * 5 ^ (p + 1) = |(n : ℚ)| / 2 ^ (p + 1) := by
        have : (10 : ℚ) ^ (p + 1) = 2 ^ (p + 1) * 5 ^ (p + 1) := by
          rw [← mul_pow]
          norm_num
        rw [this]
        field_simp
        ring
      have hq2 : |(n : ℚ)| / 2 ^ (p + 1) ≤ |(n : ℚ)| / 2 :=
        div_le_div_of_nonneg_left (abs_nonneg _) (by norm_num) h2le
      have hfin : |(mathRound ((n : ℚ) / 10 ^ (p + 1)) : ℚ)| * 5 ^ (p + 1) < 2 ^ 53 := by
        calc |(mathRound ((n : ℚ) / 10 ^ (p + 1)) : ℚ)| * 5 ^ (p + 1)
            ≤ (|(n : ℚ)| / 10 ^ (p + 1) + 1 / 2) * 5 ^ (p + 1) :=
              mul_le_mul_of_nonneg_right hk2 h5.le
          _ = |(n : ℚ)| / 2 ^ (p + 1) + 5 ^ (p + 1) / 2 := by rw [add_mul, hq]; ring
          _ ≤ |(n : ℚ)| / 2 + 5 ^ 22 / 2 := by linarith
          _ < 2 ^ 53 := by
            have : (5 : ℚ) ^ 22 < 2 ^ 53 := by norm_num
            linarith
      have hcast : ((|mathRound ((n : ℚ) / 10 ^ (p + 1)) * 5 ^ (p + 1)| : ℤ) : ℚ)
          < ((2 ^ 53 : ℤ) : ℚ) := by
        rw [Int.cast_abs]
        push_cast
        rw [abs_mul, abs_of_pos h5]
        exact hfin
      exact_mod_cast hcast
  · unfold roundToPowerOfTen
    rw [ten_pow_eq]
    push_cast
    ring

/-- C3, as stated, fails on doubles at `n = 22517998136852484` (a double), `pow = 1`: the
quotient `2251799813685248.4` is rounded to the double `2251799813685248.5`, `Math.round` makes
`2251799813685249` of it, and the product `22517998136852490` is rounded to the double
`22517998136852488`, which is no multiple of 10. -/
theorem roundToPowerOfTenDouble_not_multiple :
    IsDouble 22517998136852484 ∧
    roundToPowerOfTenDouble 22517998136852484 1 = .num 22517998136852488 ∧
    ¬ ∃ k : ℤ, (22517998136852488 : ℚ) = k * 10 ^ 1 := by
  refine ⟨⟨5629499534213121, 2, by norm_num, by norm_num, by norm_num, by norm_num⟩, ?_, ?_⟩
  · have hp : roundToDouble (10 ^ 1) = 10 := by
      have := roundToDouble_ten_pow 1 (by norm_num)
      simpa using this
    have hq : roundToDouble (22517998136852484 / 10) = 4503599627370497 / 2 := by
      rw [roundToDouble_of_near _ 51 4503599627370497 (by norm_num [abs_of_pos])
        (by norm_num [abs_of_pos]) (by norm_num) (by norm_num [abs_lt])]
      norm_num
    have hr : mathRound (4503599627370497 / 2) = 2251799813685249 := by
      unfold mathRound
      rw [Int.floor_eq_iff]
      norm_num
    have hprod : roundToDouble (22517998136852490) = 22517998136852488 := by
      rw [roundToDouble_of_tie _ 54 5629499534213122 (by norm_num [abs_of_pos])
        (by norm_num [abs_of_pos]) (by norm_num) (by norm_num)]
      norm_num
    unfold roundToPowerOfTenDouble
    simp only [hp, hq, hr]
    rw [if_neg (by norm_num)]
    have e : ((2251799813685249 : ℤ) : ℚ) * 10 = 22517998136852490 := by norm_num
    rw [e, toNumberValue_of_lt _ (by rw [hprod]; norm_num [abs_of_pos]), hprod]
  · rintro ⟨k, hk⟩
    have : (22517998136852488 : ℤ) = k * 10 ^ 1 := by exact_mod_cast hk
    omega

/-- C3, amended: for every integer `n` with `|n| < 2 ^ 53` and every power `pow ≤ 22` (the
powers of ten that are doubles), `roundToPowerOfTen(n, pow)` on doubles is a number `r` that is
an integer multiple of `10 ^ pow`, differs from `n` by at most `10 ^ pow / 2`, is at least as
near to `n` as any other multiple of `10 ^ pow`, and is `n` itself for `pow = 0`. -/
theorem roundToPowerOfTenDouble_nearest_multiple (n : ℤ) (pow : ℕ) (hn : |n| < 2 ^ 53)
    (hpow : pow ≤ 22) :
    ∃ r : ℚ, roundToPowerOfTenDouble n pow = .num r ∧
      (∃ k : ℤ, r = k * 10 ^ pow) ∧
      |r - n| ≤ 10 ^ pow / 2 ∧
      (∀ k : ℤ, |r - n| ≤ |(k : ℚ) * 10 ^ pow - n|) ∧
      (pow = 0 → r = n) := by
  obtain ⟨h1, h2, h3, _⟩ := roundToPowerOfTen_exact_nearest_multiple n pow
  refine ⟨roundToPowerOfTen n pow, ?_, h1, h2, h3, ?_⟩
  · have hlt : ¬ ((2 : ℚ) ^ 1024 ≤ 10 ^ pow) := by
      have := ten_pow_le pow hpow
      have h4 : (10 : ℚ) ^ 22 < 2 ^ 1024 := by norm_num
      linarith
    unfold roundToPowerOfTenDouble
    simp only [roundToDouble_ten_pow pow hpow, if_neg hlt,
      mathRound_roundToDouble_div n pow hn hpow]
    exact toNumberValue_of_isDouble _ (isDouble_roundToPowerOfTen n pow hn hpow)
  · intro h0
    subst h0
    exact (roundToPowerOfTen_exact_nearest_multiple n 0).2.2.2

/-- The amended C3 at `n = 1234`, `pow = 2`. -/
theorem roundToPowerOfTenDouble_nearest_multiple_witness :
    ∃ r : ℚ, roundToPowerOfTenDouble (1234 : ℤ) 2 = .num r ∧
      (∃ k : ℤ, r = k * 10 ^ 2) ∧
      |r - (1234 : ℤ)| ≤ 10 ^ 2 / 2 ∧
      (∀ k : ℤ, |r - (1234 : ℤ)| ≤ |(k : ℚ) * 10 ^ 2 - (1234 : ℤ)|) ∧
      (2 = 0 → r = (1234 : ℤ)) :=
  roundToPowerOfTenDouble_nearest_multiple 1234 2 (by decide) (by decide)

/-- C4: `roundToPowerOfTen` is idempotent in its first argument, for every rational `n` and every
power `p`. -/
theorem roundToPowerOfTen_idempotent (n : ℚ) (p : ℕ) :
    roundToPowerOfTen (roundToPowerOfTen n p) p = roundToPowerOfTen n p := by
  have hP := pow_ten_pos p
  unfold roundToPowerOfTen
  rw [mul_div_assoc, div_self hP.ne', mul_one, mathRound_intCast]

/-- C5, as stated, fails at `n = -15`, `pow = 1`: `-15` lies halfway between `-20` and `-10`,
`roundToPowerOfTen(-15, 1)` is `-10`, and the multiple farther from zero is `-20`. -/
theorem roundToPowerOfTen_tie_not_away_from_zero :
    2 * (-15 : ℤ) = (2 * (-2) + 1) * 10 ^ 1 ∧
    roundToPowerOfTen (-15 : ℤ) 1 = -10 ∧
    roundToPowerOfTen (-15 : ℤ) 1 ≠ -20 ∧
    |(-10 : ℚ)| < |(-20 : ℚ)| := by
  have h : roundToPowerOfTen (-15 : ℤ) 1 = -10 := by
    have h1 : mathRound ((-15 : ℤ) / 10 ^ 1) = -1 := by
      unfold mathRound
      rw [Int.floor_eq_iff]; norm_num
    unfold roundToPowerOfTen
    rw [h1]; norm_num
  refine ⟨by norm_num, h, by rw [h]; norm_num, by norm_num⟩

/-- C5, amended: a tie goes up. When the integer `n` lies exactly halfway between the consecutive
multiples `k * 10 ^ pow` and `(k + 1) * 10 ^ pow` (`pow ≥ 1`), `roundToPowerOfTen n pow` is the
greater one, `(k + 1) * 10 ^ pow`: the one farther from zero for positive `n`, the one nearer to
zero for negative `n`. -/
theorem roundToPowerOfTen_tie_rounds_up (n : ℤ) (pow : ℕ) (k : ℤ) (_hpow : 1 ≤ pow)
    (hhalf : 2 * n = (2 * k + 1) * 10 ^ pow) :
    roundToPowerOfTen n pow = (k + 1) * 10 ^ pow ∧
    (k : ℚ) * 10 ^ pow < n ∧ (n : ℚ) < (k + 1) * 10 ^ pow ∧
    (0 < n → |(k : ℚ) * 10 ^ pow| < |((k : ℚ) + 1) * 10 ^ pow|) ∧
    (n < 0 → |((k : ℚ) + 1) * 10 ^ pow| < |(k : ℚ) * 10 ^ pow|) := by
  have hP := pow_ten_pos pow
  have hn : (n : ℚ) = (k + 1 / 2) * 10 ^ pow := by
    have : (2 : ℚ) * n = (2 * k + 1) * 10 ^ pow := by exact_mod_cast hhalf
    linarith
  refine ⟨?_, ?_, ?_, ?_, ?_⟩
  · unfold roundToPowerOfTen
    rw [hn, mul_div_assoc, div_self hP.ne', mul_one]
    have : mathRound ((k : ℚ) + 1 / 2) = k + 1 := by
      unfold mathRound
      rw [Int.floor_eq_iff]
      push_cast
      constructor <;> linarith
    rw [this]; push_cast; ring
  · rw [hn]; nlinarith
  · rw [hn]; nlinarith
  · intro hpos
    have hpos' : (0 : ℚ) < n := by exact_mod_cast hpos
    have hk : (0 : ℚ) ≤ k := by
      have : (0 : ℤ) ≤ k := by
        by_contra hcon
        have h1 : (k : ℚ) ≤ -1 := by exact_mod_cast (by omega : k ≤ -1)
        rw [hn] at hpos'
        nlinarith
      exact_mod_cast this
    rw [abs_of_nonneg (by positivity), abs_of_nonneg (by positivity)]
    nlinarith
  · intro hneg
    have hneg' : (n : ℚ) < 0 := by exact_mod_cast hneg
    have hk : (k : ℚ) + 1 ≤ 0 := by
      have : k ≤ -1 := by
        by_contra hcon
        have h1 : (0 : ℚ) ≤ k := by exact_mod_cast (by omega : 0 ≤ k)
        rw [hn] at hneg'
        nlinarith
      have h2 : (k : ℚ) ≤ -1 := by exact_mod_cast this
      linarith
    rw [abs_of_nonpos (mul_nonpos_of_nonpos_of_nonneg hk hP.le),
      abs_of_nonpos (mul_nonpos_of_nonpos_of_nonneg (by linarith) hP.le)]
    nlinarith

/-- The amended C5 at `n = -15`, `pow = 1`, `k = -2`. -/
theorem roundToPowerOfTen_tie_rounds_up_witness :
    roundToPowerOfTen (-15 : ℤ) 1 = ((-2 : ℤ) + 1) * 10 ^ 1 ∧
    ((-2 : ℤ) : ℚ) * 10 ^ 1 < (-15 : ℤ) ∧ ((-15 : ℤ) : ℚ) < ((-2 : ℤ) + 1) * 10 ^ 1 ∧
    (0 < (-15 : ℤ) → |((-2 : ℤ) : ℚ) * 10 ^ 1| < |(((-2 : ℤ) : ℚ) + 1) * 10 ^ 1|) ∧
    ((-15 : ℤ) < 0 → |(((-2 : ℤ) : ℚ) + 1) * 10 ^ 1| < |((-2 : ℤ) : ℚ) * 10 ^ 1|) :=
  roundToPowerOfTen_tie_rounds_up (-15) 1 (-2) (by decide) (by decide)

/-! ### Decimal digits -/

theorem toDigitsCore_append (fuel : ℕ) : ∀ (n : ℕ) (ds : List Char),
    Nat.toDigitsCore 10 fuel n ds = Nat.toDigitsCore 10 fuel n [] ++ ds := by
  induction fuel with
  | zero => intro n ds; simp [Nat.toDigitsCore]
  | succ f ih =>
    intro n ds
    simp only [Nat.toDigitsCore]
    split
    · simp
    · rw [ih (n / 10) (_ :: ds), ih (n / 10) [_]]
      simp

theorem toDigitsCore_eq_toDigits (n : ℕ) : ∀ fuel, n < fuel →
    Nat.toDigitsCore 10 fuel n [] = Nat.toDigits 10 n := by
  induction n using Nat.strong_induction_on with
  | _ n ih =>
    have step : ∀ fuel, n < fuel → Nat.toDigitsCore 10 fuel n [] =
        if n / 10 = 0 then [Nat.digitChar (n % 10)]
        else Nat.toDigits 10 (n / 10) ++ [Nat.digitChar (n % 10)] := by
      intro fuel hf
      obtain ⟨f, rfl⟩ : ∃ f, fuel = f + 1 := ⟨fuel - 1, by omega⟩
      simp only [Nat.toDigitsCore]
      split
      · rfl
      · rw [toDigitsCore_append f, ih (n / 10) (by omega) f (by omega)]
    intro fuel hf
    rw [step fuel hf]
    show _ = Nat.toDigitsCore 10 (n + 1) n []
    rw [step (n + 1) (by omega)]

theorem toDigits_rec (n : ℕ) : Nat.toDigits 10 n =
    if n < 10 then [Nat.digitChar n] else Nat.toDigits 10 (n / 10) ++ [Nat.digitChar (n % 10)] := by
  conv_lhs => rw [Nat.toDigits]
  simp only [Nat.toDigitsCore]
  by_cases h : n < 10
  · have h0 : n / 10 = 0 := by omega
    simp [h, h0, Nat.mod_eq_of_lt h]
  · have h0 : ¬ n / 10 = 0 := by omega
    simp only [h, h0, if_false]
    rw [toDigitsCore_append, toDigitsCore_eq_toDigits _ _ (by omega)]

theorem digitChar_isDigit (d : ℕ) (h : d < 10) : (Nat.digitChar d).isDigit = true := by
  interval_cases d <;> decide

theorem digitChar_toNat (d : ℕ) (h : d < 10) : (Nat.digitChar d).toNat - 48 = d := by
  interval_cases d <;> decide

theorem toDigits_all_isDigit (n : ℕ) : ∀ c ∈ Nat.toDigits 10 n, c.isDigit = true := by
  induction n using Nat.strong_induction_on with
  | _ n ih =>
    rw [toDigits_rec]
    split
    · intro c hc
      simp only [List.mem_singleton] at hc
      subst hc
      exact digitChar_isDigit n (by assumption)
    · intro c hc
      rw [List.mem_append, List.mem_singleton] at hc
      rcases hc with hc | hc
      · exact ih (n / 10) (by omega) c hc
      · subst hc
        exact digitChar_isDigit _ (Nat.mod_lt _ (by norm_num))

theorem toDigits_ne_nil (n : ℕ) : Nat.toDigits 10 n ≠ [] := by
  rw [toDigits_rec]
  split <;> simp

theorem toDigits_length_le (n e : ℕ) (h : n < 10 ^ e) (he : 0 < e) :
    (Nat.toDigits 10 n).length ≤ e :=
  Nat.toDigitsCore_length 10 (by norm_num) (n + 1) n e h he

/-! ### Number to string -/

theorem stripTrailingZeros_append_zeros (ds : List Char) :
    stripTrailingZeros ds ++ List.replicate (ds.length - (stripTrailingZeros ds).length) '0'
      = ds := by
  unfold stripTrailingZeros
  have h := List.takeWhile_append_dropWhile (· == '0') ds.reverse
  have hz : ds.reverse.takeWhile (· == '0')
      = List.replicate (ds.reverse.takeWhile (· == '0')).length '0' := by
    rw [List.eq_replicate_iff]
    refine ⟨rfl, fun c hc => ?_⟩
    have := List.mem_takeWhile_imp hc
    simpa using this
  have hlen : ds.length = (ds.reverse.takeWhile (· == '0')).length
      + (ds.reverse.dropWhile (· == '0')).length := by
    rw [← List.length_append, h, List.length_reverse]
  have hds : ds = (ds.reverse.dropWhile (· == '0')).reverse
      ++ (ds.reverse.takeWhile (· == '0')).reverse := by
    rw [← List.reverse_append, h, List.reverse_reverse]
  conv_rhs => rw [hds]
  rw [List.length_reverse]
  congr 1
  rw [hz, List.reverse_replicate]
  congr 1
  omega

theorem stripTrailingZeros_length_le (ds : List Char) :
    (stripTrailingZeros ds).length ≤ ds.length := by
  have h := congrArg List.length (stripTrailingZeros_append_zeros ds)
  rw [List.length_append] at h
  omega

theorem formatDecimal_plain (ds : List Char) (h21 : ds.length ≤ 21) :
    formatDecimal (stripTrailingZeros ds) ds.length = ds := by
  have hle := stripTrailingZeros_length_le ds
  unfold formatDecimal
  have h1 : (-5 : ℤ) ≤ (ds.length : ℤ) ∧ (ds.length : ℤ) ≤ 21 := by omega
  have h2 : ((stripTrailingZeros ds).length : ℤ) ≤ (ds.length : ℤ) := by omega
  simp only [h1, h2, and_self, if_true]
  have h3 : ((ds.length : ℤ) - ((stripTrailingZeros ds).length : ℤ)).toNat
      = ds.length - (stripTrailingZeros ds).length := by omega
  rw [h3]
  exact stripTrailingZeros_append_zeros ds

theorem numberToString_natCast (m : ℕ) (hm : m ≠ 0) :
    numberToString (m : ℚ) = formatDecimal (stripTrailingZeros (Nat.toDigits 10 m))
      (Nat.toDigits 10 m).length := by
  unfold numberToString
  have h0 : ¬ ((m : ℚ) = 0) := by exact_mod_cast hm
  have hpos : ¬ ((m : ℚ) < 0) := by
    have : (0 : ℚ) ≤ m := Nat.cast_nonneg m
    linarith
  have habs : |(m : ℚ)| = (m : ℚ) := abs_of_nonneg (Nat.cast_nonneg m)
  simp only [h0, if_false, hpos, habs, Rat.den_natCast, List.nil_append]
  simp [leastDecimalScale]

theorem numberToString_neg (x : ℚ) (hx : 0 < x) :
    numberToString (-x) = '-' :: numberToString x := by
  unfold numberToString
  have h1 : ¬ (-x = 0) := by linarith
  have h2 : ¬ (x = 0) := by linarith
  have h3 : -x < 0 := by linarith
  have h4 : ¬ (x < 0) := by linarith
  simp only [h1, h2, h3, h4, if_true, if_false, abs_neg, List.nil_append, List.singleton_append]

theorem numberToString_intCast (z : ℤ) (hz : |z| < 10 ^ 21) :
    numberToString (z : ℚ) = (if z < 0 then ['-'] else []) ++ Nat.toDigits 10 z.natAbs := by
  have hnat : ∀ m : ℕ, m < 10 ^ 21 → numberToString (m : ℚ) = Nat.toDigits 10 m := by
    intro m hm
    by_cases h0 : m = 0
    · subst h0
      simp [numberToString, Nat.toDigits, Nat.toDigitsCore, Nat.digitChar]
    · rw [numberToString_natCast m h0]
      exact formatDecimal_plain _ (toDigits_length_le m 21 hm (by norm_num))
  have hb : z.natAbs < 10 ^ 21 := by
    have : ((z.natAbs : ℤ)) < 10 ^ 21 := by rwa [Int.natCast_natAbs]
    exact_mod_cast this
  by_cases hneg : z < 0
  · have hz' : (z : ℚ) = -((z.natAbs : ℕ) : ℚ) := by
      have : z = -(z.natAbs : ℤ) := by omega
      conv_lhs => rw [this]
      rw [Int.cast_neg, Int.cast_natCast]
    have hpos : (0 : ℚ) < ((z.natAbs : ℕ) : ℚ) := by
      have : 0 < z.natAbs := by omega
      exact_mod_cast this
    rw [hz', numberToString_neg _ hpos, hnat _ hb]
    simp [hneg]
  · have hz' : (z : ℚ) = ((z.natAbs : ℕ) : ℚ) := by
      have : z = (z.natAbs : ℤ) := by omega
      conv_lhs => rw [this]
      rw [Int.cast_natCast]
    rw [hz', hnat _ hb]
    simp [hneg]

theorem numberToString_ten_pow_21 : numberToString (10 ^ 21) = "1e+21".toList := by
  have h : (10 ^ 21 : ℚ) = ((10 ^ 21 : ℕ) : ℚ) := by norm_num
  rw [h, numberToString_natCast _ (by norm_num)]
  decide

/-! ### `getLastDigit` -/

theorem toDigits_eq_concat (m : ℕ) :
    ∃ l, Nat.toDigits 10 m = l ++ [Nat.digitChar (m % 10)] := by
  rw [toDigits_rec]
  split
  · rename_i h
    exact ⟨[], by simp [Nat.mod_eq_of_lt h]⟩
  · exact ⟨_, rfl⟩

theorem getLastDigit_of_concat (v : JSValue) (l : List Char) (c : Char)
    (h : toStringJS v = l ++ [c]) : getLastDigit v = .str (String.singleton c) := by
  unfold getLastDigit
  simp only [h, List.map_append, List.map_cons, List.map_nil, List.length_append,
    List.length_map, List.length_singleton, Nat.add_sub_cancel]
  rw [List.get?_eq_getElem?, List.getElem?_append_right (by simp)]
  simp

/-- Up to `2 ^ 53` the string extraction agrees with the modulo: for every integer `value` with
`|value| ≤ 2 ^ 53`, negative values included, `getLastDigit(value)` is the one-character string
of a decimal digit whose value is `|value| mod 10`; it is never the sign character. -/
theorem getLastDigit_integer (value : ℤ) (h : |value| ≤ 2 ^ 53) :
    ∃ c : Char, getLastDigit (.num value) = .str (String.singleton c) ∧
      c.isDigit = true ∧ c.toNat - 48 = value.natAbs % 10 ∧ c ≠ '-' := by
  obtain ⟨l, hl⟩ := toDigits_eq_concat value.natAbs
  have hd : value.natAbs % 10 < 10 := Nat.mod_lt _ (by norm_num)
  refine ⟨Nat.digitChar (value.natAbs % 10), ?_, digitChar_isDigit _ hd, digitChar_toNat _ hd, ?_⟩
  · apply getLastDigit_of_concat _ ((if value < 0 then ['-'] else []) ++ l)
    show numberToString (value : ℚ) = _
    rw [numberToString_intCast value (lt_of_le_of_lt h (by norm_num)), hl, List.append_assoc]
  · intro hc
    have := digitChar_isDigit _ hd
    rw [hc] at this
    exact absurd this (by decide)

/-- The agreement up to `2 ^ 53`, at `value = -37`. -/
theorem getLastDigit_integer_witness :
    ∃ c : Char, getLastDigit (.num ((-37 : ℤ) : ℚ)) = .str (String.singleton c) ∧
      c.isDigit = true ∧ c.toNat - 48 = (-37 : ℤ).natAbs % 10 ∧ c ≠ '-' :=
  getLastDigit_integer (-37) (by decide)

/-- C6: at `value = 10 ^ 21` the claim fails. The template literal renders the number `1e+21`,
so `getLastDigit` returns `"1"`, the last digit of the exponent, while `|value| mod 10` is 0. -/
theorem getLastDigit_ten_pow_21 :
    getLastDigit (.num ((10 ^ 21 : ℤ) : ℚ)) = .str "1" ∧ (10 ^ 21 : ℤ).natAbs % 10 = 0 := by
  constructor
  · have h : toStringJS (.num ((10 ^ 21 : ℤ) : ℚ)) = "1e+2".toList ++ ['1'] := by
      show numberToString _ = _
      have : (((10 ^ 21 : ℤ)) : ℚ) = 10 ^ 21 := by norm_num
      rw [this, numberToString_ten_pow_21]
      rfl
    rw [getLastDigit_of_concat _ _ _ h]
    rfl
  · decide

/-! ### `parseInt` and `toNumber` -/

theorem isDigit_iff (c : Char) : c.isDigit = true ↔ 48 ≤ c.toNat ∧ c.toNat ≤ 57 := by
  unfold Char.isDigit Char.toNat
  simp only [Bool.and_eq_true, decide_eq_true_eq, UInt32.le_def, Fin.le_def]
  rfl

theorem not_whiteSpace_of_isDigit (c : Char) (h : c.isDigit = true) :
    isStrWhiteSpaceChar c = false := by
  rw [isDigit_iff] at h
  unfold isStrWhiteSpaceChar
  simp only [decide_eq_false_iff_not, List.mem_cons, List.mem_singleton, not_or, List.mem_nil_iff,
    or_false]
  omega

theorem isDigit_ne_sign (c : Char) (h : c.isDigit = true) : c ≠ '-' ∧ c ≠ '+' := by
  constructor <;> (intro hc; rw [hc] at h; exact absurd h (by decide))

theorem leadingSign_cons_digit (d : Char) (r : List Char) (h : d.isDigit = true) :
    leadingSign (d :: r) = 1 := by
  have := (isDigit_ne_sign d h).1
  unfold leadingSign
  split
  · rename_i heq
    injection heq with h1 _
    exact absurd h1 this
  · rfl

theorem dropSign_cons_digit (d : Char) (r : List Char) (h : d.isDigit = true) :
    dropSign (d :: r) = d :: r := by
  have hs := isDigit_ne_sign d h
  unfold dropSign
  split
  · rename_i heq
    injection heq with h1 _
    exact absurd h1 hs.2
  · rename_i heq
    injection heq with h1 _
    exact absurd h1 hs.1
  · rfl

theorem trimStart_cons_of_not_whiteSpace (c : Char) (r : List Char)
    (h : isStrWhiteSpaceChar c = false) : trimStart (c :: r) = c :: r := by
  unfold trimStart
  rw [List.dropWhile_cons_of_neg (by simp [h])]

theorem takeWhile_isDigit_append (ds t : List Char) (hds : ∀ c ∈ ds, c.isDigit = true)
    (ht : ∀ c r, t = c :: r → c.isDigit = false) :
    (ds ++ t).takeWhile Char.isDigit = ds := by
  induction ds with
  | nil =>
    cases t with
    | nil => rfl
    | cons c r => simp [List.takeWhile_cons, ht c r rfl]
  | cons d ds ih =>
    have hd := hds d (List.mem_cons_self _ _)
    simp only [List.cons_append, List.takeWhile_cons, hd, if_true]
    rw [ih (fun c hc => hds c (List.mem_cons_of_mem _ hc))]

theorem digitsValue_concat (l : List Char) (c : Char) :
    digitsValue (l ++ [c]) = 10 * digitsValue l + (c.toNat - 48) := by
  simp [digitsValue, List.foldl_append]

theorem digitsValue_toDigits (n : ℕ) : digitsValue (Nat.toDigits 10 n) = n := by
  induction n using Nat.strong_induction_on with
  | _ n ih =>
    rw [toDigits_rec]
    split
    · rename_i h
      simp [digitsValue, digitChar_toNat n h]
    · rw [digitsValue_concat, ih (n / 10) (by omega),
        digitChar_toNat _ (Nat.mod_lt _ (by norm_num))]
      omega

/-- What `parseInt(_, 10)` reads from a string made of an optional sign, a non-empty run of
digits and a rest that does not begin with a digit. -/
theorem parseInt10_signed_digits (v : JSValue) (sign ds t : List Char)
    (hv : toStringJS v = sign ++ ds ++ t)
    (hsign : sign = [] ∨ sign = ['+'] ∨ sign = ['-'])
    (hne : ds ≠ []) (hds : ∀ c ∈ ds, c.isDigit = true)
    (ht : ∀ c r, t = c :: r → c.isDigit = false) :
    parseInt10 v
      = toNumberValue (((if sign = ['-'] then -1 else 1) * (digitsValue ds : ℤ) : ℤ) : ℚ) := by
  obtain ⟨d, ds', rfl⟩ := List.exists_cons_of_ne_nil hne
  have hd := hds d (List.mem_cons_self _ _)
  have hws := not_whiteSpace_of_isDigit d hd
  have htake := takeWhile_isDigit_append (d :: ds') t hds ht
  unfold parseInt10
  rw [hv]
  rcases hsign with rfl | rfl | rfl
  · simp only [List.nil_append, List.cons_append] at htake ⊢
    rw [trimStart_cons_of_not_whiteSpace _ _ hws, leadingSign_cons_digit _ _ hd,
      dropSign_cons_digit _ _ hd, htake]
    simp
  · simp only [List.cons_append, List.nil_append] at htake ⊢
    rw [trimStart_cons_of_not_whiteSpace _ _ (by decide)]
    simp only [leadingSign, dropSign, htake]
    simp
  · simp only [List.cons_append, List.nil_append] at htake ⊢
    rw [trimStart_cons_of_not_whiteSpace _ _ (by decide)]
    simp only [leadingSign, dropSign, htake]
    simp

theorem toNumber_of_parseInt_num (value def_ : JSValue) (x : ℚ) (h : parseInt10 value = .num x) :
    toNumber value def_ = .num x := by
  unfold toNumber
  simp [h, typeofJS, numberIsNaN]

theorem toNumber_of_parseInt_nan (value def_ : JSValue) (h : parseInt10 value = .nan) :
    toNumber value def_ = def_ := by
  unfold toNumber
  simp [h, typeofJS, numberIsNaN]

/-- What `parseInt` reads is a number, never `NaN`, so `toNumber` returns it. -/
theorem toNumber_of_parseInt_value (value def_ : JSValue) (x : ℚ)
    (h : parseInt10 value = toNumberValue x) : toNumber value def_ = toNumberValue x := by
  unfold toNumber
  rw [h]
  unfold toNumberValue
  split <;> simp [typeofJS, numberIsNaN]

/-- `toNumber` of a value whose string is the decimal string of an integer `n` is the Number
value of `n`. -/
theorem toNumber_signed_decimal (v def_ : JSValue) (n : ℤ)
    (hv : toStringJS v = (if n < 0 then ['-'] else []) ++ Nat.toDigits 10 n.natAbs) :
    toNumber v def_ = toNumberValue (n : ℚ) := by
  have h := parseInt10_signed_digits v (if n < 0 then ['-'] else []) (Nat.toDigits 10 n.natAbs) []
    (by rw [hv, List.append_nil]) (by split <;> simp) (toDigits_ne_nil _)
    (toDigits_all_isDigit _) (by intro c r h; cases h)
  rw [toNumber_of_parseInt_value _ _ _ h, digitsValue_toDigits]
  congr 2
  by_cases hn : n < 0
  · simp only [hn, if_true]; omega
  · simp only [hn, if_false]
    have : ¬ (([] : List Char) = ['-']) := by simp
    simp only [this, if_false]; omega

theorem roundToDouble_two_pow_53_add_one :
    roundToDouble 9007199254740993 = 9007199254740992 := by
  rw [roundToDouble_of_tie 9007199254740993 53 4503599627370496 (by norm_num [abs_of_pos])
    (by norm_num [abs_of_pos]) (by norm_num) (by norm_num)]
  norm_num

/-- The Number value of `2 ^ 53 + 1`, which is no double, is `2 ^ 53`. -/
theorem toNumberValue_two_pow_53_add_one :
    toNumberValue 9007199254740993 = .num 9007199254740992 := by
  rw [toNumberValue_of_lt _ (by rw [roundToDouble_two_pow_53_add_one]; norm_num [abs_of_pos]),
    roundToDouble_two_pow_53_add_one]

/-- C9, as stated, fails at `n = 2 ^ 53 + 1 = 9007199254740993`, which is below `10 ^ 21`:
`parseInt` returns the double nearest to the integer it reads, so `toNumber` of the string
`'9007199254740993'` is `9007199254740992`, not `n`. -/
theorem toNumber_roundTrip_not_above_two_pow_53 :
    |(9007199254740993 : ℤ)| < 10 ^ 21 ∧
    decimalString 9007199254740993 = "9007199254740993" ∧
    toNumber (.str (decimalString 9007199254740993)) (.num 0) = .num 9007199254740992 ∧
    toNumber (.str (decimalString 9007199254740993)) (.num 0)
      ≠ .num ((9007199254740993 : ℤ) : ℚ) := by
  have h : toNumber (.str (decimalString 9007199254740993)) (.num 0) = .num 9007199254740992 := by
    rw [toNumber_signed_decimal (.str (decimalString 9007199254740993)) _ 9007199254740993 rfl]
    have : ((9007199254740993 : ℤ) : ℚ) = 9007199254740993 := by norm_num
    rw [this, toNumberValue_two_pow_53_add_one]
  refine ⟨by decide, by decide, h, ?_⟩
  rw [h]
  intro hcon
  injection hcon with hcon
  norm_num at hcon

/-- C9, amended: for every integer `n` with `|n| ≤ 2 ^ 53`, the range in which every integer is
a double, and every default, `toNumber` of the base-10 string of `n` and `toNumber` of the number
`n` both return the number `n`. -/
theorem toNumber_roundTrip (n : ℤ) (def_ : JSValue) (h : |n| ≤ 2 ^ 53) :
    toNumber (.str (decimalString n)) def_ = .num n ∧ toNumber (.num n) def_ = .num n := by
  have h21 : |n| < 10 ^ 21 := lt_of_le_of_lt h (by norm_num)
  constructor
  · rw [toNumber_signed_decimal (.str (decimalString n)) _ n rfl, toNumberValue_intCast n h]
  · rw [toNumber_signed_decimal (.num n) _ n (numberToString_intCast n h21),
      toNumberValue_intCast n h]

/-- The amended C9 at `n = -42` with default 0. -/
theorem toNumber_roundTrip_witness :
    toNumber (.str (decimalString (-42))) (.num 0) = .num ((-42 : ℤ) : ℚ) ∧
    toNumber (.num ((-42 : ℤ) : ℚ)) (.num 0) = .num ((-42 : ℤ) : ℚ) :=
  toNumber_roundTrip (-42) (.num 0) (by decide)

theorem dropSign_decomp (s : List Char) :
    ∃ sign, (sign = [] ∨ sign = ['+'] ∨ sign = ['-']) ∧ s = sign ++ dropSign s := by
  unfold dropSign
  split
  · exact ⟨['+'], by simp, rfl⟩
  · exact ⟨['-'], by simp, rfl⟩
  · exact ⟨[], by simp, rfl⟩

theorem parseInt10_nan_of_not_startsWithInteger (v : JSValue)
    (h : ¬ StartsWithInteger (toStringJS v)) : parseInt10 v = .nan := by
  unfold parseInt10
  simp only
  split
  · rfl
  · rename_i hz
    exfalso
    apply h
    obtain ⟨sign, hsign, hdec⟩ := dropSign_decomp (trimStart (toStringJS v))
    cases hrest : dropSign (trimStart (toStringJS v)) with
    | nil => rw [hrest] at hz; exact (hz rfl).elim
    | cons d rest =>
      rw [hrest] at hz hdec
      have hd : d.isDigit = true := by
        by_contra hd
        apply hz
        rw [List.takeWhile_cons, if_neg hd]
      refine ⟨(toStringJS v).takeWhile isStrWhiteSpaceChar, sign, rest, d, ?_, ?_, hsign, hd⟩
      · have := List.takeWhile_append_dropWhile isStrWhiteSpaceChar (toStringJS v)
        rw [List.append_assoc, ← hdec]
        exact this.symm
      · intro c hc
        exact List.mem_takeWhile_imp hc

/-- C10: `toNumber(value, def)` returns `def` when `value` is `null`, and when it is a string in
which white space is not followed by an optional sign and a decimal digit. -/
theorem toNumber_default (value def_ : JSValue)
    (h : value = .null ∨ ∃ s : String, value = .str s ∧ ¬ StartsWithInteger s.toList) :
    toNumber value def_ = def_ := by
  apply toNumber_of_parseInt_nan
  apply parseInt10_nan_of_not_startsWithInteger
  rcases h with rfl | ⟨s, rfl, hs⟩
  · rintro ⟨ws, sign, rest, d, heq, hws, hsign, hd⟩
    have heq' : ['n', 'u', 'l', 'l'] = ws ++ sign ++ d :: rest := heq
    cases ws with
    | cons w ws' =>
      have hw := hws w (List.mem_cons_self _ _)
      simp only [List.cons_append, List.cons.injEq] at heq'
      rw [← heq'.1] at hw
      exact absurd hw (by decide)
    | nil =>
      rcases hsign with rfl | rfl | rfl <;>
        simp only [List.nil_append, List.cons_append, List.cons.injEq] at heq'
      · rw [← heq'.1] at hd
        exact absurd hd (by decide)
      · exact absurd heq'.1 (by decide)
      · exact absurd heq'.1 (by decide)
  · exact hs

theorem not_startsWithInteger_of_head (c : Char) (r : List Char)
    (hws : isStrWhiteSpaceChar c = false) (hsign : c ≠ '+' ∧ c ≠ '-') (hd : c.isDigit = false) :
    ¬ StartsWithInteger (c :: r) := by
  rintro ⟨ws, sign, rest, d, heq, hw, hs, hdig⟩
  cases ws with
  | cons w ws' =>
    have := hw w (List.mem_cons_self _ _)
    simp only [List.cons_append, List.cons.injEq] at heq
    rw [← heq.1, hws] at this
    exact absurd this (by decide)
  | nil =>
    rcases hs with rfl | rfl | rfl <;>
      simp only [List.nil_append, List.cons_append, List.cons.injEq] at heq
    · rw [← heq.1, hd] at hdig
      exact absurd hdig (by decide)
    · exact hsign.1 heq.1
    · exact hsign.2 heq.1

theorem not_startsWithInteger_nil : ¬ StartsWithInteger [] := by
  rintro ⟨ws, sign, rest, d, heq, _, _, _⟩
  have := congrArg List.length heq
  simp at this
  omega

/-- C10 at `null`, at `'test'` and at the empty string. -/
theorem toNumber_default_witness :
    toNumber .null (.num 0) = .num 0 ∧ toNumber (.str "test") (.num 0) = .num 0 ∧
    toNumber (.str "") (.str "none") = .str "none" :=
  ⟨toNumber_default .null (.num 0) (Or.inl rfl),
   toNumber_default (.str "test") (.num 0) (Or.inr ⟨"test", rfl,
     not_startsWithInteger_of_head 't' _ (by decide) (by decide) (by decide)⟩),
   toNumber_default (.str "") (.str "none") (Or.inr ⟨"", rfl, not_startsWithInteger_nil⟩)⟩

/-! ### `toFixed(0)`, read back as a number -/

theorem trimEnd_concat_of_not_whiteSpace (l : List Char) (c : Char)
    (h : isStrWhiteSpaceChar c = false) : trimEnd (l ++ [c]) = l ++ [c] := by
  unfold trimEnd
  rw [List.reverse_append, List.reverse_singleton, List.singleton_append,
    List.dropWhile_cons_of_neg (by simp [h])]
  simp

theorem parseUnsignedDecimal_toDigits (m : ℕ) :
    parseUnsignedDecimal (Nat.toDigits 10 m) = toNumberValue (m : ℚ) := by
  have hall := toDigits_all_isDigit m
  have hne := toDigits_ne_nil m
  have htake : (Nat.toDigits 10 m).takeWhile Char.isDigit = Nat.toDigits 10 m := by
    have := takeWhile_isDigit_append (Nat.toDigits 10 m) [] hall (by intro c r h; cases h)
    rwa [List.append_nil] at this
  have hdrop : (Nat.toDigits 10 m).dropWhile Char.isDigit = [] := by
    rw [List.dropWhile_eq_nil_iff]
    exact hall
  have hinf : Nat.toDigits 10 m ≠ "Infinity".toList := by
    intro h
    have := hall 'I' (by rw [h]; decide)
    exact absurd this (by decide)
  unfold parseUnsignedDecimal
  simp only [hinf, if_false, htake, hdrop, hne, false_and, parseExponentPart, fractionDigits,
    afterFraction]
  rw [digitsValue_toDigits]
  simp [digitsValue]

theorem stringToNumber_toDigits (m : ℕ) :
    stringToNumber (Nat.toDigits 10 m) = toNumberValue (m : ℚ) := by
  obtain ⟨l, hl⟩ := toDigits_eq_concat m
  have hall := toDigits_all_isDigit m
  have hlast : (Nat.digitChar (m % 10)).isDigit = true :=
    digitChar_isDigit _ (Nat.mod_lt _ (by norm_num))
  obtain ⟨d, ds, hcons⟩ := List.exists_cons_of_ne_nil (toDigits_ne_nil m)
  have hd : d.isDigit = true := hall d (by rw [hcons]; exact List.mem_cons_self _ _)
  have htrim : trimEnd (trimStart (Nat.toDigits 10 m)) = Nat.toDigits 10 m := by
    rw [hcons, trimStart_cons_of_not_whiteSpace _ _ (not_whiteSpace_of_isDigit d hd), ← hcons, hl,
      trimEnd_concat_of_not_whiteSpace _ _ (not_whiteSpace_of_isDigit _ hlast)]
  have hsnd : ∀ c r, ds = c :: r → c.isDigit = true := by
    intro c r h
    exact hall c (by rw [hcons, h]; simp)
  rw [← parseUnsignedDecimal_toDigits m]
  unfold stringToNumber
  simp only [htrim]
  rw [hcons]
  have hs := isDigit_ne_sign d hd
  split
  · rename_i h; cases h
  all_goals first
    | rfl
    | (rename_i h
       injection h with h1 h2
       first
         | exact absurd h1 hs.1
         | exact absurd h1 hs.2
         | exact absurd (hsnd _ _ h2) (by decide))

theorem stringToNumber_minus_head (r : List Char) (htrim : trimEnd ('-' :: r) = '-' :: r) :
    stringToNumber ('-' :: r) = negateNumber (parseUnsignedDecimal r) := by
  unfold stringToNumber
  rw [trimStart_cons_of_not_whiteSpace _ _ (by decide)]
  simp only [htrim]

theorem stringToNumber_neg_toDigits (m : ℕ) :
    stringToNumber ('-' :: Nat.toDigits 10 m) = toNumberValue (-(m : ℚ)) := by
  obtain ⟨l, hl⟩ := toDigits_eq_concat m
  have hlast : (Nat.digitChar (m % 10)).isDigit = true :=
    digitChar_isDigit _ (Nat.mod_lt _ (by norm_num))
  have htrim : trimEnd ('-' :: Nat.toDigits 10 m) = '-' :: Nat.toDigits 10 m := by
    rw [hl, ← List.cons_append,
      trimEnd_concat_of_not_whiteSpace _ _ (not_whiteSpace_of_isDigit _ hlast)]
  rw [stringToNumber_minus_head _ htrim, parseUnsignedDecimal_toDigits, toNumberValue_neg]

theorem toFixed0_of_lt (x : ℚ) (h : |x| < 10 ^ 21) :
    toFixed0 x = (if x < 0 then ['-'] else []) ++ Nat.toDigits 10 ⌊|x| + 1 / 2⌋.toNat := by
  unfold toFixed0
  have habs : (if x < 0 then -x else x) = |x| := by
    split
    · rw [abs_of_neg (by assumption)]
    · rw [abs_of_nonneg (by linarith)]
  simp only [habs]
  rw [if_neg (by linarith)]
  congr 1
  split
  · rename_i h0
    rw [h0]
    rfl
  · rfl

/-- The string `toFixed(0)` gives a number below `10 ^ 21` in magnitude is read back as the Number
value of the integer nearest to it, a tie going away from zero. -/
theorem stringToNumber_toFixed0 (x : ℚ) (h : |x| < 10 ^ 21) :
    stringToNumber (toFixed0 x)
      = toNumberValue (((if x < 0 then -⌊|x| + 1 / 2⌋ else ⌊|x| + 1 / 2⌋ : ℤ) : ℚ)) := by
  rw [toFixed0_of_lt x h]
  have hn : (0 : ℤ) ≤ ⌊|x| + 1 / 2⌋ := by
    apply Int.floor_nonneg.mpr
    have := abs_nonneg x
    linarith
  have hcast : ((⌊|x| + 1 / 2⌋.toNat : ℕ) : ℚ) = ((⌊|x| + 1 / 2⌋ : ℤ) : ℚ) := by
    have : ((⌊|x| + 1 / 2⌋.toNat : ℕ) : ℤ) = ⌊|x| + 1 / 2⌋ := Int.toNat_of_nonneg hn
    exact_mod_cast this
  by_cases hx : x < 0
  · simp only [hx, if_true, List.singleton_append]
    rw [stringToNumber_neg_toDigits, hcast]
    simp
  · simp only [hx, if_false, List.nil_append]
    rw [stringToNumber_toDigits, hcast]

theorem abs_roundHalfAway_sub_le (x : ℚ) :
    |(((if x < 0 then -⌊|x| + 1 / 2⌋ else ⌊|x| + 1 / 2⌋ : ℤ) : ℚ)) - x| ≤ 1 / 2 := by
  have h1 := Int.floor_le (|x| + 1 / 2)
  have h2 := Int.lt_floor_add_one (|x| + 1 / 2)
  by_cases hx : x < 0
  · simp only [hx, if_true]
    have hax : |x| = -x := abs_of_neg hx
    rw [hax] at h1 h2 ⊢
    rw [abs_le]
    push_cast
    constructor <;> linarith
  · simp only [hx, if_false]
    have hax : |x| = x := abs_of_nonneg (by linarith)
    rw [hax] at h1 h2 ⊢
    rw [abs_le]
    constructor <;> linarith

theorem nearest_of_abs_sub_le_half (x : ℚ) (n k : ℤ) (h : |(n : ℚ) - x| ≤ 1 / 2) :
    |(n : ℚ) - x| ≤ |(k : ℚ) - x| := by
  by_cases hk : k = n
  · rw [hk]
  · have h1 : (1 : ℚ) ≤ |(k : ℚ) - n| := by
      have : (1 : ℤ) ≤ |k - n| := Int.one_le_abs (sub_ne_zero.mpr hk)
      exact_mod_cast this
    have h2 : |(k : ℚ) - n| ≤ |(k : ℚ) - x| + |(n : ℚ) - x| := by
      have := abs_sub_le (k : ℚ) x n
      rwa [abs_sub_comm x] at this
    linarith

theorem digitsValue_append (l1 l2 : List Char) :
    digitsValue (l1 ++ l2) = digitsValue l1 * 10 ^ l2.length + digitsValue l2 := by
  induction l2 using List.reverseRecOn with
  | nil => simp [digitsValue]
  | append_singleton l c ih =>
    rw [← List.append_assoc, digitsValue_concat, digitsValue_concat, ih, List.length_append,
      List.length_singleton, pow_succ]
    ring

theorem dropWhile_isDigit_append (ds t : List Char) (hds : ∀ c ∈ ds, c.isDigit = true)
    (ht : ∀ c r, t = c :: r → c.isDigit = false) :
    (ds ++ t).dropWhile Char.isDigit = t := by
  induction ds with
  | nil =>
    cases t with
    | nil => rfl
    | cons c r => simp [List.dropWhile_cons, ht c r rfl]
  | cons d ds ih =>
    have hd := hds d (List.mem_cons_self _ _)
    simp only [List.cons_append, List.dropWhile_cons, hd, if_true]
    exact ih (fun c hc => hds c (List.mem_cons_of_mem _ hc))

/-! ### `getLinearEquationRoot` -/

/-- For integer coefficients with `0 < |a| ≤ 2 ^ 53` and `|b| < 2 ^ 52`, an integer within one
half of the rounded quotient `-b / a` is within one half of the exact root: the root is a double
when twice it is an integer, and is farther from every half-integer than the rounding error
otherwise. -/
theorem abs_sub_root_le_of_roundToDouble (a b n : ℤ) (ha : a ≠ 0) (ha53 : |a| ≤ 2 ^ 53)
    (hb : |b| < 2 ^ 52) (hn : |(n : ℚ) - roundToDouble (-(b : ℚ) / a)| ≤ 1 / 2) :
    |(n : ℚ) - -(b : ℚ) / a| ≤ 1 / 2 := by
  have haq : (a : ℚ) ≠ 0 := by exact_mod_cast ha
  have hapos : (0 : ℚ) < |(a : ℚ)| := abs_pos.mpr haq
  have ha1 : (1 : ℚ) ≤ |(a : ℚ)| := by
    have : (1 : ℤ) ≤ |a| := Int.one_le_abs ha
    have h2 : ((1 : ℤ) : ℚ) ≤ ((|a| : ℤ) : ℚ) := by exact_mod_cast this
    rw [Int.cast_abs] at h2
    simpa using h2
  have ha53q : |(a : ℚ)| ≤ 2 ^ 53 := by
    have : ((|a| : ℤ) : ℚ) ≤ ((2 ^ 53 : ℤ) : ℚ) := by exact_mod_cast ha53
    rw [Int.cast_abs] at this
    push_cast at this
    exact this
  have hbq : |(b : ℚ)| < 2 ^ 52 := by
    have : ((|b| : ℤ) : ℚ) < ((2 ^ 52 : ℤ) : ℚ) := by exact_mod_cast hb
    rw [Int.cast_abs] at this
    push_cast at this
    exact this
  set r : ℚ := -(b : ℚ) / a with hr
  have hrabs : |r| = |(b : ℚ)| / |(a : ℚ)| := by rw [hr, abs_div, abs_neg]
  have hrle : |r| ≤ |(b : ℚ)| := by
    rw [hrabs]
    exact div_le_self (abs_nonneg _) ha1
  by_cases hb0 : b = 0
  · have : r = 0 := by rw [hr, hb0]; simp
    rw [this] at hn ⊢
    simpa [roundToDouble] using hn
  by_cases hhalf : ∃ k : ℤ, 2 * r = k
  · obtain ⟨k, hk⟩ := hhalf
    have hrk : r = (k : ℚ) * 2 ^ (-1 : ℤ) := by
      have : r = (k : ℚ) / 2 := by linarith
      rw [this]
      norm_num [div_eq_mul_inv]
    have hksmall : |k| < 2 ^ 53 := by
      have h1 : |(k : ℚ)| < 2 ^ 53 := by
        rw [← hk, abs_mul, abs_of_pos (by norm_num : (0 : ℚ) < 2)]
        linarith
      have h2 : ((|k| : ℤ) : ℚ) < ((2 ^ 53 : ℤ) : ℚ) := by
        rw [Int.cast_abs]
        push_cast
        exact h1
      exact_mod_cast h2
    have hfix : roundToDouble r = r := by
      rw [hrk]
      exact roundToDouble_of_lt k (-1) hksmall (by norm_num)
    rw [hfix] at hn
    exact hn
  · -- the root is at least `1 / (2 * |a|)` away from every half-integer
    have hdist : ∀ k : ℤ, 1 / (2 * |(a : ℚ)|) ≤ |r - (k : ℚ) / 2| := by
      intro k
      have hne : -2 * b - k * a ≠ 0 := by
        intro h0
        apply hhalf
        refine ⟨k, ?_⟩
        have h1 : (-2 * (b : ℚ) - k * a) = 0 := by exact_mod_cast h0
        rw [hr]
        field_simp
        linarith
      have h1 : (1 : ℚ) ≤ |(-2 * (b : ℚ) - k * a)| := by
        have : (1 : ℤ) ≤ |-2 * b - k * a| := Int.one_le_abs hne
        have h2 : ((1 : ℤ) : ℚ) ≤ ((|-2 * b - k * a| : ℤ) : ℚ) := by exact_mod_cast this
        rw [Int.cast_abs] at h2
        push_cast at h2
        simpa using h2
      have e : r - (k : ℚ) / 2 = (-2 * (b : ℚ) - k * a) / (2 * a) := by
        rw [hr]
        field_simp
        ring
      rw [e, abs_div, abs_mul, abs_of_pos (by norm_num : (0 : ℚ) < 2)]
      exact div_le_div_of_nonneg_right h1 (by positivity)
    have hb1 : (1 : ℚ) ≤ |(b : ℚ)| := by
      have : (1 : ℤ) ≤ |b| := Int.one_le_abs hb0
      have h2 : ((1 : ℤ) : ℚ) ≤ ((|b| : ℤ) : ℚ) := by exact_mod_cast this
      rw [Int.cast_abs] at h2
      simpa using h2
    have herr : |roundToDouble r - r| < 1 / (2 * |(a : ℚ)|) := by
      have hlow : (2 : ℚ) ^ (-1022 : ℤ) ≤ |r| := by
        rw [hrabs]
        have h1 : (1 : ℚ) / 2 ^ 53 ≤ |(b : ℚ)| / |(a : ℚ)| :=
          div_le_div₀ (abs_nonneg _) hb1 hapos ha53q
        have h2 : (2 : ℚ) ^ (-1022 : ℤ) ≤ 1 / 2 ^ 53 := by
          have : (1 : ℚ) / 2 ^ 53 = 2 ^ (-53 : ℤ) := by norm_num
          rw [this]
          exact zpow_le_zpow_right₀ (by norm_num) (by norm_num)
        linarith
      have h1 := abs_roundToDouble_sub_le_mul r hlow
      have h2 : |r| * 2 ^ (-53 : ℤ) < 1 / (2 * |(a : ℚ)|) := by
        rw [hrabs]
        have e : |(b : ℚ)| / |(a : ℚ)| * 2 ^ (-53 : ℤ) = (|(b : ℚ)| / 2 ^ 52) / (2 * |(a : ℚ)|) := by
          have : (2 : ℚ) ^ (-53 : ℤ) = 1 / 2 ^ 53 := by norm_num
          rw [this]
          generalize |(a : ℚ)| = A at hapos
          generalize |(b : ℚ)| = B
          have hA : A ≠ 0 := hapos.ne'
          rw [div_mul_eq_mul_div, div_div, div_eq_div_iff (by positivity) (by positivity)]
          ring
        rw [e]
        apply div_lt_div_of_pos_right _ (by positivity)
        rw [div_lt_one (by positivity)]
        exact hbq
      exact lt_of_le_of_lt h1 h2
    rw [abs_lt] at herr
    rw [abs_le] at hn ⊢
    have hd1 := hdist (2 * n + 1)
    have hd2 := hdist (2 * n - 1)
    push_cast at hd1 hd2
    constructor
    · -- `r ≤ n + 1 / 2`
      by_contra hcon
      have hgt : (0 : ℚ) < r - (2 * (n : ℚ) + 1) / 2 := by linarith
      rw [abs_of_pos hgt] at hd1
      linarith [hn.1, herr.1]
    · by_contra hcon
      have hlt : r - (2 * (n : ℚ) - 1) / 2 < 0 := by linarith
      rw [abs_of_neg hlt] at hd2
      linarith [hn.2, herr.2]

/-- The rounded quotient of two integers with `0 < |a| ≤ 2 ^ 53` and `|b| < 2 ^ 52` is below
`2 ^ 53` in magnitude. -/
theorem abs_roundToDouble_div_lt (a b : ℤ) (ha : a ≠ 0) (ha53 : |a| ≤ 2 ^ 53)
    (hb : |b| < 2 ^ 52) : |roundToDouble (-(b : ℚ) / a)| < 2 ^ 53 := by
  have haq : (a : ℚ) ≠ 0 := by exact_mod_cast ha
  have hapos : (0 : ℚ) < |(a : ℚ)| := abs_pos.mpr haq
  have ha1 : (1 : ℚ) ≤ |(a : ℚ)| := by
    have : (1 : ℤ) ≤ |a| := Int.one_le_abs ha
    have h2 : ((1 : ℤ) : ℚ) ≤ ((|a| : ℤ) : ℚ) := by exact_mod_cast this
    rw [Int.cast_abs] at h2
    simpa using h2
  have ha53q : |(a : ℚ)| ≤ 2 ^ 53 := by
    have : ((|a| : ℤ) : ℚ) ≤ ((2 ^ 53 : ℤ) : ℚ) := by exact_mod_cast ha53
    rw [Int.cast_abs] at this
    push_cast at this
    exact this
  have hbq : |(b : ℚ)| < 2 ^ 52 := by
    have : ((|b| : ℤ) : ℚ) < ((2 ^ 52 : ℤ) : ℚ) := by exact_mod_cast hb
    rw [Int.cast_abs] at this
    push_cast at this
    exact this
  have hrabs : |-(b : ℚ) / a| = |(b : ℚ)| / |(a : ℚ)| := by rw [abs_div, abs_neg]
  have hrle : |-(b : ℚ) / a| ≤ |(b : ℚ)| := by
    rw [hrabs]
    exact div_le_self (abs_nonneg _) ha1
  by_cases hb0 : b = 0
  · rw [hb0]
    simp [roundToDouble]
  have hb1 : (1 : ℚ) ≤ |(b : ℚ)| := by
    have : (1 : ℤ) ≤ |b| := Int.one_le_abs hb0
    have h2 : ((1 : ℤ) : ℚ) ≤ ((|b| : ℤ) : ℚ) := by exact_mod_cast this
    rw [Int.cast_abs] at h2
    simpa using h2
  have hlow : (2 : ℚ) ^ (-1022 : ℤ) ≤ |-(b : ℚ) / a| := by
    rw [hrabs]
    have h1 : (1 : ℚ) / 2 ^ 53 ≤ |(b : ℚ)| / |(a : ℚ)| :=
      div_le_div₀ (abs_nonneg _) hb1 hapos ha53q
    have h2 : (2 : ℚ) ^ (-1022 : ℤ) ≤ 1 / 2 ^ 53 := by
      have : (1 : ℚ) / 2 ^ 53 = 2 ^ (-53 : ℤ) := by norm_num
      rw [this]
      exact zpow_le_zpow_right₀ (by norm_num) (by norm_num)
    linarith
  have h1 := abs_roundToDouble_sub_le_mul _ hlow
  have h2 : |-(b : ℚ) / a| * 2 ^ (-53 : ℤ) ≤ |-(b : ℚ) / a| := by
    have : (2 : ℚ) ^ (-53 : ℤ) ≤ 1 := by norm_num
    exact mul_le_of_le_one_right (abs_nonneg _) this
  have h3 := abs_sub_abs_le_abs_sub (roundToDouble (-(b : ℚ) / a)) (-(b : ℚ) / a)
  linarith

/-- C7, as stated, fails on doubles at `a = 2 ^ 52 + 1`, `b = -(5 * 2 ^ 51 + 2)`: the root
`(5 * 2 ^ 51 + 2) / (2 ^ 52 + 1)` is just below `2.5`, the quotient is rounded to the double
`2.5`, and `toFixed(0)` makes `'3'` of it, which is more than one half away from the root. -/
theorem getLinearEquationRoot_not_nearest :
    IsDouble (2 ^ 52 + 1) ∧ IsDouble (-(5 * 2 ^ 51 + 2)) ∧
    getLinearEquationRoot (2 ^ 52 + 1) (-(5 * 2 ^ 51 + 2)) = .str "3" ∧
    stringToNumber "3".toList = .num 3 ∧
    1 / 2 < |(3 : ℚ) - -(-(5 * 2 ^ 51 + 2)) / (2 ^ 52 + 1)| := by
  refine ⟨⟨2 ^ 52 + 1, 0, by norm_num, by norm_num, by norm_num, by norm_num⟩,
    ⟨-(5 * 2 ^ 50 + 1), 1, by norm_num, by norm_num, by norm_num, by norm_num⟩, ?_, ?_, ?_⟩
  · have he : -(-(5 * 2 ^ 51 + 2 : ℚ)) / (2 ^ 52 + 1)
        = 11258999068426242 / 4503599627370497 := by norm_num
    have hq : roundToDouble (11258999068426242 / 4503599627370497) = 5 / 2 := by
      have h1 : (2 : ℚ) ^ (1 : ℤ) ≤ |(11258999068426242 / 4503599627370497 : ℚ)| := by
        rw [abs_of_pos (by norm_num)]
        norm_num
      have h2 : |(11258999068426242 / 4503599627370497 : ℚ)| < 2 ^ ((1 : ℤ) + 1) := by
        rw [abs_of_pos (by norm_num)]
        norm_num
      have h3 : |(11258999068426242 / 4503599627370497 : ℚ) / 2 ^ ((1 : ℤ) - 52)
          - ((5629499534213120 : ℤ) : ℚ)| < 1 / 2 := by
        rw [abs_lt]
        norm_num
      rw [roundToDouble_of_near _ 1 5629499534213120 h1 h2 (by norm_num) h3]
      norm_num
    have hf : ⌊|(5 / 2 : ℚ)| + 1 / 2⌋ = 3 := by
      rw [Int.floor_eq_iff]
      norm_num [abs_of_pos]
    unfold getLinearEquationRoot jsDivideDouble
    have hfix : toFixed0Value (.num (5 / 2)) = toFixed0 (5 / 2) := rfl
    have h21 : |(5 / 2 : ℚ)| < 10 ^ 21 := by
      rw [abs_of_pos (by norm_num)]
      norm_num
    have hpos : ¬ ((5 / 2 : ℚ) < 0) := by norm_num
    have hdigits : ([] : List Char) ++ Nat.toDigits 10 (3 : ℤ).toNat = "3".toList := by decide
    rw [if_neg (by norm_num), he,
      toNumberValue_of_lt _ (by rw [hq, abs_of_pos (by norm_num)]; norm_num), hq, hfix,
      toFixed0_of_lt _ h21, hf, if_neg hpos, hdigits]
    rfl
  · have h := stringToNumber_toDigits 3
    have e : Nat.toDigits 10 3 = "3".toList := by decide
    have h3 := toNumberValue_intCast 3 (by norm_num)
    have e1 : ((3 : ℤ) : ℚ) = ((3 : ℕ) : ℚ) := by norm_num
    rw [e1] at h3
    rw [e, h3] at h
    rw [h]
    norm_num
  · rw [abs_of_pos (by norm_num)]
    norm_num

/-- C7, amended: for all integers `a` and `b` with `0 < |a| ≤ 2 ^ 53` and `|b| < 2 ^ 52`, the
string `getLinearEquationRoot(a, b)` returns denotes an integer nearest to the root `-b / a`,
within one half of it, and the exact root when `a` divides `b`. -/
theorem getLinearEquationRoot_nearest (a b : ℤ) (ha : a ≠ 0) (ha53 : |a| ≤ 2 ^ 53)
    (hb : |b| < 2 ^ 52) :
    ∃ (s : String) (x : ℤ), getLinearEquationRoot a b = .str s ∧
      stringToNumber s.toList = .num (x : ℚ) ∧
      |(x : ℚ) - -(b : ℚ) / a| ≤ 1 / 2 ∧
      (∀ k : ℤ, |(x : ℚ) - -(b : ℚ) / a| ≤ |(k : ℚ) - -(b : ℚ) / a|) ∧
      ((∃ q : ℤ, -(b : ℚ) / a = q) → (a : ℚ) * x + b = 0) := by
  have haq : (a : ℚ) ≠ 0 := by exact_mod_cast ha
  have hlt := abs_roundToDouble_div_lt a b ha ha53 hb
  set x0 : ℚ := roundToDouble (-(b : ℚ) / a) with hx0
  have h21 : |x0| < 10 ^ 21 := lt_trans hlt (by norm_num)
  have hquot : jsDivideDouble (-(b : ℚ)) a = .num x0 := by
    unfold jsDivideDouble
    rw [if_neg haq, toNumberValue_of_lt _ (lt_trans hlt (by norm_num))]
  have hhalf0 := abs_roundHalfAway_sub_le x0
  generalize hN : (if x0 < 0 then -⌊|x0| + 1 / 2⌋ else ⌊|x0| + 1 / 2⌋ : ℤ) = N at hhalf0
  have hN53 : |N| ≤ 2 ^ 53 := by
    have h1 := abs_sub_abs_le_abs_sub (N : ℚ) x0
    have h2 : |(N : ℚ)| < 2 ^ 53 + 1 := by linarith
    rw [← Int.cast_abs] at h2
    have h4 : |N| < 2 ^ 53 + 1 := by exact_mod_cast h2
    omega
  have hread : stringToNumber (toFixed0 x0) = .num (N : ℚ) := by
    rw [stringToNumber_toFixed0 x0 h21, hN, toNumberValue_intCast N hN53]
  have hhalf := abs_sub_root_le_of_roundToDouble a b N ha ha53 hb hhalf0
  refine ⟨String.mk (toFixed0 x0), N, ?_, hread, hhalf,
    fun k => nearest_of_abs_sub_le_half _ _ k hhalf, ?_⟩
  · unfold getLinearEquationRoot
    rw [hquot]
    rfl
  · rintro ⟨q, hq⟩
    rw [hq] at hhalf
    have hnq : N = q := by
      by_contra hne
      have h1 : (1 : ℚ) ≤ |(N : ℚ) - q| := by
        have : (1 : ℤ) ≤ |N - q| := Int.one_le_abs (sub_ne_zero.mpr hne)
        exact_mod_cast this
      linarith
    rw [hnq, ← hq]
    field_simp
    ring

/-- The amended C7 at `a = 5`, `b = -10` (root 2) and at `a = 2`, `b = -1` (root `0.5`). -/
theorem getLinearEquationRoot_nearest_witness :
    (∃ (s : String) (x : ℤ), getLinearEquationRoot (5 : ℤ) (-10 : ℤ) = .str s ∧
      stringToNumber s.toList = .num (x : ℚ) ∧
      |(x : ℚ) - -((-10 : ℤ) : ℚ) / (5 : ℤ)| ≤ 1 / 2 ∧
      (∀ k : ℤ, |(x : ℚ) - -((-10 : ℤ) : ℚ) / (5 : ℤ)| ≤ |(k : ℚ) - -((-10 : ℤ) : ℚ) / (5 : ℤ)|) ∧
      ((∃ q : ℤ, -((-10 : ℤ) : ℚ) / (5 : ℤ) = q) → ((5 : ℤ) : ℚ) * x + (-10 : ℤ) = 0)) ∧
    (∃ (s : String) (x : ℤ), getLinearEquationRoot (2 : ℤ) (-1 : ℤ) = .str s ∧
      stringToNumber s.toList = .num (x : ℚ) ∧
      |(x : ℚ) - -((-1 : ℤ) : ℚ) / (2 : ℤ)| ≤ 1 / 2 ∧
      (∀ k : ℤ, |(x : ℚ) - -((-1 : ℤ) : ℚ) / (2 : ℤ)| ≤ |(k : ℚ) - -((-1 : ℤ) : ℚ) / (2 : ℤ)|) ∧
      ((∃ q : ℤ, -((-1 : ℤ) : ℚ) / (2 : ℤ) = q) → ((2 : ℤ) : ℚ) * x + (-1 : ℤ) = 0)) :=
  ⟨getLinearEquationRoot_nearest 5 (-10) (by decide) (by decide) (by decide),
   getLinearEquationRoot_nearest 2 (-1) (by decide) (by decide) (by decide)⟩

/-- C8: `getLinearEquationRoot(5, -10)` is the string `"2"`, not the number 2, and the result
of `getLinearEquationRoot` has type string for all arguments. -/
theorem getLinearEquationRoot_returns_string :
    getLinearEquationRoot 5 (-10) = .str "2" ∧
    getLinearEquationRoot 5 (-10) ≠ .num 2 ∧
    ∀ a b : ℚ, typeofJS (getLinearEquationRoot a b) = "string" := by
  have h : getLinearEquationRoot 5 (-10) = .str "2" := by
    have hq : jsDivideDouble (-(-10)) 5 = .num 2 := by
      unfold jsDivideDouble
      rw [if_neg (by norm_num)]
      have hx : (-(-10 : ℚ) / 5) = ((2 : ℤ) : ℚ) := by norm_num
      rw [hx, toNumberValue_intCast 2 (by norm_num)]
      simp
    have hfix : toFixed0Value (.num 2) = toFixed0 2 := rfl
    have hf : ⌊|(2 : ℚ)| + 1 / 2⌋ = 2 := by
      rw [Int.floor_eq_iff]
      norm_num
    have hpos : ¬ ((2 : ℚ) < 0) := by norm_num
    have hdigits : ([] : List Char) ++ Nat.toDigits 10 (2 : ℤ).toNat = "2".toList := by decide
    unfold getLinearEquationRoot
    rw [hq, hfix, toFixed0_of_lt 2 (by norm_num [abs_lt]), hf, if_neg hpos, hdigits]
    rfl
  refine ⟨h, ?_, fun a b => rfl⟩
  rw [h]
  intro hcon
  cases hcon

/-! ### Monotonicity of `roundToPowerOfTen` -/

/-- C20: `roundToPowerOfTen` is monotone in `n`: for every power `pow` and all rationals `n ≤ m`,
`roundToPowerOfTen n pow ≤ roundToPowerOfTen m pow`. -/
theorem roundToPowerOfTen_monotone (pow : ℕ) (n m : ℚ) (h : n ≤ m) :
    roundToPowerOfTen n pow ≤ roundToPowerOfTen m pow := by
  have hP := pow_ten_pos pow
  unfold roundToPowerOfTen mathRound
  apply mul_le_mul_of_nonneg_right _ hP.le
  have hdiv : n / 10 ^ pow + 1 / 2 ≤ m / 10 ^ pow + 1 / 2 := by
    have := div_le_div_of_nonneg_right h hP.le
    linarith
  exact_mod_cast Int.floor_mono hdiv

/-- C20 at `n = 1234`, `m = 1678`, `pow = 2`. -/
theorem roundToPowerOfTen_monotone_witness :
    roundToPowerOfTen 1234 2 ≤ roundToPowerOfTen 1678 2 :=
  roundToPowerOfTen_monotone 2 1234 1678 (by norm_num)

/-! ### `getAverage` on integers -/

/-- The half the source computes for one integer argument, `a + avrg / 2`, is `value / 2`. -/
theorem getAverage_half_integer (v : ℤ) :
    (((if (v : ℚ) / 2 < 0 then mathRound ((v : ℚ) / 2) else mathFloor ((v : ℚ) / 2) : ℤ) : ℚ))
      + jsRemainder v 2 / 2 = (v : ℚ) / 2 := by
  unfold jsRemainder mathTrunc
  by_cases hneg : (v : ℚ) / 2 < 0
  · have hnn : ¬ (0 ≤ (v : ℚ) / 2) := not_le.mpr hneg
    simp only [hneg, hnn, if_true, if_false]
    have hround : mathRound ((v : ℚ) / 2) = ⌈(v : ℚ) / 2⌉ := by
      unfold mathRound
      rcases Int.even_or_odd' v with ⟨k, hk | hk⟩
      · have e : (v : ℚ) / 2 = (k : ℚ) := by rw [hk]; push_cast; ring
        rw [e, Int.ceil_intCast, Int.floor_eq_iff]
        constructor <;> linarith
      · have e : (v : ℚ) / 2 = (k : ℚ) + 1 / 2 := by rw [hk]; push_cast; ring
        rw [e]
        have h1 : ⌈(k : ℚ) + 1 / 2⌉ = k + 1 := by
          rw [Int.ceil_eq_iff]
          push_cast
          constructor <;> linarith
        rw [h1, Int.floor_eq_iff]
        push_cast
        constructor <;> linarith
    rw [hround]
    ring
  · have hnn : 0 ≤ (v : ℚ) / 2 := not_lt.mp hneg
    simp only [hneg, hnn, if_true, if_false, mathFloor]
    ring

/-- Over exact rationals: for all integers `value1` and `value2`, of any sign and parity,
`getAverage` is exactly `(value1 + value2) / 2`; for each argument the floor (or, when negative,
the rounding) of `value / 2` plus half of the remainder `value % 2` is `value / 2`. -/
theorem getAverage_exact_integers (value1 value2 : ℤ) :
    getAverage value1 value2 = ((value1 : ℚ) + value2) / 2 ∧
    (∀ v : ℤ, (((if (v : ℚ) / 2 < 0 then mathRound ((v : ℚ) / 2)
        else mathFloor ((v : ℚ) / 2) : ℤ) : ℚ)) + jsRemainder v 2 / 2 = (v : ℚ) / 2) := by
  refine ⟨?_, getAverage_half_integer⟩
  have h1 := getAverage_half_integer value1
  have h2 := getAverage_half_integer value2
  unfold getAverage
  simp only
  linarith

theorem roundToDouble_int_div_two (v : ℤ) (h : |v| ≤ 2 ^ 53) :
    roundToDouble ((v : ℚ) / 2) = (v : ℚ) / 2 := by
  have e : (v : ℚ) / 2 = (v : ℚ) * 2 ^ (-1 : ℤ) := by norm_num [div_eq_mul_inv]
  rw [e]
  exact roundToDouble_of_le v (-1) h (by norm_num)

/-- The remainder `v % 2` of an integer is an integer of magnitude at most 1. -/
theorem jsRemainder_int_two (v : ℤ) : ∃ r : ℤ, jsRemainder v 2 = r ∧ |r| ≤ 1 := by
  refine ⟨v - 2 * mathTrunc ((v : ℚ) / 2), by unfold jsRemainder; push_cast; ring, ?_⟩
  have hb : |(v : ℚ) - 2 * (mathTrunc ((v : ℚ) / 2) : ℚ)| < 2 := by
    unfold mathTrunc
    split
    · have h1 := Int.floor_le ((v : ℚ) / 2)
      have h2 := Int.lt_floor_add_one ((v : ℚ) / 2)
      rw [abs_lt]
      constructor <;> linarith
    · have h1 := Int.le_ceil ((v : ℚ) / 2)
      have h2 := Int.ceil_lt_add_one ((v : ℚ) / 2)
      rw [abs_lt]
      constructor <;> linarith
  have hc : ((|v - 2 * mathTrunc ((v : ℚ) / 2)| : ℤ) : ℚ) < ((2 : ℤ) : ℚ) := by
    rw [Int.cast_abs]
    push_cast
    exact hb
  have : |v - 2 * mathTrunc ((v : ℚ) / 2)| < 2 := by exact_mod_cast hc
  omega

/-- C17, as stated, fails on doubles at `value1 = 2 ^ 53 - 1`, `value2 = 2`: the halves are
`4503599627370495` (with remainder 1) and `1`, and the sum `4503599627370496 + 0.5` is rounded to
the double `4503599627370496`, while the mean is `4503599627370496.5`. -/
theorem getAverageDouble_not_mean :
    IsDouble 9007199254740991 ∧ IsDouble 2 ∧
    getAverageDouble 9007199254740991 2 = 4503599627370496 ∧
    getAverageDouble 9007199254740991 2 ≠ ((9007199254740991 : ℚ) + 2) / 2 := by
  have h : getAverageDouble 9007199254740991 2 = 4503599627370496 := by
    have t1 : mathTrunc ((9007199254740991 : ℚ) / 2) = 4503599627370495 := by
      unfold mathTrunc
      rw [if_pos (by norm_num), Int.floor_eq_iff]
      norm_num
    have t2 : mathTrunc ((2 : ℚ) / 2) = 1 := by
      unfold mathTrunc
      rw [if_pos (by norm_num), Int.floor_eq_iff]
      norm_num
    have r1 : jsRemainder 9007199254740991 2 = 1 := by
      unfold jsRemainder
      rw [t1]
      norm_num
    have r2 : jsRemainder 2 2 = 0 := by
      unfold jsRemainder
      rw [t2]
      norm_num
    have d1 : roundToDouble ((9007199254740991 : ℚ) / 2) = 9007199254740991 / 2 := by
      have := roundToDouble_int_div_two 9007199254740991 (by norm_num)
      simpa using this
    have d2 : roundToDouble ((2 : ℚ) / 2) = 1 := by
      have := roundToDouble_int_div_two 2 (by norm_num)
      simpa using this
    have d3 : roundToDouble ((1 : ℚ) + 0) = 1 := by
      have := roundToDouble_intCast 1 (by norm_num)
      simpa using this
    have d4 : roundToDouble ((1 : ℚ) / 2) = 1 / 2 := by
      have := roundToDouble_int_div_two 1 (by norm_num)
      simpa using this
    have f1 : mathFloor ((9007199254740991 : ℚ) / 2) = 4503599627370495 := by
      unfold mathFloor
      rw [Int.floor_eq_iff]
      norm_num
    have f2 : mathFloor (1 : ℚ) = 1 := by
      unfold mathFloor
      simp
    have d5 : roundToDouble (((4503599627370495 : ℤ) : ℚ) + ((1 : ℤ) : ℚ)) = 4503599627370496 := by
      have := roundToDouble_intCast 4503599627370496 (by norm_num)
      have e : ((4503599627370495 : ℤ) : ℚ) + ((1 : ℤ) : ℚ) = ((4503599627370496 : ℤ) : ℚ) := by
        norm_num
      rw [e, this]
      norm_num
    have d6 : roundToDouble ((4503599627370496 : ℚ) + 1 / 2) = 4503599627370496 := by
      rw [roundToDouble_of_tie _ 52 4503599627370496 (by norm_num [abs_of_pos])
        (by norm_num [abs_of_pos]) (by norm_num) (by norm_num)]
      norm_num
    unfold getAverageDouble
    simp only [r1, r2, d1, d2, d3, d4]
    rw [if_neg (by norm_num), if_neg (by norm_num), f1, f2, d5, d6]
  refine ⟨⟨9007199254740991, 0, by norm_num, by norm_num, by norm_num, by norm_num⟩,
    ⟨2, 0, by norm_num, by norm_num, by norm_num, by norm_num⟩, h, ?_⟩
  rw [h]
  norm_num

/-- C17, amended: for all integers `value1` and `value2` that are at most `2 ^ 53` in magnitude
and whose sum is, `getAverage` on doubles is exactly `(value1 + value2) / 2`; for each argument
the half `value / 2` is a double, and the floor (or, when negative, the rounding) of it plus half
of the remainder `value % 2` is `value / 2`. -/
theorem getAverageDouble_integers (value1 value2 : ℤ) (h1 : |value1| ≤ 2 ^ 53)
    (h2 : |value2| ≤ 2 ^ 53) (h12 : |value1 + value2| ≤ 2 ^ 53) :
    getAverageDouble value1 value2 = ((value1 : ℚ) + value2) / 2 ∧
    (∀ v : ℤ, |v| ≤ 2 ^ 53 → roundToDouble ((v : ℚ) / 2) = (v : ℚ) / 2 ∧
      (((if (v : ℚ) / 2 < 0 then mathRound ((v : ℚ) / 2)
        else mathFloor ((v : ℚ) / 2) : ℤ) : ℚ)) + jsRemainder v 2 / 2 = (v : ℚ) / 2) := by
  refine ⟨?_, fun v hv => ⟨roundToDouble_int_div_two v hv, getAverage_half_integer v⟩⟩
  have e1 := getAverage_half_integer value1
  have e2 := getAverage_half_integer value2
  obtain ⟨r1, hr1, hb1⟩ := jsRemainder_int_two value1
  obtain ⟨r2, hr2, hb2⟩ := jsRemainder_int_two value2
  rw [hr1] at e1
  rw [hr2] at e2
  unfold getAverageDouble
  simp only [roundToDouble_int_div_two value1 h1, roundToDouble_int_div_two value2 h2, hr1, hr2]
  generalize (if (value1 : ℚ) / 2 < 0 then mathRound ((value1 : ℚ) / 2)
    else mathFloor ((value1 : ℚ) / 2) : ℤ) = a at e1 ⊢
  generalize (if (value2 : ℚ) / 2 < 0 then mathRound ((value2 : ℚ) / 2)
    else mathFloor ((value2 : ℚ) / 2) : ℤ) = b at e2 ⊢
  have ha : 2 * a = value1 - r1 := by
    have : ((2 * a : ℤ) : ℚ) = ((value1 - r1 : ℤ) : ℚ) := by
      push_cast
      linarith
    exact_mod_cast this
  have hb : 2 * b = value2 - r2 := by
    have : ((2 * b : ℤ) : ℚ) = ((value2 - r2 : ℤ) : ℚ) := by
      push_cast
      linarith
    exact_mod_cast this
  rw [abs_le] at h1 h2 h12 hb1 hb2
  have s1 : roundToDouble ((r1 : ℚ) + r2) = (r1 : ℚ) + r2 := by
    have := roundToDouble_intCast (r1 + r2) (by rw [abs_le]; constructor <;> omega)
    push_cast at this
    exact this
  have s2 : roundToDouble (((r1 : ℚ) + r2) / 2) = ((r1 : ℚ) + r2) / 2 := by
    have := roundToDouble_int_div_two (r1 + r2) (by rw [abs_le]; constructor <;> omega)
    push_cast at this
    exact this
  have s3 : roundToDouble ((a : ℚ) + b) = (a : ℚ) + b := by
    have := roundToDouble_intCast (a + b) (by rw [abs_le]; constructor <;> omega)
    push_cast at this
    exact this
  have s4 : (a : ℚ) + b + ((r1 : ℚ) + r2) / 2 = ((value1 : ℚ) + value2) / 2 := by linarith
  have s5 : roundToDouble (((value1 : ℚ) + value2) / 2) = ((value1 : ℚ) + value2) / 2 := by
    have := roundToDouble_int_div_two (value1 + value2) (by rw [abs_le]; exact h12)
    push_cast at this
    exact this
  rw [s1, s2, s3, s4, s5]

/-- The amended C17 at `value1 = -7`, `value2 = 4`. -/
theorem getAverageDouble_integers_witness :
    getAverageDouble (-7 : ℤ) (4 : ℤ) = (((-7 : ℤ) : ℚ) + (4 : ℤ)) / 2 ∧
    (∀ v : ℤ, |v| ≤ 2 ^ 53 → roundToDouble ((v : ℚ) / 2) = (v : ℚ) / 2 ∧
      (((if (v : ℚ) / 2 < 0 then mathRound ((v : ℚ) / 2)
        else mathFloor ((v : ℚ) / 2) : ℤ) : ℚ)) + jsRemainder v 2 / 2 = (v : ℚ) / 2) :=
  getAverageDouble_integers (-7) 4 (by decide) (by decide) (by decide)

/-! ### Distance and angle -/

/-- C13: for all real coordinates, `getDistanceBetweenPoints` is non-negative and its square is
`(x2 - x1) ^ 2 + (y2 - y1) ^ 2`: it is the Euclidean distance. -/
theorem getDistanceBetweenPoints_euclidean (x1 y1 x2 y2 : ℝ) :
    0 ≤ getDistanceBetweenPoints x1 y1 x2 y2 ∧
    getDistanceBetweenPoints x1 y1 x2 y2 ^ 2 = (x2 - x1) ^ 2 + (y2 - y1) ^ 2 := by
  unfold getDistanceBetweenPoints mathSqrt
  exact ⟨Real.sqrt_nonneg _, Real.sq_sqrt (by positivity)⟩

theorem magnitude_pos (x y : ℝ) (h : ¬ (x = 0 ∧ y = 0)) : 0 < mathSqrt (x ^ 2 + y ^ 2) := by
  unfold mathSqrt
  apply Real.sqrt_pos.mpr
  by_cases hx : x = 0
  · have hy : y ≠ 0 := fun hy => h ⟨hx, hy⟩
    have := sq_nonneg x
    have := pow_pos (abs_pos.mpr hy) 2
    rw [sq_abs] at this
    linarith
  · have := sq_nonneg y
    have := pow_pos (abs_pos.mpr hx) 2
    rw [sq_abs] at this
    linarith

theorem abs_dot_le_magnitudes (x1 y1 x2 y2 : ℝ) :
    |x1 * x2 + y1 * y2| ≤ mathSqrt (x1 ^ 2 + y1 ^ 2) * mathSqrt (x2 ^ 2 + y2 ^ 2) := by
  unfold mathSqrt
  rw [← Real.sqrt_mul (by positivity), ← Real.sqrt_sq_eq_abs]
  apply Real.sqrt_le_sqrt
  nlinarith [sq_nonneg (x1 * y2 - y1 * x2)]

/-- The argument of `Math.acos` for two non-zero vectors is a real number of `[-1, 1]`. -/
theorem cosine_of_nonzero (x1 y1 x2 y2 : ℝ) (h1 : ¬ (x1 = 0 ∧ y1 = 0))
    (h2 : ¬ (x2 = 0 ∧ y2 = 0)) :
    jsDivide (x1 * x2 + y1 * y2) (mathSqrt (x1 ^ 2 + y1 ^ 2) * mathSqrt (x2 ^ 2 + y2 ^ 2))
      = .finite ((x1 * x2 + y1 * y2) / (mathSqrt (x1 ^ 2 + y1 ^ 2) * mathSqrt (x2 ^ 2 + y2 ^ 2)))
    ∧ -1 ≤ (x1 * x2 + y1 * y2) / (mathSqrt (x1 ^ 2 + y1 ^ 2) * mathSqrt (x2 ^ 2 + y2 ^ 2))
    ∧ (x1 * x2 + y1 * y2) / (mathSqrt (x1 ^ 2 + y1 ^ 2) * mathSqrt (x2 ^ 2 + y2 ^ 2)) ≤ 1 := by
  have hm := mul_pos (magnitude_pos x1 y1 h1) (magnitude_pos x2 y2 h2)
  have habs := abs_le.mp (abs_dot_le_magnitudes x1 y1 x2 y2)
  refine ⟨?_, ?_, ?_⟩
  · unfold jsDivide
    rw [if_neg hm.ne']
  · rw [le_div_iff₀ hm]
    linarith [habs.1]
  · rw [div_le_one hm]
    exact habs.2

/-- C14: for two non-zero vectors the argument passed to `Math.acos` lies in `[-1, 1]`, and the
result `t` of `getAngleBetweenVectors` lies in `[0, π]` and satisfies
`cos t * |(x1, y1)| * |(x2, y2)| = x1 * x2 + y1 * y2`. -/
theorem getAngleBetweenVectors_nonzero (x1 y1 x2 y2 : ℝ) (h1 : ¬ (x1 = 0 ∧ y1 = 0))
    (h2 : ¬ (x2 = 0 ∧ y2 = 0)) :
    ∃ c t : ℝ,
      jsDivide (x1 * x2 + y1 * y2) (mathSqrt (x1 ^ 2 + y1 ^ 2) * mathSqrt (x2 ^ 2 + y2 ^ 2))
        = .finite c ∧ -1 ≤ c ∧ c ≤ 1 ∧
      getAngleBetweenVectors x1 y1 x2 y2 = .finite t ∧ 0 ≤ t ∧ t ≤ Real.pi ∧
      Real.cos t * mathSqrt (x1 ^ 2 + y1 ^ 2) * mathSqrt (x2 ^ 2 + y2 ^ 2)
        = x1 * x2 + y1 * y2 := by
  obtain ⟨hdiv, hlo, hhi⟩ := cosine_of_nonzero x1 y1 x2 y2 h1 h2
  have hm := mul_pos (magnitude_pos x1 y1 h1) (magnitude_pos x2 y2 h2)
  refine ⟨(x1 * x2 + y1 * y2) / (mathSqrt (x1 ^ 2 + y1 ^ 2) * mathSqrt (x2 ^ 2 + y2 ^ 2)),
    Real.arccos ((x1 * x2 + y1 * y2) / (mathSqrt (x1 ^ 2 + y1 ^ 2) * mathSqrt (x2 ^ 2 + y2 ^ 2))),
    hdiv, hlo, hhi, ?_, Real.arccos_nonneg _, Real.arccos_le_pi _, ?_⟩
  · unfold getAngleBetweenVectors
    simp only [hdiv, mathAcos, hlo, hhi, and_self, if_true]
  · rw [Real.cos_arccos hlo hhi, mul_assoc, div_mul_cancel₀ _ hm.ne']

/-- C14 at the vectors `(1, 0)` and `(0, 1)`. -/
theorem getAngleBetweenVectors_nonzero_witness :
    ∃ c t : ℝ,
      jsDivide (1 * 0 + 0 * 1) (mathSqrt (1 ^ 2 + 0 ^ 2) * mathSqrt (0 ^ 2 + 1 ^ 2))
        = .finite c ∧ -1 ≤ c ∧ c ≤ 1 ∧
      getAngleBetweenVectors 1 0 0 1 = .finite t ∧ 0 ≤ t ∧ t ≤ Real.pi ∧
      Real.cos t * mathSqrt (1 ^ 2 + 0 ^ 2) * mathSqrt (0 ^ 2 + 1 ^ 2) = 1 * 0 + 0 * 1 :=
  getAngleBetweenVectors_nonzero 1 0 0 1 (by norm_num) (by norm_num)

theorem getAngleBetweenVectors_zero (x1 y1 x2 y2 : ℝ)
    (h : (x1 = 0 ∧ y1 = 0) ∨ (x2 = 0 ∧ y2 = 0)) :
    getAngleBetweenVectors x1 y1 x2 y2 = .nan := by
  have hdot : x1 * x2 + y1 * y2 = 0 := by
    rcases h with ⟨hx, hy⟩ | ⟨hx, hy⟩ <;> rw [hx, hy] <;> ring
  have hmag : mathSqrt (x1 ^ 2 + y1 ^ 2) * mathSqrt (x2 ^ 2 + y2 ^ 2) = 0 := by
    unfold mathSqrt
    rcases h with ⟨hx, hy⟩ | ⟨hx, hy⟩ <;> rw [hx, hy] <;> simp
  unfold getAngleBetweenVectors
  simp only [hdot, hmag, jsDivide, if_true, mathAcos]

/-- Over exact reals: when `(x1, y1)` or `(x2, y2)` is the zero vector the normalising division is
`0 / 0` and `getAngleBetweenVectors` returns `NaN`; for two non-zero vectors it does not return
`NaN`. -/
theorem getAngleBetweenVectors_exact_nan_iff (x1 y1 x2 y2 : ℝ) :
    ((x1 = 0 ∧ y1 = 0) ∨ (x2 = 0 ∧ y2 = 0) →
      jsDivide (x1 * x2 + y1 * y2) (mathSqrt (x1 ^ 2 + y1 ^ 2) * mathSqrt (x2 ^ 2 + y2 ^ 2))
        = .nan ∧ getAngleBetweenVectors x1 y1 x2 y2 = .nan) ∧
    (¬ (x1 = 0 ∧ y1 = 0) → ¬ (x2 = 0 ∧ y2 = 0) →
      getAngleBetweenVectors x1 y1 x2 y2 ≠ .nan) := by
  constructor
  · intro h
    refine ⟨?_, getAngleBetweenVectors_zero x1 y1 x2 y2 h⟩
    have hdot : x1 * x2 + y1 * y2 = 0 := by
      rcases h with ⟨hx, hy⟩ | ⟨hx, hy⟩ <;> rw [hx, hy] <;> ring
    have hmag : mathSqrt (x1 ^ 2 + y1 ^ 2) * mathSqrt (x2 ^ 2 + y2 ^ 2) = 0 := by
      unfold mathSqrt
      rcases h with ⟨hx, hy⟩ | ⟨hx, hy⟩ <;> rw [hx, hy] <;> simp
    simp only [hdot, hmag, jsDivide, if_true]
  · intro h1 h2
    obtain ⟨hdiv, hlo, hhi⟩ := cosine_of_nonzero x1 y1 x2 y2 h1 h2
    unfold getAngleBetweenVectors
    simp only [hdiv, mathAcos, hlo, hhi, and_self, if_true]
    intro hcon
    cases hcon

/-- Over exact reals, at the zero vector with `(1, 1)`, and at the non-zero vectors `(1, 0)` and
`(0, 1)`. -/
theorem getAngleBetweenVectors_exact_nan_iff_witness :
    getAngleBetweenVectors 0 0 1 1 = .nan ∧ getAngleBetweenVectors 1 0 0 1 ≠ .nan :=
  ⟨((getAngleBetweenVectors_exact_nan_iff 0 0 1 1).1 (Or.inl ⟨rfl, rfl⟩)).2,
   (getAngleBetweenVectors_exact_nan_iff 1 0 0 1).2 (by norm_num) (by norm_num)⟩

theorem getAngleBetweenVectors_example_value :
    getAngleBetweenVectors 0 1 1 2 = .finite (Real.arccos (2 / Real.sqrt 5)) := by
  obtain ⟨hdiv, hlo, hhi⟩ := cosine_of_nonzero 0 1 1 2 (by norm_num) (by norm_num)
  have e1 : mathSqrt ((0 : ℝ) ^ 2 + 1 ^ 2) = 1 := by
    unfold mathSqrt
    norm_num
  have e2 : mathSqrt ((1 : ℝ) ^ 2 + 2 ^ 2) = Real.sqrt 5 := by
    unfold mathSqrt
    norm_num
  have e3 : ((0 : ℝ) * 1 + 1 * 2) = 2 := by norm_num
  rw [e1, e2, e3, one_mul] at hdiv hlo hhi
  show mathAcos (jsDivide (0 * 1 + 1 * 2)
    (mathSqrt ((0 : ℝ) ^ 2 + 1 ^ 2) * mathSqrt ((1 : ℝ) ^ 2 + 2 ^ 2))) = _
  rw [e3, e1, e2, one_mul, hdiv]
  simp only [mathAcos, hlo, hhi, and_self, if_true]

theorem two_div_sqrt_five_lt_one : 2 / Real.sqrt 5 < 1 := by
  have h5 : (2 : ℝ) < Real.sqrt 5 := by
    rw [Real.lt_sqrt (by norm_num)]
    norm_num
  rw [div_lt_one (by linarith)]
  exact h5

/-- C16, as stated, fails: `getAngleBetweenVectors(0, 1, 1, 2)` is not 0. -/
theorem getAngleBetweenVectors_example_ne_zero :
    getAngleBetweenVectors 0 1 1 2 ≠ .finite 0 := by
  rw [getAngleBetweenVectors_example_value]
  intro h
  have h0 : Real.arccos (2 / Real.sqrt 5) = 0 := by
    injection h
  have := Real.arccos_pos.mpr two_div_sqrt_five_lt_one
  linarith

/-- C16, amended: `getAngleBetweenVectors(0, 1, 1, 2)` is `arccos(2 / √5)`, the angle between
`(0, 1)` and `(1, 2)`: it is positive, below `π / 2`, and its cosine is `2 / √5`. -/
theorem getAngleBetweenVectors_example :
    getAngleBetweenVectors 0 1 1 2 = .finite (Real.arccos (2 / Real.sqrt 5)) ∧
    0 < Real.arccos (2 / Real.sqrt 5) ∧
    Real.arccos (2 / Real.sqrt 5) < Real.pi / 2 ∧
    Real.cos (Real.arccos (2 / Real.sqrt 5)) = 2 / Real.sqrt 5 := by
  have hpos : (0 : ℝ) < 2 / Real.sqrt 5 := by positivity
  refine ⟨getAngleBetweenVectors_example_value, Real.arccos_pos.mpr two_div_sqrt_five_lt_one,
    Real.arccos_lt_pi_div_two.mpr hpos, ?_⟩
  exact Real.cos_arccos (by linarith) two_div_sqrt_five_lt_one.le

/-! ### The angle on doubles -/

theorem log_four_eq (x : ℚ) (e : ℤ) (hx : 0 < x) (h1 : 4 ^ e ≤ x) (h2 : x < 4 ^ (e + 1)) :
    Int.log 4 x = e := by
  have ha : e ≤ Int.log 4 x := by
    rw [← Int.zpow_le_iff_le_log (by norm_num) hx]
    exact_mod_cast h1
  have hb : Int.log 4 x < e + 1 := by
    rw [← Int.lt_zpow_iff_log_lt (by norm_num) hx]
    exact_mod_cast h2
  omega

/-- `Math.sqrt(13)` is the double `8118979690322419 / 2 ^ 51` (`3.605551275463989`). -/
theorem mathSqrtDouble_thirteen : mathSqrtDouble 13 = 8118979690322419 / 2 ^ 51 := by
  have hlog : Int.log 4 (13 : ℚ) = 1 := log_four_eq 13 1 (by norm_num) (by norm_num) (by norm_num)
  have hy : (13 : ℚ) / (2 ^ ((1 : ℤ) - 52) * 2 ^ ((1 : ℤ) - 52)) = ((13 * 2 ^ 102 : ℕ) : ℚ) := by
    norm_num
  have hs : Nat.sqrt (13 * 2 ^ 102) = 8118979690322419 := by
    symm
    rw [Nat.eq_sqrt]
    norm_num
  unfold mathSqrtDouble
  rw [if_neg (by norm_num)]
  simp only [hlog, hy, Nat.floor_natCast, hs]
  rw [if_pos (by norm_num)]
  norm_num

theorem roundToDouble_zero : roundToDouble 0 = 0 := by
  simp [roundToDouble]

/-- On doubles a zero vector gives `NaN`: the dot product and the product of the magnitudes are
both 0, and `0 / 0` is `NaN`. -/
theorem getAngleBetweenVectorsIsNaN_of_zero (x1 y1 x2 y2 : ℚ)
    (h : (x1 = 0 ∧ y1 = 0) ∨ (x2 = 0 ∧ y2 = 0)) :
    angleCosineDouble x1 y1 x2 y2 = .nan ∧ getAngleBetweenVectorsIsNaN x1 y1 x2 y2 = true := by
  have hs : mathSqrtDouble 0 = 0 := by simp [mathSqrtDouble]
  have hcos : angleCosineDouble x1 y1 x2 y2 = .nan := by
    unfold angleCosineDouble
    rcases h with ⟨hx, hy⟩ | ⟨hx, hy⟩ <;>
      simp [hx, hy, roundToDouble_zero, hs, jsDivideDouble]
  refine ⟨hcos, ?_⟩
  unfold getAngleBetweenVectorsIsNaN
  rw [hcos]
  rfl

/-- C15 fails on doubles at the non-zero vectors `(2, 3)` and `(2, 3)`: `Math.sqrt(13)` squared
is rounded to `12.999999999999998`, the quotient `13 / 12.999999999999998` is rounded to
`1 + 2 ^ (-52)`, which is above 1, and `Math.acos` of it is `NaN`. -/
theorem getAngleBetweenVectors_nan_at_two_three :
    ¬ ((2 : ℚ) = 0 ∧ (3 : ℚ) = 0) ∧
    angleCosineDouble 2 3 2 3 = .num (1 + 1 / 2 ^ 52) ∧
    getAngleBetweenVectorsIsNaN 2 3 2 3 = true := by
  have h4 : roundToDouble 4 = 4 := by
    have := roundToDouble_intCast 4 (by norm_num)
    simpa using this
  have h9 : roundToDouble 9 = 9 := by
    have := roundToDouble_intCast 9 (by norm_num)
    simpa using this
  have h13 : roundToDouble 13 = 13 := by
    have := roundToDouble_intCast 13 (by norm_num)
    simpa using this
  have hprod : roundToDouble (8118979690322419 / 2 ^ 51 * (8118979690322419 / 2 ^ 51))
      = 7318349394477055 / 2 ^ 49 := by
    rw [roundToDouble_of_near _ 3 7318349394477055 (by norm_num [abs_of_pos])
      (by norm_num [abs_of_pos]) (by norm_num) (by norm_num [abs_lt])]
    norm_num
  have hquot : roundToDouble (13 / (7318349394477055 / 2 ^ 49)) = 1 + 1 / 2 ^ 52 := by
    rw [roundToDouble_of_near _ 0 4503599627370497 (by norm_num [abs_of_pos])
      (by norm_num [abs_of_pos]) (by norm_num) (by norm_num [abs_lt])]
    norm_num
  have hcos : angleCosineDouble 2 3 2 3 = .num (1 + 1 / 2 ^ 52) := by
    unfold angleCosineDouble
    have e1 : (2 : ℚ) * 2 = 4 := by norm_num
    have e2 : (3 : ℚ) * 3 = 9 := by norm_num
    have e3 : (2 : ℚ) ^ 2 = 4 := by norm_num
    have e4 : (3 : ℚ) ^ 2 = 9 := by norm_num
    have e5 : (4 : ℚ) + 9 = 13 := by norm_num
    simp only [e1, e2, e3, e4, h4, h9, e5, h13, mathSqrtDouble_thirteen, hprod]
    unfold jsDivideDouble
    rw [if_neg (by norm_num), toNumberValue_of_lt _ (by rw [hquot]; norm_num [abs_of_pos]), hquot]
  refine ⟨by norm_num, hcos, ?_⟩
  unfold getAngleBetweenVectorsIsNaN
  rw [hcos]
  unfold mathAcosIsNaN
  rw [decide_eq_true_iff]
  right
  norm_num

/-! ### Termination of `isPrime` -/

theorem checkedRemainder_of_ne_zero (n d : ℤ) (h : d ≠ 0) :
    checkedRemainder n d = .ok (n.tmod d) := by
  unfold checkedRemainder
  rw [if_neg h]

/-- With a budget above `n - i`, the instrumented loop started at `i ≥ 1` ends with the value of
`isPrimeLoop`, and no remainder is taken by zero. -/
theorem isPrimeLoopRun_eq (n : ℤ) : ∀ (fuel i : ℕ), 1 ≤ i → n.toNat + 1 - i < fuel →
    isPrimeLoopRun fuel n i = .ok (isPrimeLoop n i) := by
  intro fuel
  induction fuel with
  | zero => intro i _ h; omega
  | succ f ih =>
    intro i hi hfuel
    rw [isPrimeLoopRun, isPrimeLoop]
    by_cases hle : (i : ℤ) * i ≤ n
    · have h1 : (i : ℤ) ≤ i * i := by nlinarith [Int.natCast_nonneg i]
      have hi0 : (i : ℤ) ≠ 0 := by omega
      have hi2 : (i : ℤ) + 2 ≠ 0 := by omega
      simp only [hle, if_true, checkedRemainder_of_ne_zero _ _ hi0,
        checkedRemainder_of_ne_zero _ _ hi2]
      by_cases hr1 : n.tmod i = 0
      · simp [hr1]
      · by_cases hr2 : n.tmod (i + 2) = 0
        · simp [hr1, hr2]
        · simp only [hr1, hr2, if_false, or_self]
          exact ih (i + 6) (by omega) (by omega)
    · simp only [hle, if_false]

/-- C18: `isPrime` is total. For every integer `n` there is a step budget from which on the
instrumented run (the loop `i = 5, 11, ...` guarded by `i * i ≤ n`, every `%` checked for a
zero divisor) ends with the boolean `isPrime n`: the loop terminates and no remainder is taken
by zero. The budget `n + 1` is enough. -/
theorem isPrime_total (n : ℤ) :
    ∃ fuel : ℕ, ∀ k : ℕ, fuel ≤ k → isPrimeRun k n = .ok (isPrime n) := by
  refine ⟨n.toNat + 1, fun k hk => ?_⟩
  unfold isPrimeRun isPrime
  by_cases h23 : n = 2 ∨ n = 3
  · simp only [h23, if_true]
  · simp only [h23, if_false]
    by_cases h1 : n ≤ 1
    · simp only [h1, true_or, if_true]
    · simp only [h1, false_or, if_false, checkedRemainder_of_ne_zero n 2 (by norm_num),
        checkedRemainder_of_ne_zero n 3 (by norm_num)]
      by_cases hr2 : n.tmod 2 = 0
      · simp [hr2]
      · by_cases hr3 : n.tmod 3 = 0
        · simp [hr2, hr3]
        · simp only [hr2, hr3, if_false, or_self]
          exact isPrimeLoopRun_eq n k 5 (by norm_num) (by omega)

/-! ### `parseNumberFromString` on decimal literals -/

theorem digitsValue_eq_ofDigits (l : List Char) :
    digitsValue l = Nat.ofDigits 10 (l.reverse.map (fun c => c.toNat - 48)) := by
  induction l using List.reverseRecOn with
  | nil => rfl
  | append_singleton l c ih =>
    rw [digitsValue_concat, ih, List.reverse_append, List.reverse_singleton,
      List.singleton_append, List.map_cons, Nat.ofDigits_cons]
    ring

theorem trimStart_eq_self (l : List Char) (h : ∀ c ∈ l, isStrWhiteSpaceChar c = false) :
    trimStart l = l := by
  cases l with
  | nil => rfl
  | cons c r => exact trimStart_cons_of_not_whiteSpace c r (h c (List.mem_cons_self _ _))

theorem trimEnd_eq_self (l : List Char) (h : ∀ c ∈ l, isStrWhiteSpaceChar c = false) :
    trimEnd l = l := by
  induction l using List.reverseRecOn with
  | nil => rfl
  | append_singleton l c _ =>
    exact trimEnd_concat_of_not_whiteSpace l c (h c (by simp))

theorem stringToNumber_digit_start (d : Char) (r : List Char) (hd : d.isDigit = true)
    (hr : ∀ c r', r = c :: r' → c.isDigit = true ∨ c = '.' ∨ c = 'e' ∨ c = 'E')
    (htrim : trimEnd (d :: r) = d :: r) :
    stringToNumber (d :: r) = parseUnsignedDecimal (d :: r) := by
  have hs := isDigit_ne_sign d hd
  unfold stringToNumber
  rw [trimStart_cons_of_not_whiteSpace _ _ (not_whiteSpace_of_isDigit d hd)]
  simp only [htrim]
  split
  · rename_i h; cases h
  all_goals first
    | rfl
    | (rename_i h
       injection h with h1 h2
       first
         | exact absurd h1 hs.1
         | exact absurd h1 hs.2
         | (rcases hr _ _ h2 with hc | hc | hc | hc <;> exact absurd hc (by decide)))

/-- The value `parseUnsignedDecimal` reads from digits with an optional fraction. -/
theorem parseUnsignedDecimal_fraction (ip : List Char) (fraction : Option (List Char))
    (hip : ip ≠ []) (hipd : ∀ c ∈ ip, c.isDigit = true)
    (hfd : ∀ fp, fraction = some fp → ∀ c ∈ fp, c.isDigit = true) :
    parseUnsignedDecimal (ip ++ fractionText fraction)
      = toNumberValue (decimalLiteralValue false ip fraction) := by
  obtain ⟨d, ip', rfl⟩ := List.exists_cons_of_ne_nil hip
  have hd : d.isDigit = true := hipd d (List.mem_cons_self _ _)
  have hinf : ∀ r, d :: r ≠ "Infinity".toList := by
    intro r h
    have : d = 'I' := by injection h
    rw [this] at hd
    exact absurd hd (by decide)
  cases fraction with
  | none =>
    have htake := takeWhile_isDigit_append (d :: ip') [] hipd (by intro c r h; cases h)
    have hdrop := dropWhile_isDigit_append (d :: ip') [] hipd (by intro c r h; cases h)
    unfold parseUnsignedDecimal
    simp only [fractionText, List.append_nil] at htake hdrop ⊢
    rw [if_neg (hinf _)]
    simp only [htake, hdrop, fractionDigits, afterFraction, parseExponentPart, decimalLiteralValue,
      Option.getD_none, List.append_nil, digitsValue_eq_ofDigits]
    apply congrArg toNumberValue
    simp
  | some fp =>
    have hfp := hfd fp rfl
    have hdot : ∀ c r, ('.' :: fp) = c :: r → c.isDigit = false := by
      intro c r h
      injection h with h1 _
      rw [← h1]
      decide
    have htake := takeWhile_isDigit_append (d :: ip') ('.' :: fp) hipd hdot
    have hdrop := dropWhile_isDigit_append (d :: ip') ('.' :: fp) hipd hdot
    have htake2 := takeWhile_isDigit_append fp [] hfp (by intro c r h; cases h)
    have hdrop2 := dropWhile_isDigit_append fp [] hfp (by intro c r h; cases h)
    rw [List.append_nil] at htake2 hdrop2
    unfold parseUnsignedDecimal
    simp only [fractionText] at htake hdrop ⊢
    rw [if_neg (by rw [List.cons_append]; exact hinf _)]
    simp only [htake, hdrop, fractionDigits, afterFraction, htake2, hdrop2, parseExponentPart,
      decimalLiteralValue, Option.getD_some]
    rw [← digitsValue_eq_ofDigits, digitsValue_append]
    have h10 : (10 : ℚ) ^ fp.length ≠ 0 := by positivity
    apply congrArg toNumberValue
    push_cast
    field_simp

theorem not_whiteSpace_of_mem_literal (negative : Bool) (ip : List Char)
    (fraction : Option (List Char)) (hipd : ∀ c ∈ ip, c.isDigit = true)
    (hfd : ∀ fp, fraction = some fp → ∀ c ∈ fp, c.isDigit = true) :
    ∀ c ∈ (decimalLiteral negative ip fraction).toList, isStrWhiteSpaceChar c = false := by
  intro c hc
  simp only [decimalLiteral, String.toList, List.mem_append, fractionText] at hc
  rcases hc with (hc | hc) | hc
  · cases negative
    · simp at hc
    · simp only [if_true, List.mem_singleton] at hc
      rw [hc]
      decide
  · exact not_whiteSpace_of_isDigit c (hipd c hc)
  · cases fraction with
    | none => simp at hc
    | some fp =>
      simp only [List.mem_cons] at hc
      rcases hc with hc | hc
      · rw [hc]
        decide
      · exact not_whiteSpace_of_isDigit c (hfd fp rfl c hc)

/-- The decimal string of an integer is read as the Number value of the integer. -/
theorem parseNumberFromString_decimalString (n : ℤ) :
    parseNumberFromString (decimalString n) = toNumberValue (n : ℚ) := by
  unfold parseNumberFromString decimalString
  show stringToNumber ((if n < 0 then ['-'] else []) ++ Nat.toDigits 10 n.natAbs) = _
  by_cases hn : n < 0
  · simp only [hn, if_true, List.singleton_append]
    rw [stringToNumber_neg_toDigits]
    have hq : (n : ℚ) = -((n.natAbs : ℕ) : ℚ) := by
      have : n = -(n.natAbs : ℤ) := by omega
      conv_lhs => rw [this]
      rw [Int.cast_neg, Int.cast_natCast]
    rw [hq]
  · simp only [hn, if_false, List.nil_append]
    rw [stringToNumber_toDigits]
    have hq : (n : ℚ) = ((n.natAbs : ℕ) : ℚ) := by
      have : n = (n.natAbs : ℤ) := by omega
      conv_lhs => rw [this]
      rw [Int.cast_natCast]
    rw [hq]

/-- A decimal literal is read as the Number value of the number it denotes. -/
theorem parseNumberFromString_literal_value (negative : Bool) (ip : List Char)
    (fraction : Option (List Char)) (hip : ip ≠ []) (hipd : ∀ c ∈ ip, c.isDigit = true)
    (hfd : ∀ fp, fraction = some fp → ∀ c ∈ fp, c.isDigit = true) :
    parseNumberFromString (decimalLiteral negative ip fraction)
      = toNumberValue (decimalLiteralValue negative ip fraction) := by
  have hws := not_whiteSpace_of_mem_literal negative ip fraction hipd hfd
  have hval := parseUnsignedDecimal_fraction ip fraction hip hipd hfd
  obtain ⟨d, ip', rfl⟩ := List.exists_cons_of_ne_nil hip
  have hd : d.isDigit = true := hipd d (List.mem_cons_self _ _)
  unfold parseNumberFromString
  cases negative with
  | true =>
    have hlit : (decimalLiteral true (d :: ip') fraction).toList
        = '-' :: ((d :: ip') ++ fractionText fraction) := by
      simp [decimalLiteral, String.toList]
    rw [hlit] at hws ⊢
    rw [stringToNumber_minus_head _ (trimEnd_eq_self _ hws), hval, ← toNumberValue_neg]
    simp only [decimalLiteralValue]
    congr 1
    simp only [Bool.false_eq_true, if_false, if_true]
    ring
  | false =>
    have hlit : (decimalLiteral false (d :: ip') fraction).toList
        = d :: (ip' ++ fractionText fraction) := by
      simp [decimalLiteral, String.toList]
    rw [hlit] at hws ⊢
    rw [stringToNumber_digit_start d _ hd ?_ (trimEnd_eq_self _ hws)]
    · exact hval
    · intro c r' hr
      cases ip' with
      | cons e ip'' =>
        simp only [List.cons_append, List.cons.injEq] at hr
        left
        rw [← hr.1]
        exact hipd e (by simp)
      | nil =>
        cases fraction with
        | none => simp [fractionText] at hr
        | some fp =>
          simp only [fractionText, List.nil_append, List.cons.injEq] at hr
          right; left
          exact hr.1.symm

/-- C11, as stated, fails at `n = 2 ^ 53 + 1`: unary `+` returns the double nearest to the number
the literal denotes, so `'9007199254740993'` is read as `9007199254740992`. -/
theorem parseNumberFromString_not_above_two_pow_53 :
    decimalString 9007199254740993 = "9007199254740993" ∧
    parseNumberFromString "9007199254740993" = .num 9007199254740992 ∧
    parseNumberFromString "9007199254740993" ≠ .num ((9007199254740993 : ℤ) : ℚ) := by
  have hs : decimalString 9007199254740993 = "9007199254740993" := by decide
  have h : parseNumberFromString "9007199254740993" = .num 9007199254740992 := by
    rw [← hs, parseNumberFromString_decimalString]
    have : ((9007199254740993 : ℤ) : ℚ) = 9007199254740993 := by norm_num
    rw [this, toNumberValue_two_pow_53_add_one]
  refine ⟨hs, h, ?_⟩
  rw [h]
  intro hcon
  injection hcon with hcon
  norm_num at hcon

/-- C11, amended: for every signed integer or decimal literal (an optional `-`, one or more
digits, optionally a `.` followed by digits) `parseNumberFromString` returns the Number value of
the number the literal denotes, which is the double nearest to it; it is that number itself when
the number is a double, and in particular the decimal string of every integer `n` with
`|n| ≤ 2 ^ 53` is read back as `n`. -/
theorem parseNumberFromString_decimalLiteral (negative : Bool) (ip : List Char)
    (fraction : Option (List Char)) (hip : ip ≠ []) (hipd : ∀ c ∈ ip, c.isDigit = true)
    (hfd : ∀ fp, fraction = some fp → ∀ c ∈ fp, c.isDigit = true) :
    parseNumberFromString (decimalLiteral negative ip fraction)
      = toNumberValue (decimalLiteralValue negative ip fraction) ∧
    (IsDouble (decimalLiteralValue negative ip fraction) →
      parseNumberFromString (decimalLiteral negative ip fraction)
        = .num (decimalLiteralValue negative ip fraction)) ∧
    ∀ n : ℤ, |n| ≤ 2 ^ 53 → parseNumberFromString (decimalString n) = .num (n : ℚ) := by
  have h := parseNumberFromString_literal_value negative ip fraction hip hipd hfd
  refine ⟨h, ?_, ?_⟩
  · intro hd
    rw [h, toNumberValue_of_isDouble _ hd]
  · intro n hn
    rw [parseNumberFromString_decimalString, toNumberValue_intCast n hn]

/-- The amended C11 at the literal `-525.5`, which denotes the double `-5255 / 10`. -/
theorem parseNumberFromString_decimalLiteral_witness :
    (parseNumberFromString (decimalLiteral true "525".toList (some "5".toList))
      = toNumberValue (decimalLiteralValue true "525".toList (some "5".toList)) ∧
    (IsDouble (decimalLiteralValue true "525".toList (some "5".toList)) →
      parseNumberFromString (decimalLiteral true "525".toList (some "5".toList))
        = .num (decimalLiteralValue true "525".toList (some "5".toList))) ∧
      ∀ n : ℤ, |n| ≤ 2 ^ 53 → parseNumberFromString (decimalString n) = .num (n : ℚ)) ∧
    decimalLiteral true "525".toList (some "5".toList) = "-525.5" ∧
    decimalLiteralValue true "525".toList (some "5".toList) = -5255 / 10 ∧
    IsDouble (-5255 / 10) :=
  ⟨parseNumberFromString_decimalLiteral true "525".toList (some "5".toList) (by decide)
    (by decide) (by
      intro fp h
      injection h with h
      subst h
      decide),
   by decide, by
    have h : Nat.ofDigits 10 (("525".toList ++ "5".toList).reverse.map (fun c => c.toNat - 48))
        = 5255 := by decide
    simp only [decimalLiteralValue, Option.getD_some, h]
    norm_num,
   ⟨-1051, -1, by norm_num, by norm_num, by norm_num, by norm_num⟩⟩

/-! ### What `stringToNumber` accepts is a numeric literal -/

theorem radixDigitValue_lt_sixteen (c : Char) (h : radixDigitValue c < 16) : IsHexDigit c := by
  unfold radixDigitValue at h
  unfold IsHexDigit
  by_cases hd : c.isDigit = true
  · left; exact (isDigit_iff c).mp hd
  · simp only [hd, Bool.false_eq_true, if_false] at h
    by_cases ha : 'a'.toNat ≤ c.toNat ∧ c.toNat ≤ 'f'.toNat
    · right; left; exact ha
    · simp only [ha, if_false] at h
      by_cases hA : 'A'.toNat ≤ c.toNat ∧ c.toNat ≤ 'F'.toNat
      · right; right; exact hA
      · simp only [hA, if_false] at h
        omega

theorem radixDigitValue_lt_eight (c : Char) (h : radixDigitValue c < 8) : IsOctalDigit c := by
  unfold radixDigitValue at h
  unfold IsOctalDigit
  by_cases hd : c.isDigit = true
  · have hr := (isDigit_iff c).mp hd
    simp only [hd, if_true] at h
    omega
  · simp only [hd, Bool.false_eq_true, if_false] at h
    have ea : 'a'.toNat = 97 := rfl
    have ef : 'f'.toNat = 102 := rfl
    have eA : 'A'.toNat = 65 := rfl
    have eF : 'F'.toNat = 70 := rfl
    rw [ea, ef, eA, eF] at h
    split at h
    · omega
    · split at h <;> omega

theorem radixDigitValue_lt_two (c : Char) (h : radixDigitValue c < 2) : IsBinaryDigit c := by
  unfold radixDigitValue at h
  unfold IsBinaryDigit
  by_cases hd : c.isDigit = true
  · have hr := (isDigit_iff c).mp hd
    simp only [hd, if_true] at h
    have hc : c.toNat = 48 ∨ c.toNat = 49 := by omega
    rcases hc with hc | hc
    · left
      apply Char.ext
      apply UInt32.ext
      exact hc
    · right
      apply Char.ext
      apply UInt32.ext
      exact hc
  · simp only [hd, Bool.false_eq_true, if_false] at h
    have ea : 'a'.toNat = 97 := rfl
    have ef : 'f'.toNat = 102 := rfl
    have eA : 'A'.toNat = 65 := rfl
    have eF : 'F'.toNat = 70 := rfl
    rw [ea, ef, eA, eF] at h
    split at h
    · omega
    · split at h <;> omega

theorem literal_of_parseRadixDigits (radix : ℕ) (ds : List Char)
    (h : parseRadixDigits radix ds ≠ .nan) :
    ds ≠ [] ∧ ∀ c ∈ ds, radixDigitValue c < radix := by
  unfold parseRadixDigits at h
  split at h
  · rename_i hc
    refine ⟨hc.1, fun c hcm => ?_⟩
    have := List.all_eq_true.mp hc.2 c hcm
    simpa using this
  · exact absurd rfl h

theorem optionalExponent_of_parse (ex : List Char) (e : ℤ) (h : parseExponentPart ex = some e) :
    IsOptionalExponent ex := by
  cases ex with
  | nil => exact Or.inl rfl
  | cons c rest =>
    right
    simp only [parseExponentPart] at h
    by_cases hc : c = 'e' ∨ c = 'E'
    · rw [if_pos hc] at h
      by_cases hds : dropSign rest ≠ [] ∧ (dropSign rest).all Char.isDigit = true
      · obtain ⟨sign, hsign, hdec⟩ := dropSign_decomp rest
        exact ⟨c, sign, dropSign rest, by rw [← hdec], hc, hsign, hds.1,
          fun x hx => List.all_eq_true.mp hds.2 x hx⟩
      · rw [if_neg hds] at h
        cases h
    · rw [if_neg hc] at h
      cases h

theorem fraction_cases (rest : List Char) :
    (∃ r, rest = '.' :: r ∧ fractionDigits rest = r.takeWhile Char.isDigit ∧
      afterFraction rest = r.dropWhile Char.isDigit) ∨
    (fractionDigits rest = [] ∧ afterFraction rest = rest) := by
  unfold fractionDigits afterFraction
  split
  · left; exact ⟨_, rfl, rfl, rfl⟩
  · exact Or.inr ⟨rfl, rfl⟩

theorem unsignedLiteral_of_parse (u : List Char) (h : parseUnsignedDecimal u ≠ .nan) :
    IsStrUnsignedDecimalLiteral u := by
  unfold parseUnsignedDecimal at h
  by_cases hinf : u = "Infinity".toList
  · exact Or.inl hinf
  · right
    rw [if_neg hinf] at h
    simp only at h
    have hsplit := List.takeWhile_append_dropWhile Char.isDigit u
    have hipd : ∀ c ∈ u.takeWhile Char.isDigit, c.isDigit = true :=
      fun c hc => List.mem_takeWhile_imp hc
    split at h
    · exact absurd rfl h
    · rename_i hne
      split at h
      · exact absurd rfl h
      · rename_i e he
        rcases fraction_cases (u.dropWhile Char.isDigit) with ⟨r, hr, hf, ha⟩ | ⟨hf, ha⟩
        · rw [ha] at he
          have hex := optionalExponent_of_parse _ e he
          have hr2 := List.takeWhile_append_dropWhile Char.isDigit r
          have hfpd : ∀ c ∈ r.takeWhile Char.isDigit, c.isDigit = true :=
            fun c hc => List.mem_takeWhile_imp hc
          by_cases hip : u.takeWhile Char.isDigit = []
          · right; left
            refine ⟨r.takeWhile Char.isDigit, r.dropWhile Char.isDigit, ⟨?_, hfpd⟩, hex, ?_⟩
            · intro hfp
              exact hne ⟨hip, by rw [hf]; exact hfp⟩
            · rw [hr2, ← hr]
              conv_lhs => rw [← hsplit, hip]
              rfl
          · left
            refine ⟨u.takeWhile Char.isDigit, r.takeWhile Char.isDigit,
              r.dropWhile Char.isDigit, ⟨hip, hipd⟩, hfpd, hex, ?_⟩
            rw [hr2, ← hr, hsplit]
        · rw [ha] at he
          have hex := optionalExponent_of_parse _ e he
          right; right
          refine ⟨u.takeWhile Char.isDigit, u.dropWhile Char.isDigit, ⟨?_, hipd⟩, hex,
            hsplit.symm⟩
          intro hip
          exact hne ⟨hip, hf⟩

theorem trim_decomp (s : List Char) :
    ∃ ws1 ws2, s = ws1 ++ trimEnd (trimStart s) ++ ws2 ∧
      (∀ c ∈ ws1, isStrWhiteSpaceChar c = true) ∧ (∀ c ∈ ws2, isStrWhiteSpaceChar c = true) := by
  refine ⟨s.takeWhile isStrWhiteSpaceChar,
    ((trimStart s).reverse.takeWhile isStrWhiteSpaceChar).reverse, ?_,
    fun c hc => List.mem_takeWhile_imp hc,
    fun c hc => List.mem_takeWhile_imp (List.mem_reverse.mp hc)⟩
  have h1 := List.takeWhile_append_dropWhile isStrWhiteSpaceChar s
  have h2 := List.takeWhile_append_dropWhile isStrWhiteSpaceChar (trimStart s).reverse
  have h3 : trimStart s = trimEnd (trimStart s)
      ++ ((trimStart s).reverse.takeWhile isStrWhiteSpaceChar).reverse := by
    unfold trimEnd
    rw [← List.reverse_append, h2, List.reverse_reverse]
  rw [List.append_assoc, ← h3]
  exact h1.symm

theorem negateNumber_ne_nan (v : JSValue) (h : negateNumber v ≠ .nan) : v ≠ .nan := by
  intro hv
  rw [hv] at h
  exact h rfl

theorem nonDecimal_of_hex (p : Char) (ds : List Char) (hp : p = 'x' ∨ p = 'X')
    (h : parseRadixDigits 16 ds ≠ .nan) : IsNonDecimalIntegerLiteral ('0' :: p :: ds) := by
  obtain ⟨hne, hall⟩ := literal_of_parseRadixDigits 16 ds h
  exact ⟨p, ds, rfl, hne, Or.inl ⟨hp, fun c hc => radixDigitValue_lt_sixteen c (hall c hc)⟩⟩

theorem nonDecimal_of_octal (p : Char) (ds : List Char) (hp : p = 'o' ∨ p = 'O')
    (h : parseRadixDigits 8 ds ≠ .nan) : IsNonDecimalIntegerLiteral ('0' :: p :: ds) := by
  obtain ⟨hne, hall⟩ := literal_of_parseRadixDigits 8 ds h
  exact ⟨p, ds, rfl, hne,
    Or.inr (Or.inl ⟨hp, fun c hc => radixDigitValue_lt_eight c (hall c hc)⟩)⟩

theorem nonDecimal_of_binary (p : Char) (ds : List Char) (hp : p = 'b' ∨ p = 'B')
    (h : parseRadixDigits 2 ds ≠ .nan) : IsNonDecimalIntegerLiteral ('0' :: p :: ds) := by
  obtain ⟨hne, hall⟩ := literal_of_parseRadixDigits 2 ds h
  exact ⟨p, ds, rfl, hne,
    Or.inr (Or.inr ⟨hp, fun c hc => radixDigitValue_lt_two c (hall c hc)⟩)⟩

/-- A string that `stringToNumber` reads as a number (or an infinity) is a numeric literal. -/
theorem literal_of_stringToNumber (s : List Char) (h : stringToNumber s ≠ .nan) :
    IsStringNumericLiteral s := by
  obtain ⟨ws1, ws2, hs, hw1, hw2⟩ := trim_decomp s
  refine ⟨ws1, trimEnd (trimStart s), ws2, hs, hw1, hw2, ?_⟩
  unfold stringToNumber at h
  simp only at h
  generalize trimEnd (trimStart s) = t at h ⊢
  split at h
  · exact Or.inl rfl
  · exact Or.inr (Or.inr (nonDecimal_of_hex 'x' _ (Or.inl rfl) h))
  · exact Or.inr (Or.inr (nonDecimal_of_hex 'X' _ (Or.inr rfl) h))
  · exact Or.inr (Or.inr (nonDecimal_of_octal 'o' _ (Or.inl rfl) h))
  · exact Or.inr (Or.inr (nonDecimal_of_octal 'O' _ (Or.inr rfl) h))
  · exact Or.inr (Or.inr (nonDecimal_of_binary 'b' _ (Or.inl rfl) h))
  · exact Or.inr (Or.inr (nonDecimal_of_binary 'B' _ (Or.inr rfl) h))
  · exact Or.inr (Or.inl ⟨['+'], _, by simp, unsignedLiteral_of_parse _ h, rfl⟩)
  · exact Or.inr (Or.inl ⟨['-'], _, by simp,
      unsignedLiteral_of_parse _ (negateNumber_ne_nan _ h), rfl⟩)
  · exact Or.inr (Or.inl ⟨[], _, by simp, unsignedLiteral_of_parse _ h, rfl⟩)

/-! ### Every numeric literal is read -/

theorem whiteSpace_toNat (c : Char) (h : isStrWhiteSpaceChar c = true) :
    c.toNat < 48 ∨ 128 ≤ c.toNat := by
  unfold isStrWhiteSpaceChar at h
  simp only [decide_eq_true_eq, List.mem_cons, List.mem_singleton, List.mem_nil_iff,
    or_false] at h
  omega

theorem not_whiteSpace_of_toNat (c : Char) (h : 48 ≤ c.toNat ∧ c.toNat < 128) :
    isStrWhiteSpaceChar c = false := by
  by_contra hc
  have := whiteSpace_toNat c (by simpa using hc)
  omega

theorem not_whiteSpace_of_hexDigit (c : Char) (h : IsHexDigit c) :
    isStrWhiteSpaceChar c = false := by
  apply not_whiteSpace_of_toNat
  unfold IsHexDigit at h
  omega

theorem radixDigitValue_of_hexDigit (c : Char) (h : IsHexDigit c) : radixDigitValue c < 16 := by
  unfold radixDigitValue
  have ea : 'a'.toNat = 97 := rfl
  have ef : 'f'.toNat = 102 := rfl
  have eA : 'A'.toNat = 65 := rfl
  have eF : 'F'.toNat = 70 := rfl
  rw [ea, ef, eA, eF]
  unfold IsHexDigit at h
  by_cases hd : c.isDigit = true
  · have := (isDigit_iff c).mp hd
    simp only [hd, if_true]
    omega
  · have hnd : ¬ (48 ≤ c.toNat ∧ c.toNat ≤ 57) := fun h' => hd ((isDigit_iff c).mpr h')
    simp only [hd, Bool.false_eq_true, if_false]
    split
    · omega
    · split <;> omega

theorem radixDigitValue_of_octalDigit (c : Char) (h : IsOctalDigit c) :
    radixDigitValue c < 8 := by
  unfold IsOctalDigit at h
  have hd : c.isDigit = true := (isDigit_iff c).mpr (by omega)
  unfold radixDigitValue
  simp only [hd, if_true]
  omega

theorem radixDigitValue_of_binaryDigit (c : Char) (h : IsBinaryDigit c) :
    radixDigitValue c < 2 := by
  rcases h with h | h <;> (rw [h]; decide)

theorem parseRadixDigits_ne_nan (radix : ℕ) (ds : List Char) (hne : ds ≠ [])
    (hall : ∀ c ∈ ds, radixDigitValue c < radix) : parseRadixDigits radix ds ≠ .nan := by
  unfold parseRadixDigits
  rw [if_pos ⟨hne, by
    rw [List.all_eq_true]
    intro c hc
    simpa using hall c hc⟩]
  exact toNumberValue_ne_nan _

theorem optionalExponent_head (ex : List Char) (h : IsOptionalExponent ex) :
    ∀ c r, ex = c :: r → c = 'e' ∨ c = 'E' := by
  intro c r hex
  rcases h with h | ⟨ind, sign, ds, h, hind, _, _⟩
  · rw [h] at hex
    cases hex
  · rw [h] at hex
    injection hex with h1 _
    rw [← h1]
    exact hind

theorem optionalExponent_head_not_digit (ex : List Char) (h : IsOptionalExponent ex) :
    ∀ c r, ex = c :: r → c.isDigit = false := by
  intro c r hex
  rcases optionalExponent_head ex h c r hex with hc | hc <;> (rw [hc]; decide)

theorem parseExponentPart_of_optional (ex : List Char) (h : IsOptionalExponent ex) :
    ∃ e, parseExponentPart ex = some e := by
  rcases h with h | ⟨ind, sign, ds, h, hind, hsign, hne, hds⟩
  · exact ⟨0, by rw [h]; rfl⟩
  · obtain ⟨d, ds', rfl⟩ := List.exists_cons_of_ne_nil hne
    have hd : d.isDigit = true := hds d (List.mem_cons_self _ _)
    have hdrop : dropSign (sign ++ d :: ds') = d :: ds' := by
      rcases hsign with rfl | rfl | rfl
      · exact dropSign_cons_digit d ds' hd
      · rfl
      · rfl
    have hall : (d :: ds').all Char.isDigit = true := by
      rw [List.all_eq_true]
      exact hds
    rw [h]
    simp only [parseExponentPart, hind, if_true, hdrop, ne_eq, not_false_eq_true, hall, and_self,
      reduceCtorEq]
    exact ⟨_, rfl⟩

theorem parseUnsignedDecimal_ne_nan (u : List Char) (h : IsStrUnsignedDecimalLiteral u) :
    parseUnsignedDecimal u ≠ .nan := by
  rcases h with h | ⟨ip, fp, ex, ⟨hip, hipd⟩, hfpd, hex, h⟩ | ⟨fp, ex, ⟨hfp, hfpd⟩, hex, h⟩ |
      ⟨ip, ex, ⟨hip, hipd⟩, hex, h⟩
  · rw [h]
    unfold parseUnsignedDecimal
    rw [if_pos rfl]
    intro hcon
    cases hcon
  · have hnd := optionalExponent_head_not_digit ex hex
    have hdot : ∀ c r, ('.' :: (fp ++ ex)) = c :: r → c.isDigit = false := by
      intro c r hcr
      injection hcr with h1 _
      rw [← h1]
      decide
    have hinf : u ≠ "Infinity".toList := by
      obtain ⟨d, ip', rfl⟩ := List.exists_cons_of_ne_nil hip
      intro hu
      rw [h] at hu
      have : d = 'I' := by injection hu
      have hd := hipd d (List.mem_cons_self _ _)
      rw [this] at hd
      exact absurd hd (by decide)
    unfold parseUnsignedDecimal
    rw [if_neg hinf]
    simp only [h, takeWhile_isDigit_append ip _ hipd hdot, dropWhile_isDigit_append ip _ hipd hdot,
      fractionDigits, afterFraction, takeWhile_isDigit_append fp _ hfpd hnd,
      dropWhile_isDigit_append fp _ hfpd hnd]
    obtain ⟨e, he⟩ := parseExponentPart_of_optional ex hex
    split
    · rename_i hc
      exact absurd hc.1 hip
    · rw [he]
      exact toNumberValue_ne_nan _
  · have hnd := optionalExponent_head_not_digit ex hex
    have hinf : u ≠ "Infinity".toList := by
      rw [h]
      intro hu
      injection hu with h1 _
      exact absurd h1 (by decide)
    unfold parseUnsignedDecimal
    rw [if_neg hinf]
    simp only [h, List.takeWhile_cons, List.dropWhile_cons,
      show Char.isDigit '.' = false by decide, Bool.false_eq_true, if_false, fractionDigits,
      afterFraction, takeWhile_isDigit_append fp _ hfpd hnd,
      dropWhile_isDigit_append fp _ hfpd hnd]
    obtain ⟨e, he⟩ := parseExponentPart_of_optional ex hex
    split
    · rename_i hc
      exact absurd hc.2 hfp
    · rw [he]
      exact toNumberValue_ne_nan _
  · have hnd := optionalExponent_head_not_digit ex hex
    have hinf : u ≠ "Infinity".toList := by
      obtain ⟨d, ip', rfl⟩ := List.exists_cons_of_ne_nil hip
      intro hu
      rw [h] at hu
      have : d = 'I' := by injection hu
      have hd := hipd d (List.mem_cons_self _ _)
      rw [this] at hd
      exact absurd hd (by decide)
    have hfrac : fractionDigits ex = [] ∧ afterFraction ex = ex := by
      rcases fraction_cases ex with ⟨r, hr, _, _⟩ | hfa
      · rcases optionalExponent_head ex hex _ _ hr with hc | hc <;> exact absurd hc (by decide)
      · exact hfa
    unfold parseUnsignedDecimal
    rw [if_neg hinf]
    simp only [h, takeWhile_isDigit_append ip _ hipd hnd, dropWhile_isDigit_append ip _ hipd hnd,
      hfrac.1, hfrac.2]
    obtain ⟨e, he⟩ := parseExponentPart_of_optional ex hex
    split
    · rename_i hc
      exact absurd hc.1 hip
    · rw [he]
      exact toNumberValue_ne_nan _

theorem dropWhile_append_of_all (p : Char → Bool) (ws l : List Char)
    (h : ∀ c ∈ ws, p c = true) : (ws ++ l).dropWhile p = l.dropWhile p := by
  induction ws with
  | nil => rfl
  | cons w ws ih =>
    rw [List.cons_append, List.dropWhile_cons, if_pos (h w (List.mem_cons_self _ _))]
    exact ih (fun c hc => h c (List.mem_cons_of_mem _ hc))

/-- Trimming gives back the literal that white space surrounds. -/
theorem trim_of_decomp (ws1 t ws2 : List Char)
    (hw1 : ∀ c ∈ ws1, isStrWhiteSpaceChar c = true)
    (hw2 : ∀ c ∈ ws2, isStrWhiteSpaceChar c = true)
    (ht : ∀ c ∈ t, isStrWhiteSpaceChar c = false) :
    trimEnd (trimStart (ws1 ++ t ++ ws2)) = t := by
  have hstart : trimStart (ws1 ++ t ++ ws2) = trimStart (t ++ ws2) := by
    unfold trimStart
    rw [List.append_assoc, dropWhile_append_of_all _ _ _ hw1]
  rw [hstart]
  cases t with
  | nil =>
    have : trimStart ([] ++ ws2) = [] := by
      unfold trimStart
      rw [List.nil_append, List.dropWhile_eq_nil_iff]
      exact hw2
    rw [this]
    rfl
  | cons c t' =>
    rw [List.cons_append, trimStart_cons_of_not_whiteSpace _ _ (ht c (List.mem_cons_self _ _)),
      ← List.cons_append]
    unfold trimEnd
    rw [List.reverse_append, dropWhile_append_of_all _ _ _
      (fun x hx => hw2 x (List.mem_reverse.mp hx))]
    have := trimStart_eq_self (c :: t').reverse (fun x hx => ht x (List.mem_reverse.mp hx))
    unfold trimStart at this
    rw [this, List.reverse_reverse]

theorem stringToNumber_of_trim (s t : List Char) (hs : trimEnd (trimStart s) = t)
    (ht : trimEnd (trimStart t) = t) : stringToNumber s = stringToNumber t := by
  unfold stringToNumber
  simp only [hs, ht]

theorem not_whiteSpace_of_mem_exponent (ex : List Char) (h : IsOptionalExponent ex) :
    ∀ c ∈ ex, isStrWhiteSpaceChar c = false := by
  intro c hc
  rcases h with h | ⟨ind, sign, ds, h, hind, hsign, _, hds⟩
  · rw [h] at hc
    cases hc
  · rw [h] at hc
    simp only [List.mem_cons, List.mem_append] at hc
    rcases hc with hc | hc | hc
    · rcases hind with hi | hi <;> (rw [hc, hi]; decide)
    · rcases hsign with hs | hs | hs <;> rw [hs] at hc
      · cases hc
      · simp only [List.mem_singleton] at hc
        rw [hc]
        decide
      · simp only [List.mem_singleton] at hc
        rw [hc]
        decide
    · exact not_whiteSpace_of_isDigit c (hds c hc)

theorem not_whiteSpace_of_mem_unsigned (u : List Char) (h : IsStrUnsignedDecimalLiteral u) :
    ∀ c ∈ u, isStrWhiteSpaceChar c = false := by
  intro c hc
  rcases h with h | ⟨ip, fp, ex, ⟨_, hipd⟩, hfpd, hex, h⟩ | ⟨fp, ex, ⟨_, hfpd⟩, hex, h⟩ |
      ⟨ip, ex, ⟨_, hipd⟩, hex, h⟩
  · rw [h] at hc
    revert c
    decide
  · rw [h] at hc
    simp only [List.mem_append, List.mem_cons] at hc
    rcases hc with hc | hc | hc | hc
    · exact not_whiteSpace_of_isDigit c (hipd c hc)
    · rw [hc]
      decide
    · exact not_whiteSpace_of_isDigit c (hfpd c hc)
    · exact not_whiteSpace_of_mem_exponent ex hex c hc
  · rw [h] at hc
    simp only [List.mem_append, List.mem_cons] at hc
    rcases hc with hc | hc | hc
    · rw [hc]
      decide
    · exact not_whiteSpace_of_isDigit c (hfpd c hc)
    · exact not_whiteSpace_of_mem_exponent ex hex c hc
  · rw [h] at hc
    simp only [List.mem_append] at hc
    rcases hc with hc | hc
    · exact not_whiteSpace_of_isDigit c (hipd c hc)
    · exact not_whiteSpace_of_mem_exponent ex hex c hc

theorem not_whiteSpace_of_mem_decimal (t : List Char) (h : IsStrDecimalLiteral t) :
    ∀ c ∈ t, isStrWhiteSpaceChar c = false := by
  intro c hc
  obtain ⟨sign, u, hsign, hu, h⟩ := h
  rw [h] at hc
  simp only [List.mem_append] at hc
  rcases hc with hc | hc
  · rcases hsign with hs | hs | hs <;> rw [hs] at hc
    · cases hc
    · simp only [List.mem_singleton] at hc
      rw [hc]
      decide
    · simp only [List.mem_singleton] at hc
      rw [hc]
      decide
  · exact not_whiteSpace_of_mem_unsigned u hu c hc

theorem not_whiteSpace_of_mem_nonDecimal (t : List Char) (h : IsNonDecimalIntegerLiteral t) :
    ∀ c ∈ t, isStrWhiteSpaceChar c = false := by
  intro c hc
  obtain ⟨p, ds, ht, _, hds⟩ := h
  rw [ht] at hc
  simp only [List.mem_cons] at hc
  rcases hc with hc | hc | hc
  · rw [hc]
    decide
  · rcases hds with ⟨hp, _⟩ | ⟨hp, _⟩ | ⟨hp, _⟩ <;>
      rcases hp with hp | hp <;> (rw [hc, hp]; decide)
  · rcases hds with ⟨_, hd⟩ | ⟨_, hd⟩ | ⟨_, hd⟩
    · exact not_whiteSpace_of_hexDigit c (hd c hc)
    · apply not_whiteSpace_of_toNat
      have := hd c hc
      unfold IsOctalDigit at this
      omega
    · rcases hd c hc with h0 | h0 <;> (rw [h0]; decide)

theorem negateNumber_ne_nan_of_ne_nan (v : JSValue) (h : v ≠ .nan) : negateNumber v ≠ .nan := by
  cases v <;> simp_all [negateNumber]

theorem stringToNumber_plus_head (r : List Char) (htrim : trimEnd ('+' :: r) = '+' :: r) :
    stringToNumber ('+' :: r) = parseUnsignedDecimal r := by
  unfold stringToNumber
  rw [trimStart_cons_of_not_whiteSpace _ _ (by decide)]
  simp only [htrim]

theorem stringToNumber_dot_head (r : List Char) (htrim : trimEnd ('.' :: r) = '.' :: r) :
    stringToNumber ('.' :: r) = parseUnsignedDecimal ('.' :: r) := by
  unfold stringToNumber
  rw [trimStart_cons_of_not_whiteSpace _ _ (by decide)]
  simp only [htrim]
  split
  · rename_i h; cases h
  all_goals first
    | rfl
    | (rename_i h
       injection h with h1 _
       exact absurd h1 (by decide))

theorem stringToNumber_unsigned (u : List Char) (h : IsStrUnsignedDecimalLiteral u) :
    stringToNumber u = parseUnsignedDecimal u := by
  have hws := not_whiteSpace_of_mem_unsigned u h
  have htrim := trimEnd_eq_self u hws
  rcases h with h | ⟨ip, fp, ex, ⟨hip, hipd⟩, _, hex, h⟩ | ⟨fp, ex, _, _, h⟩ |
      ⟨ip, ex, ⟨hip, hipd⟩, hex, h⟩
  · rw [h]
    rfl
  · obtain ⟨d, ip', rfl⟩ := List.exists_cons_of_ne_nil hip
    have hd := hipd d (List.mem_cons_self _ _)
    rw [h, List.cons_append] at htrim ⊢
    apply stringToNumber_digit_start d _ hd _ htrim
    intro c r' hr
    cases ip' with
    | cons e ip'' =>
      simp only [List.cons_append, List.cons.injEq] at hr
      left
      rw [← hr.1]
      exact hipd e (by simp)
    | nil =>
      simp only [List.nil_append, List.cons.injEq] at hr
      right; left
      exact hr.1.symm
  · rw [h] at htrim ⊢
    exact stringToNumber_dot_head _ htrim
  · obtain ⟨d, ip', rfl⟩ := List.exists_cons_of_ne_nil hip
    have hd := hipd d (List.mem_cons_self _ _)
    rw [h, List.cons_append] at htrim ⊢
    apply stringToNumber_digit_start d _ hd _ htrim
    intro c r' hr
    cases ip' with
    | cons e ip'' =>
      simp only [List.cons_append, List.cons.injEq] at hr
      left
      rw [← hr.1]
      exact hipd e (by simp)
    | nil =>
      simp only [List.nil_append] at hr
      right; right
      exact optionalExponent_head ex hex c r' hr

theorem stringToNumber_decimal_ne_nan (t : List Char) (h : IsStrDecimalLiteral t) :
    stringToNumber t ≠ .nan := by
  have htrim := trimEnd_eq_self t (not_whiteSpace_of_mem_decimal t h)
  obtain ⟨sign, u, hsign, hu, ht⟩ := h
  have hp := parseUnsignedDecimal_ne_nan u hu
  rcases hsign with hs | hs | hs <;> rw [hs] at ht <;> rw [ht] at htrim ⊢
  · rw [List.nil_append, stringToNumber_unsigned u hu]
    exact hp
  · rw [List.singleton_append] at htrim ⊢
    rw [stringToNumber_plus_head u htrim]
    exact hp
  · rw [List.singleton_append] at htrim ⊢
    rw [stringToNumber_minus_head u htrim]
    exact negateNumber_ne_nan_of_ne_nan _ hp

theorem stringToNumber_nonDecimal_ne_nan (t : List Char) (h : IsNonDecimalIntegerLiteral t) :
    stringToNumber t ≠ .nan := by
  have htrim := trimEnd_eq_self t (not_whiteSpace_of_mem_nonDecimal t h)
  obtain ⟨p, ds, ht, hne, hds⟩ := h
  rw [ht] at htrim ⊢
  unfold stringToNumber
  rw [trimStart_cons_of_not_whiteSpace _ _ (by decide)]
  simp only [htrim]
  rcases hds with ⟨hp, hd⟩ | ⟨hp, hd⟩ | ⟨hp, hd⟩ <;> rcases hp with hp | hp <;> subst hp <;>
    simp only []
  · exact parseRadixDigits_ne_nan 16 ds hne (fun c hc => radixDigitValue_of_hexDigit c (hd c hc))
  · exact parseRadixDigits_ne_nan 16 ds hne (fun c hc => radixDigitValue_of_hexDigit c (hd c hc))
  · exact parseRadixDigits_ne_nan 8 ds hne (fun c hc => radixDigitValue_of_octalDigit c (hd c hc))
  · exact parseRadixDigits_ne_nan 8 ds hne (fun c hc => radixDigitValue_of_octalDigit c (hd c hc))
  · exact parseRadixDigits_ne_nan 2 ds hne (fun c hc => radixDigitValue_of_binaryDigit c (hd c hc))
  · exact parseRadixDigits_ne_nan 2 ds hne (fun c hc => radixDigitValue_of_binaryDigit c (hd c hc))

/-- Every numeric literal is read as a number or an infinity. -/
theorem stringToNumber_ne_nan_of_literal (s : List Char) (h : IsStringNumericLiteral s) :
    stringToNumber s ≠ .nan := by
  obtain ⟨ws1, t, ws2, hs, hw1, hw2, ht⟩ := h
  have hws : ∀ c ∈ t, isStrWhiteSpaceChar c = false := by
    rcases ht with ht | ht | ht
    · rw [ht]
      intro c hc
      cases hc
    · exact not_whiteSpace_of_mem_decimal t ht
    · exact not_whiteSpace_of_mem_nonDecimal t ht
  have h1 : trimEnd (trimStart s) = t := by
    rw [hs]
    exact trim_of_decomp ws1 t ws2 hw1 hw2 hws
  have h2 : trimEnd (trimStart t) = t := by
    rw [trimStart_eq_self t hws, trimEnd_eq_self t hws]
  rw [stringToNumber_of_trim s t h1 h2]
  rcases ht with ht | ht | ht
  · rw [ht]
    intro hcon
    cases hcon
  · exact stringToNumber_decimal_ne_nan t ht
  · exact stringToNumber_nonDecimal_ne_nan t ht

/-- The strings `stringToNumber` turns into `NaN` are exactly those that are no numeric
literal. -/
theorem stringToNumber_eq_nan_iff (s : List Char) :
    stringToNumber s = .nan ↔ ¬ IsStringNumericLiteral s := by
  constructor
  · intro h hlit
    exact stringToNumber_ne_nan_of_literal s hlit h
  · intro h
    by_contra hne
    exact h (literal_of_stringToNumber s hne)

/-! ### `parseNumberFromString` on strings that are no literal -/

/-- C12, as stated, fails: the empty string and a string of white space are read as the
number 0, not as `NaN`; and strings outside "integer, decimal, signed" such as `1e3`, `0x1F`,
`Infinity` and ` 12 ` are read as numbers too. -/
theorem parseNumberFromString_blank_is_zero :
    parseNumberFromString "" = .num 0 ∧ parseNumberFromString "   " = .num 0 ∧
    parseNumberFromString "" ≠ .nan ∧ parseNumberFromString "   " ≠ .nan ∧
    parseNumberFromString "1e3" ≠ .nan ∧ parseNumberFromString "0x1F" ≠ .nan ∧
    parseNumberFromString "Infinity" ≠ .nan ∧ parseNumberFromString " 12 " ≠ .nan := by
  have hdigit : ∀ c : Char, c = '1' ∨ c = '2' ∨ c = '3' → c.isDigit = true := by
    intro c hc
    rcases hc with rfl | rfl | rfl <;> decide
  refine ⟨rfl, rfl, by decide, by decide, ?_, ?_, by decide, ?_⟩
  · apply stringToNumber_ne_nan_of_literal
    refine ⟨[], "1e3".toList, [], rfl, by simp, by simp, Or.inr (Or.inl ⟨[], "1e3".toList,
      Or.inl rfl, Or.inr (Or.inr (Or.inr ⟨['1'], ['e', '3'], ⟨by simp, ?_⟩,
        Or.inr ⟨'e', [], ['3'], rfl, Or.inl rfl, Or.inl rfl, by simp, ?_⟩, rfl⟩)), rfl⟩)⟩
    · intro c hc
      simp only [List.mem_singleton] at hc
      rw [hc]
      decide
    · intro c hc
      simp only [List.mem_singleton] at hc
      rw [hc]
      decide
  · apply stringToNumber_ne_nan_of_literal
    refine ⟨[], "0x1F".toList, [], rfl, by simp, by simp, Or.inr (Or.inr ⟨'x', ['1', 'F'], rfl,
      by simp, Or.inl ⟨Or.inl rfl, ?_⟩⟩)⟩
    intro c hc
    simp only [List.mem_cons, List.mem_singleton, List.mem_nil_iff, or_false] at hc
    unfold IsHexDigit
    rcases hc with rfl | rfl <;> decide
  · apply stringToNumber_ne_nan_of_literal
    refine ⟨[' '], "12".toList, [' '], rfl, ?_, ?_, Or.inr (Or.inl ⟨[], "12".toList,
      Or.inl rfl, Or.inr (Or.inr (Or.inr ⟨['1', '2'], [], ⟨by simp, ?_⟩, Or.inl rfl, rfl⟩)),
      rfl⟩)⟩
    · intro c hc
      simp only [List.mem_singleton] at hc
      rw [hc]
      decide
    · intro c hc
      simp only [List.mem_singleton] at hc
      rw [hc]
      decide
    · intro c hc
      simp only [List.mem_cons, List.mem_singleton, List.mem_nil_iff, or_false] at hc
      exact hdigit c (by tauto)

/-- C12, amended: `parseNumberFromString` returns `NaN` exactly for the strings that are no
numeric literal of ECMAScript, which is white space around nothing, around an optionally signed
decimal literal (digits, optional fraction, optional exponent, or `Infinity`), or around a `0x`,
`0o` or `0b` integer. It is a total function: nothing is thrown. -/
theorem parseNumberFromString_nan_iff (value : String) :
    parseNumberFromString value = .nan ↔ ¬ IsStringNumericLiteral value.toList := by
  unfold parseNumberFromString
  exact stringToNumber_eq_nan_iff value.toList

/-- The amended C12 at alphabetic text and at `12abc`: neither is a numeric literal, and both
give `NaN`. -/
theorem parseNumberFromString_nan_iff_witness :
    (¬ IsStringNumericLiteral "test".toList ∧ parseNumberFromString "test" = .nan) ∧
    (¬ IsStringNumericLiteral "12abc".toList ∧ parseNumberFromString "12abc" = .nan) :=
  ⟨⟨(parseNumberFromString_nan_iff "test").mp (by decide), by decide⟩,
   ⟨(parseNumberFromString_nan_iff "12abc").mp (by decide), by decide⟩⟩

/-! ### `toNumber` reads a numeric start of the string -/

theorem decimalString_toList (n : ℤ) :
    (decimalString n).toList = (if n < 0 then ['-'] else []) ++ Nat.toDigits 10 n.natAbs := rfl

theorem decimalString_eq_literal (n : ℤ) (fraction : Option (List Char)) :
    String.mk ((decimalString n).toList ++ fractionText fraction)
      = decimalLiteral (decide (n < 0)) (Nat.toDigits 10 n.natAbs) fraction := by
  unfold decimalLiteral
  rw [decimalString_toList]
  by_cases hn : n < 0 <;> simp [hn]

theorem decimalLiteralValue_decimalString (n : ℤ) (fp : List Char) :
    decimalLiteralValue (decide (n < 0)) (Nat.toDigits 10 n.natAbs) (some fp)
      = (n : ℚ) + (if n < 0 then -1 else 1) * ((digitsValue fp : ℚ) / 10 ^ fp.length) := by
  have h10 : (10 : ℚ) ^ fp.length ≠ 0 := by positivity
  unfold decimalLiteralValue
  simp only [Option.getD_some]
  rw [← digitsValue_eq_ofDigits, digitsValue_append, digitsValue_toDigits]
  by_cases hn : n < 0
  · have hq : (n : ℚ) = -((n.natAbs : ℕ) : ℚ) := by
      have : n = -(n.natAbs : ℤ) := by omega
      conv_lhs => rw [this]
      rw [Int.cast_neg, Int.cast_natCast]
    simp only [hn, decide_True, if_true]
    rw [hq]
    push_cast
    field_simp
    ring
  · have hq : (n : ℚ) = ((n.natAbs : ℕ) : ℚ) := by
      have : n = (n.natAbs : ℤ) := by omega
      conv_lhs => rw [this]
      rw [Int.cast_natCast]
    simp only [hn, decide_False, Bool.false_eq_true, if_false]
    rw [hq]
    push_cast
    field_simp

/-- With a fraction after the decimal string of `n`, the string is read as the Number value of
`n` with the fraction appended, the fraction taking the sign of `n`. -/
theorem parseNumberFromString_with_fraction (n : ℤ) (fp : List Char)
    (hfp : ∀ c ∈ fp, c.isDigit = true) :
    parseNumberFromString (String.mk ((decimalString n).toList ++ '.' :: fp))
      = toNumberValue
        ((n : ℚ) + (if n < 0 then -1 else 1) * ((digitsValue fp : ℚ) / 10 ^ fp.length)) := by
  have hlit := decimalString_eq_literal n (some fp)
  simp only [fractionText] at hlit
  have h := parseNumberFromString_literal_value (decide (n < 0)) (Nat.toDigits 10 n.natAbs)
    (some fp) (toDigits_ne_nil _) (toDigits_all_isDigit _) (by
      intro fp' h'
      injection h' with h'
      rw [← h']
      exact hfp)
  rw [← hlit, decimalLiteralValue_decimalString] at h
  exact h

/-- After the decimal string of `n`, white space changes nothing for unary `+`. -/
theorem parseNumberFromString_with_space (n : ℤ) :
    parseNumberFromString (String.mk ((decimalString n).toList ++ [' ']))
      = toNumberValue (n : ℚ) := by
  have hws : ∀ c ∈ (decimalString n).toList, isStrWhiteSpaceChar c = false := by
    intro c hc
    rw [decimalString_toList, List.mem_append] at hc
    rcases hc with hc | hc
    · by_cases hn : n < 0
      · simp only [hn, if_true, List.mem_singleton] at hc
        rw [hc]
        decide
      · simp [hn] at hc
    · exact not_whiteSpace_of_isDigit c (toDigits_all_isDigit _ c hc)
  have h1 : trimEnd (trimStart ((decimalString n).toList ++ [' '])) = (decimalString n).toList := by
    have := trim_of_decomp [] (decimalString n).toList [' '] (by simp) (by
      intro c hc
      simp only [List.mem_singleton] at hc
      rw [hc]
      decide) hws
    simpa using this
  have h2 : trimEnd (trimStart (decimalString n).toList) = (decimalString n).toList := by
    rw [trimStart_eq_self _ hws, trimEnd_eq_self _ hws]
  unfold parseNumberFromString
  show stringToNumber ((decimalString n).toList ++ [' ']) = _
  rw [stringToNumber_of_trim _ _ h1 h2]
  exact parseNumberFromString_decimalString n

/-- What `toNumber` returns for the decimal string of `n` followed by a rest that does not begin
with a digit: the Number value of `n`. -/
theorem toNumber_decimalString_append (n : ℤ) (t : List Char) (def_ : JSValue)
    (ht : ∀ c r, t = c :: r → c.isDigit = false) :
    toNumber (.str (String.mk ((decimalString n).toList ++ t))) def_ = toNumberValue (n : ℚ) := by
  have h := parseInt10_signed_digits (.str (String.mk ((decimalString n).toList ++ t)))
    (if n < 0 then ['-'] else []) (Nat.toDigits 10 n.natAbs) t rfl (by split <;> simp)
    (toDigits_ne_nil _) (toDigits_all_isDigit _) ht
  rw [toNumber_of_parseInt_value _ _ _ h, digitsValue_toDigits]
  congr 2
  by_cases hn : n < 0
  · simp only [hn, if_true]
    omega
  · have : ¬ (([] : List Char) = ['-']) := by simp
    simp only [hn, if_false, this]
    omega

/-- C19, as stated, fails at `n = 12` with a space as the rest, and with the rest `.0`:
`toNumber` returns 12 for `'12 '` and for `'12.0'`, and `parseNumberFromString` returns 12 for
both as well. Its first half fails at `n = 2 ^ 53 + 1` with an empty rest: `toNumber` of
`'9007199254740993'` is the nearest double, `9007199254740992`. -/
theorem toNumber_and_parse_agree_on_space :
    (toNumber (.str "12 ") (.num 0) = .num 12 ∧ parseNumberFromString "12 " = .num 12) ∧
    (toNumber (.str "12.0") (.num 0) = .num 12 ∧ parseNumberFromString "12.0" = .num 12) ∧
    toNumber (.str "9007199254740993") (.num 0) = .num 9007199254740992 := by
  have hdigit : ∀ (x : Char) (l : List Char), x.isDigit = false →
      ∀ c r, x :: l = c :: r → c.isDigit = false := by
    intro x l hx c r h
    injection h with h1 _
    rw [← h1]
    exact hx
  have h12 : toNumberValue ((12 : ℤ) : ℚ) = .num 12 := by
    rw [toNumberValue_intCast 12 (by norm_num)]
    norm_num
  refine ⟨⟨?_, ?_⟩, ⟨?_, ?_⟩, ?_⟩
  · have h := toNumber_decimalString_append 12 [' '] (.num 0) (hdigit ' ' [] (by decide))
    have e : String.mk ((decimalString 12).toList ++ [' ']) = "12 " := by decide
    rw [e, h12] at h
    exact h
  · have h := parseNumberFromString_with_space 12
    have e : String.mk ((decimalString 12).toList ++ [' ']) = "12 " := by decide
    rw [e, h12] at h
    exact h
  · have h := toNumber_decimalString_append 12 ['.', '0'] (.num 0) (hdigit '.' ['0'] (by decide))
    have e : String.mk ((decimalString 12).toList ++ ['.', '0']) = "12.0" := by decide
    rw [e, h12] at h
    exact h
  · have h := parseNumberFromString_with_fraction 12 ['0'] (by decide)
    have e : String.mk ((decimalString 12).toList ++ '.' :: ['0']) = "12.0" := by decide
    have hv : ((12 : ℤ) : ℚ) + (if (12 : ℤ) < 0 then -1 else 1)
        * ((digitsValue ['0'] : ℚ) / 10 ^ ['0'].length) = ((12 : ℤ) : ℚ) := by
      have : digitsValue ['0'] = 0 := by decide
      rw [this]
      norm_num
    rw [e, hv, h12] at h
    exact h
  · have h := toNumber_decimalString_append 9007199254740993 [] (.num 0)
      (by intro c r h; cases h)
    have e : String.mk ((decimalString 9007199254740993).toList ++ [])
        = "9007199254740993" := by decide
    have hv : ((9007199254740993 : ℤ) : ℚ) = 9007199254740993 := by norm_num
    rw [e, hv, toNumberValue_two_pow_53_add_one] at h
    exact h

/-- C19, amended: for every integer `n` with `|n| ≤ 2 ^ 53`, every rest `t` that is empty or
begins with a character that is no digit, and every default, `toNumber` of the decimal string of
`n` followed by `t` is `n`. `parseNumberFromString` of the same string is `NaN` whenever the
string is no numeric literal, and when `t` is a `.` followed by digits it is the Number value
(the nearest double) of `n` with that fraction appended. -/
theorem toNumber_numeric_start (n : ℤ) (t : List Char) (def_ : JSValue) (hn : |n| ≤ 2 ^ 53)
    (ht : ∀ c r, t = c :: r → c.isDigit = false) :
    toNumber (.str (String.mk ((decimalString n).toList ++ t))) def_ = .num (n : ℚ) ∧
    (¬ IsStringNumericLiteral ((decimalString n).toList ++ t) →
      parseNumberFromString (String.mk ((decimalString n).toList ++ t)) = .nan) ∧
    (∀ fp, t = '.' :: fp → (∀ c ∈ fp, c.isDigit = true) →
      parseNumberFromString (String.mk ((decimalString n).toList ++ t))
        = toNumberValue
          ((n : ℚ) + (if n < 0 then -1 else 1) * ((digitsValue fp : ℚ) / 10 ^ fp.length))) := by
  refine ⟨?_, ?_, ?_⟩
  · rw [toNumber_decimalString_append n t def_ ht, toNumberValue_intCast n hn]
  · intro hlit
    unfold parseNumberFromString
    exact (stringToNumber_eq_nan_iff _).mpr hlit
  · intro fp htfp hfp
    rw [htfp]
    exact parseNumberFromString_with_fraction n fp hfp

/-- The double nearest to `12.7` is `3574732204225331 / 2 ^ 48`. -/
theorem toNumberValue_twelve_point_seven :
    toNumberValue (127 / 10) = .num (3574732204225331 / 281474976710656) := by
  have h1 : (2 : ℚ) ^ (3 : ℤ) ≤ |(127 / 10 : ℚ)| := by
    rw [abs_of_pos (by norm_num)]
    norm_num
  have h2 : |(127 / 10 : ℚ)| < 2 ^ ((3 : ℤ) + 1) := by
    rw [abs_of_pos (by norm_num)]
    norm_num
  have h3 : |(127 / 10 : ℚ) / 2 ^ ((3 : ℤ) - 52) - ((7149464408450662 : ℤ) : ℚ)| < 1 / 2 := by
    rw [abs_lt]
    norm_num
  have hq : roundToDouble (127 / 10) = 3574732204225331 / 281474976710656 := by
    rw [roundToDouble_of_near _ 3 7149464408450662 h1 h2 (by norm_num) h3]
    norm_num
  rw [toNumberValue_of_lt _ (by rw [hq, abs_of_pos (by norm_num)]; norm_num), hq]

/-- The amended C19 at `12abc` and at `12.7`. -/
theorem toNumber_numeric_start_witness :
    (toNumber (.str "12abc") (.num 0) = .num 12 ∧ parseNumberFromString "12abc" = .nan) ∧
    (toNumber (.str "12.7") (.num 0) = .num 12 ∧
      parseNumberFromString "12.7" = .num (3574732204225331 / 281474976710656) ∧
      parseNumberFromString "12.7" ≠ .num 12) := by
  have h1 := toNumber_numeric_start 12 "abc".toList (.num 0) (by decide) (by
    intro c r h
    injection h with h1 _
    rw [← h1]
    decide)
  have h2 := toNumber_numeric_start 12 ".7".toList (.num 0) (by decide) (by
    intro c r h
    injection h with h1 _
    rw [← h1]
    decide)
  have e1 : String.mk ((decimalString 12).toList ++ "abc".toList) = "12abc" := by decide
  have e2 : String.mk ((decimalString 12).toList ++ ".7".toList) = "12.7" := by decide
  rw [e1] at h1
  rw [e2] at h2
  have h127 : parseNumberFromString "12.7" = .num (3574732204225331 / 281474976710656) := by
    have h3 := h2.2.2 "7".toList rfl (by decide)
    have hv : ((12 : ℤ) : ℚ) + (if (12 : ℤ) < 0 then -1 else 1)
        * ((digitsValue "7".toList : ℚ) / 10 ^ "7".toList.length) = 127 / 10 := by
      have : digitsValue "7".toList = 7 := by decide
      rw [this]
      norm_num
    rw [hv, toNumberValue_twelve_point_seven] at h3
    exact h3
  refine ⟨⟨by simpa using h1.1, h1.2.1 ?_⟩, ⟨by simpa using h2.1, h127, ?_⟩⟩
  · exact (stringToNumber_eq_nan_iff _).mp (by decide)
  · rw [h127]
    intro hcon
    injection hcon with hcon
    norm_num at hcon

end NumbersTasks
